import Mathlib

/-!
Verification of the cdecl lexer/parser core (src/cdecl.py).

The Python source is shallowly embedded: the mutable `Lexer` cursor becomes an
explicit state value (number of characters consumed so far plus the remaining
character list), exceptions become an `Except Err` result, and the caret
underline that the source prints immediately before raising an error is
recorded in the error value as an optional span (first caret column, number of
caret characters).  Loops and the mutual recursion between token-group lexing
and token lexing are driven by an explicit fuel parameter; with ample fuel the
fuel never runs out on terminating inputs.
-/

namespace Cdecl

/-- Character predicate mirroring Python `str.isspace` on the ASCII fragment. -/
def pyIsSpace (c : Char) : Bool :=
  c = ' ' || c = '\t' || c = '\n' || c = '\x0d' || c = '\x0b' || c = '\x0c'

/-- Character predicate mirroring Python `str.isalpha` on the ASCII fragment. -/
def pyIsAlpha (c : Char) : Bool :=
  ('a' ≤ c && c ≤ 'z') || ('A' ≤ c && c ≤ 'Z')

/-- Character predicate mirroring Python `str.isdigit` on the ASCII fragment. -/
def pyIsDigit (c : Char) : Bool :=
  '0' ≤ c && c ≤ '9'

/-- First character of an identifier: underscore or letter (cdecl.py line 170). -/
def isIdentStart (c : Char) : Bool :=
  c = '_' || pyIsAlpha c

/-- Continuation character of an identifier (cdecl.py line 174). -/
def isIdentCont (c : Char) : Bool :=
  c = '_' || pyIsAlpha c || pyIsDigit c

/-- PUNCTUATION list from cdecl.py. -/
def PUNCTUATION : List Char := ['[', ']', ',', '*']

/-- PRIMTYPES list from cdecl.py. -/
def PRIMTYPES : List String :=
  ["bool", "int", "short", "long", "char", "void", "float", "double",
   "long double", "long long", "long int"]

/-- LONGTYPES list from cdecl.py. -/
def LONGTYPES : List String := ["double", "long", "int"]

/-- MODIFIERS list from cdecl.py. -/
def MODIFIERS : List String := ["unsigned", "signed", "const", "struct"]

/-- KEYWORDS list from cdecl.py. -/
def KEYWORDS : List String := PRIMTYPES ++ MODIFIERS

/-- Python membership test `tok.string in l` for an optional string: `None`
is never an element of a list of strings. -/
def inStrList (o : Option String) (l : List String) : Bool :=
  match o with
  | some s => l.contains s
  | none => false

/-- Outcome of raising an exception in the source.  `lexerError` and
`parserError` carry the message and, when the source printed a caret underline
just before raising, the printed span `(first column, caret count)`.
`runtimeError` models Python `RuntimeError`, `typeError` models the `TypeError`
raised by arithmetic on `None`, `attributeError` and `indexError` model
attribute access on `None` and `list[-1]` on an empty list.  `outOfFuel` is an
artifact of the bounded recursion and corresponds to no source behaviour. -/
inductive Err where
  | lexerError (msg : String) (span : Option (Nat × Nat))
  | parserError (msg : String) (span : Option (Nat × Nat))
  | runtimeError (msg : String)
  | typeError
  | attributeError
  | indexError
  | outOfFuel
deriving Repr, DecidableEq

/-- Token of the lexer (class `Token`).  A leaf has `string = some s`; a group
has `string = none` and `items = some children`.  `start` and `length` are
`Option Nat` because the source stores `None` there in places (a group's
length before it is closed, and the parameter groups the parser creates with
`start = None`). -/
inductive Tok where
  | mk (start : Option Nat) (string : Option String) (modifiers : List String)
      (length : Option Nat) (items : Option (List Tok)) : Tok

/-- Projection for `Token.start`. -/
def Tok.start : Tok → Option Nat
  | .mk a _ _ _ _ => a

/-- Projection for `Token.string`. -/
def Tok.string : Tok → Option String
  | .mk _ s _ _ _ => s

/-- Projection for `Token.modifiers`. -/
def Tok.modifiers : Tok → List String
  | .mk _ _ m _ _ => m

/-- Projection for `Token.length`. -/
def Tok.length : Tok → Option Nat
  | .mk _ _ _ n _ => n

/-- Projection for `Token.items`. -/
def Tok.items : Tok → Option (List Tok)
  | .mk _ _ _ _ it => it

/-- `Token.__init__` with a string: a leaf token. -/
def Tok.leaf (start : Nat) (s : String) : Tok :=
  .mk (some start) (some s) [] (some s.length) none

/-- `Token.__init__` with `string=None`: a token group (length not yet known). -/
def Tok.group (start : Option Nat) : Tok :=
  .mk start none [] none (some [])

/-- Functional update of the `string` field. -/
def Tok.withString (t : Tok) (s : Option String) : Tok :=
  match t with
  | .mk a _ m n it => .mk a s m n it

/-- Functional update of the `length` field. -/
def Tok.withLength (t : Tok) (n : Option Nat) : Tok :=
  match t with
  | .mk a s m _ it => .mk a s m n it

/-- `Token.is_name`: the string is present and starts with `_` or a letter. -/
def Tok.is_name (t : Tok) : Bool :=
  match t.string with
  | none => false
  | some s =>
    match s.data with
    | [] => false
    | c :: _ => c = '_' || pyIsAlpha c

/-- `Token.is_type`: a name that is a primitive type or carries `struct`. -/
def Tok.is_type (t : Tok) : Bool :=
  t.is_name && (inStrList t.string PRIMTYPES || t.modifiers.contains "struct")

/-- `Token.add_modifier`: raises `RuntimeError('internal error')` when the
modifier is already present or is not a known modifier. -/
def Tok.add_modifier (t : Tok) (modStr : String) : Except Err Tok :=
  if t.modifiers.contains modStr || !(MODIFIERS.contains modStr) then
    .error (.runtimeError "internal error")
  else
    match t with
    | .mk a s m n it => .ok (.mk a s (m ++ [modStr]) n it)

/-- `Token.has_modifier`. -/
def Tok.has_modifier (t : Tok) (modStr : String) : Bool :=
  t.modifiers.contains modStr

/-- `Token.is_group`: the string is absent. -/
def Tok.is_group (t : Tok) : Bool :=
  t.string = none

/-- `Token.is_num`: the string is present and starts with a digit. -/
def Tok.is_num (t : Tok) : Bool :=
  match t.string with
  | none => false
  | some s =>
    match s.data with
    | [] => false
    | c :: _ => pyIsDigit c

/-- Decimal value of a digit string, as computed by Python `int`. -/
def digitsVal (cs : List Char) (acc : Nat) : Nat :=
  match cs with
  | [] => acc
  | c :: rest => digitsVal rest (acc * 10 + (c.toNat - 48))

/-- `Token.get_num`: `int(self.string)` guarded by an internal-error check. -/
def Tok.get_num (t : Tok) : Except Err Nat :=
  if t.is_group || !t.is_num then .error (.runtimeError "internal error")
  else
    match t.string with
    | some s => .ok (digitsVal s.data 0)
    | none => .error (.runtimeError "internal error")

/-- The span printed by `Token.underline`: `(self.start, self.length)` carets.
Arithmetic on a `None` start or length raises `TypeError` in the source. -/
def Tok.underlineSpan (t : Tok) : Except Err (Nat × Nat) :=
  match t.start, t.length with
  | some a, some n => .ok (a, n)
  | _, _ => .error .typeError

/-- Lexer cursor: number of characters already consumed (`curIndex`) and the
remaining characters of the input. -/
structure LexSt where
  pos : Nat
  rem : List Char
deriving Repr, DecidableEq

/-- `Lexer.curchar`. -/
def curchar (st : LexSt) : Option Char :=
  st.rem.head?

/-- Advance the cursor by one character (the state effect of `Lexer.nextchar`). -/
def advance (st : LexSt) : LexSt :=
  ⟨st.pos + 1, st.rem.tail⟩

/-- The character loop of `Lexer.skip_space` over the remaining characters. -/
def skip_chars : Nat → List Char → LexSt
  | p, [] => ⟨p, []⟩
  | p, c :: cs => if pyIsSpace c then skip_chars (p + 1) cs else ⟨p, c :: cs⟩

/-- `Lexer.skip_space`: advance while the current character is whitespace. -/
def skip_space (st : LexSt) : LexSt :=
  skip_chars st.pos st.rem

/-- `Lexer.parse_ident`: skip whitespace, then read an identifier if the
current character starts one.  The cursor motion of the whitespace skip is
kept even when no identifier is found, exactly as in the source. -/
def parse_ident (st : LexSt) : Option Tok × LexSt :=
  match skip_space st with
  | ⟨p, []⟩ => (none, ⟨p, []⟩)
  | ⟨p, c :: cs⟩ =>
    if isIdentStart c then
      let body := cs.takeWhile isIdentCont
      let rest := cs.dropWhile isIdentCont
      (some (Tok.leaf p (String.mk (c :: body))), ⟨p + 1 + body.length, rest⟩)
    else
      (none, ⟨p, c :: cs⟩)

/-- The comparison `nextTok in mods` at cdecl.py line 215: it asks whether a
`Token` object equals one of the accumulated modifier strings.  `Token` defines
no equality, so the comparison falls back to object identity and is always
false. -/
def tokenInStringList (_ : Tok) (_ : List String) : Bool :=
  false

/-- The `for mod in mods: tok.add_modifier(mod)` loop (cdecl.py lines 265-266). -/
def add_mods (tok : Tok) (mods : List String) : Except Err Tok :=
  match mods with
  | [] => .ok tok
  | m :: rest =>
    do
      let tok ← tok.add_modifier m
      add_mods tok rest

mutual

/-- `Lexer.parse_type` (cdecl.py lines 181-268).  Returns `(none, st)` on the
implicit `return None` fall-through (unreachable from `next_token`, which only
calls it on keyword tokens). -/
def parse_type (fuel : Nat) (st : LexSt) (tok : Tok) : Except Err (Option Tok × LexSt) :=
  match fuel with
  | 0 => .error .outOfFuel
  | fuel + 1 =>
    if tok.string = some "struct" then
      match parse_ident st with
      | (none, st₁) => .error (.lexerError "expected an identifier" (some (st₁.pos, 1)))
      | (some name, st₁) =>
        match name.string with
        | none => .error (.lexerError "expected an identifier" (some (st₁.pos, 1)))
        | some nameStr =>
          if KEYWORDS.contains nameStr then
            match name.start, name.length with
            | some a, some n =>
              .error (.lexerError ("cannot use \x27" ++ nameStr ++ "\x27 as an identifier") (some (a, n)))
            | _, _ => .error .typeError
          else
            match tok.start with
            | none => .error .typeError
            | some a =>
              do
                let tok := tok.withLength (some (st₁.pos - a))
                let tok ← tok.add_modifier "struct"
                .ok (some (tok.withString (some nameStr)), st₁)
    else if inStrList tok.string PRIMTYPES then
      if tok.string = some "long" then
        match parse_ident st with
        | (some nextTok, st₁) =>
          match nextTok.string with
          | some nts =>
            if LONGTYPES.contains nts then
              match tok.start with
              | none => .error .typeError
              | some a =>
                .ok (some ((tok.withString (some ("long " ++ nts))).withLength (some (st₁.pos - a))), st₁)
            else
              .ok (some tok, st)
          | none => .ok (some tok, st)
        | (none, _) => .ok (some tok, st)
      else
        .ok (some tok, st)
    else if inStrList tok.string MODIFIERS then
      match tok.string with
      | none => .ok (none, st)
      | some ts =>
        let (nextTok?, st₁) := parse_ident st
        mod_loop fuel tok [ts] st st₁ nextTok?
    else
      .ok (none, st)

/-- The modifier-accumulation `while` loop inside `parse_type` (cdecl.py lines
213-243), with the saved rewind state `beforeNextTok`. -/
def mod_loop (fuel : Nat) (tok : Tok) (mods : List String) (beforeNextTok : LexSt)
    (st : LexSt) (nextTok? : Option Tok) : Except Err (Option Tok × LexSt) :=
  match fuel with
  | 0 => .error .outOfFuel
  | fuel + 1 =>
    match nextTok? with
    | some nextTok =>
      if inStrList nextTok.string MODIFIERS then
        if tokenInStringList nextTok mods then
          match nextTok.start, nextTok.length with
          | some a, some n => .error (.lexerError "cannot use modifiers twice" (some (a, n)))
          | _, _ => .error .typeError
        else if nextTok.string = some "struct" then
          match tok.start with
          | none => .error .typeError
          | some a =>
            if mods.length ≠ 1 ∨ mods.get? 0 ≠ some "const" then
              .error (.lexerError "the only valid modifier for struct is \x27const\x27"
                (some (a, st.pos - a)))
            else
              do
                let tok := tok.withLength (some (st.pos - a))
                let tok ← tok.add_modifier "const"
                parse_type fuel st (tok.withString (some "struct"))
        else if nextTok.string = some "signed" ∨ nextTok.string = some "unsigned" then
          if "signed" ∈ mods ∨ "unsigned" ∈ mods then
            match tok.start with
            | none => .error .typeError
            | some a =>
              .error (.lexerError "cannot have signed and unsigned" (some (a, st.pos - a)))
          else
            match nextTok.string with
            | some ns =>
              let (nextTok?, st₁) := parse_ident st
              mod_loop fuel tok (mods ++ [ns]) st st₁ nextTok?
            | none => .ok (none, st)
        else
          match nextTok.string with
          | some ns =>
            let (nextTok?, st₁) := parse_ident st
            mod_loop fuel tok (mods ++ [ns]) st st₁ nextTok?
          | none => .ok (none, st)
      else
        resolve_mods fuel tok mods beforeNextTok st (some nextTok)
    | none => resolve_mods fuel tok mods beforeNextTok st none

/-- The code after the modifier loop in `parse_type` (cdecl.py lines 245-268):
default the type to `int` after a trailing `signed`/`unsigned`, or require a
primitive type name; then attach all accumulated modifiers and re-enter
`parse_type` on the resolved token. -/
def resolve_mods (fuel : Nat) (tok : Tok) (mods : List String) (beforeNextTok : LexSt)
    (st : LexSt) (nextTok? : Option Tok) : Except Err (Option Tok × LexSt) :=
  match fuel with
  | 0 => .error .outOfFuel
  | fuel + 1 =>
    match nextTok? with
    | none =>
      if mods.getLast? = some "signed" ∨ mods.getLast? = some "unsigned" then
        finish_mods fuel (tok.withString (some "int")) mods beforeNextTok
      else
        .error (.lexerError "expected a type name or modifier" (some (st.pos, 1)))
    | some nt =>
      if inStrList nt.string PRIMTYPES then
        finish_mods fuel (tok.withString nt.string) mods st
      else if mods.getLast? = some "signed" ∨ mods.getLast? = some "unsigned" then
        finish_mods fuel (tok.withString (some "int")) mods beforeNextTok
      else
        match nt.start, nt.length with
        | some a, some n => .error (.lexerError "expected a type name or modifier" (some (a, n)))
        | _, _ => .error .typeError

/-- The tail of the modifier branch (cdecl.py lines 264-268): set the token
length, attach the accumulated modifiers, and re-parse as a resolved type. -/
def finish_mods (fuel : Nat) (tok : Tok) (mods : List String) (st : LexSt) :
    Except Err (Option Tok × LexSt) :=
  match fuel with
  | 0 => .error .outOfFuel
  | fuel + 1 =>
    match tok.start with
    | none => .error .typeError
    | some a =>
      do
        let tok := tok.withLength (some (st.pos - a))
        let tok ← add_mods tok mods
        parse_type fuel st tok

end

mutual

/-- `Lexer.next_token` (cdecl.py lines 270-320).  Returns `(none, st)` at end
of input. -/
def next_token (fuel : Nat) (st : LexSt) : Except Err (Option Tok × LexSt) :=
  match fuel with
  | 0 => .error .outOfFuel
  | fuel + 1 =>
    let st := skip_space st
    match curchar st with
    | none => .ok (none, st)
    | some ch =>
      if ch ∈ PUNCTUATION then
        if ch = '*' then
          let initial := st
          let st₁ := advance st
          match parse_ident st₁ with
          | (some ident, st₂) =>
            if ident.string = some "const" then
              do
                let tok ← (Tok.leaf initial.pos "*").add_modifier "const"
                .ok (some (tok.withLength (some (st₂.pos - initial.pos))), st₂)
            else
              .ok (some (Tok.leaf initial.pos "*"), advance initial)
          | (none, _) =>
            .ok (some (Tok.leaf initial.pos "*"), advance initial)
        else
          .ok (some (Tok.leaf st.pos (String.mk [ch])), advance st)
      else
        match parse_ident st with
        | (some tok, st₁) =>
          if inStrList tok.string KEYWORDS then
            parse_type fuel st₁ tok
          else
            .ok (some tok, st₁)
        | (none, _) =>
          if pyIsDigit ch then
            let body := st.rem.tail.takeWhile pyIsDigit
            let rest := st.rem.tail.dropWhile pyIsDigit
            .ok (some (Tok.leaf st.pos (String.mk (ch :: body))), ⟨st.pos + 1 + body.length, rest⟩)
          else if ch = '(' then
            parse_tokens fuel true (advance st)
          else if ch = ')' then
            .error (.lexerError "unmatched )" (some (st.pos, 1)))
          else
            .error (.lexerError "invalid character" (some (st.pos, 1)))

/-- `Lexer.parse_tokens` (cdecl.py lines 144-160): lex a token group.  When
`nested` the group starts at the already consumed `(` and a closing `)` is
required. -/
def parse_tokens (fuel : Nat) (nested : Bool) (st : LexSt) : Except Err (Option Tok × LexSt) :=
  match fuel with
  | 0 => .error .outOfFuel
  | fuel + 1 =>
    tokens_loop fuel nested (if nested then st.pos - 1 else st.pos) [] st

/-- The `while True` loop of `parse_tokens`. -/
def tokens_loop (fuel : Nat) (nested : Bool) (start : Nat) (items : List Tok) (st : LexSt) :
    Except Err (Option Tok × LexSt) :=
  match fuel with
  | 0 => .error .outOfFuel
  | fuel + 1 =>
    if nested ∧ curchar st = some ')' then
      let st₁ := advance st
      .ok (some (.mk (some start) none [] (some (st₁.pos - start)) (some items)), st₁)
    else
      match next_token fuel st with
      | .error e => .error e
      | .ok (none, st₁) =>
        if nested then
          .error (.lexerError "expected closing )" none)
        else
          .ok (some (.mk (some start) none [] (some (st₁.pos - start)) (some items)), st₁)
      | .ok (some tok, st₁) => tokens_loop fuel nested start (items ++ [tok]) st₁

end

/-- Ample fuel for lexing a string: the fuel passed to every looping lexer
function before any character of `s` has been consumed. -/
def lexFuel (s : String) : Nat :=
  8 * (s.length + 1) + 8

/-- `Lexer(line).parse_tokens(nested=False)`: lex a whole input line into the
root token group. -/
def lexLine (s : String) : Except Err Tok :=
  match parse_tokens (lexFuel s) false ⟨0, s.data⟩ with
  | .error e => .error e
  | .ok (some g, _) => .ok g
  | .ok (none, _) => .error .outOfFuel

/-- Declarator AST node (classes `Type`, `Pointer`, `Array`, `Function`).
Each variant carries its warning list; `Type` has no child in the source, so
none is modelled.  `Function.params` is `none` for the Python `params = None`
sentinel (unspecified arity) and `some l` for an explicit list; list entries
are the `Option Node` results of recursive `parse` calls. -/
inductive Node where
  | type (typeName : String) (modifiers : List String) (warnings : List String)
  | pointer (child : Option Node) (isConst : Bool) (warnings : List String)
  | array (child : Option Node) (size : Option Nat) (warnings : List String)
  | fn (returns : Option Node) (params : Option (List (Option Node))) (warnings : List String)

/-- `Node.add_warning`. -/
def Node.add_warning (n : Node) (msg : String) : Node :=
  match n with
  | .type t m w => .type t m (w ++ [msg])
  | .pointer c b w => .pointer c b (w ++ [msg])
  | .array c s w => .array c s (w ++ [msg])
  | .fn r p w => .fn r p (w ++ [msg])

/-- The check `type(x) == Function` from the source. -/
def Node.isFn : Node → Bool
  | .fn _ _ _ => true
  | _ => false

/-- `Type(typeTok)`: a terminal node built from a type token.  Every type
token is a leaf, so its string is present. -/
def Node.typeOfTok (t : Tok) : Node :=
  .type (t.string.getD "") t.modifiers []

/-- Parser state: the token group being consumed, the accumulated child node
and the current index (`Parser.__init__` fields). -/
structure PSt where
  tokens : Tok
  child : Option Node
  index : Nat

/-- The item list of the parser's token group (`self.tokens` is always a
group once construction succeeded). -/
def PSt.items (p : PSt) : List Tok :=
  p.tokens.items.getD []

/-- Replace the accumulated child node. -/
def PSt.setChild (p : PSt) (c : Option Node) : PSt :=
  ⟨p.tokens, c, p.index⟩

/-- `Parser.next`: move past the current token. -/
def PSt.incr (p : PSt) : PSt :=
  ⟨p.tokens, p.child, p.index + 1⟩

/-- `Parser.current`: the token at the current index, if any. -/
def PSt.current (p : PSt) : Option Tok :=
  p.items.get? p.index

/-- `Parser.error_at`: print a caret underline at the token and raise
`ParserError`.  A `None` token gives `AttributeError`; a token whose start or
length is `None` gives `TypeError` from the underline arithmetic. -/
def error_at (tok? : Option Tok) (msg : String) : Err :=
  match tok? with
  | none => .attributeError
  | some t =>
    match t.start, t.length with
    | some a, some n => .parserError msg (some (a, n))
    | _, _ => .typeError

/-- `Parser.error`: report at the current token, or just past the last token
when the index is beyond the end (`tokens[-1]` on an empty list raises
`IndexError`). -/
def parser_error (p : PSt) (msg : String) : Err :=
  if p.index ≥ p.items.length then
    match p.items.getLast? with
    | none => .indexError
    | some last =>
      match last.start, last.length with
      | some a, some n => .parserError msg (some (a + n, 1))
      | _, _ => .typeError
  else
    error_at (p.items.get? p.index) msg

/-- `Parser.__init__`: reject a non-group token or an empty group with the
user-facing `ParserError` after underlining the offending token group
(`TypeError` when the group's start is `None`, as for the parameter groups the
parser itself creates). -/
def parserInit (tokens : Tok) (child : Option Node) : Except Err PSt :=
  if ¬ tokens.is_group then
    match tokens.underlineSpan with
    | .ok sp => .error (.parserError "expected more tokens here" (some sp))
    | .error e => .error e
  else if (tokens.items.getD []).length = 0 then
    match tokens.underlineSpan with
    | .ok sp => .error (.parserError "expected more tokens here" (some sp))
    | .error e => .error e
  else
    .ok ⟨tokens, child, 0⟩

/-- `Parser.check_void_decl`. -/
def check_void_decl (p : PSt) (voidTok? : Option Tok) : Except Err Unit :=
  if p.child.isNone then .error (error_at voidTok? "void on its own is not a valid type")
  else .ok ()

/-- The pointer-chain loop of `Parser.parse` (cdecl.py lines 491-494). -/
def pointer_loop (fuel : Nat) (p : PSt) : PSt :=
  match fuel with
  | 0 => p
  | fuel + 1 =>
    match p.current with
    | some t =>
      if t.string = some "*" then
        pointer_loop fuel ((p.setChild (some (.pointer p.child (t.has_modifier "const") []))).incr)
      else p
    | none => p

/-- The array-dimension loop of `Parser.parse` (cdecl.py lines 546-556). -/
def dims_loop (fuel : Nat) (dims : List (Option Nat)) (p : PSt) :
    Except Err (List (Option Nat) × PSt) :=
  match fuel with
  | 0 => .error .outOfFuel
  | fuel + 1 =>
    match p.current with
    | some t =>
      if t.string = some "[" then
        let p := p.incr
        match p.current with
        | none => .error (parser_error p "expected another token")
        | some t₂ =>
          do
            let (dim, p) ←
              if t₂.is_num then
                do
                  let n ← t₂.get_num
                  pure (some n, p.incr)
              else
                pure ((none : Option Nat), p)
            match p.current with
            | none => .error (parser_error p "expected another token")
            | some t₃ =>
              if ¬ t₃.string = some "]" then .error (parser_error p "expected ]")
              else dims_loop fuel (dims ++ [dim]) p.incr
      else .ok (dims, p)
    | none => .ok (dims, p)

/-- The `for dim in reversed(dimensions)` fold of `Parser.parse` (cdecl.py
lines 558-565); the argument list is already reversed. -/
def fold_dims (voidTok? : Option Tok) (dims : List (Option Nat)) (child? : Option Node) :
    Except Err (Option Node) :=
  match dims with
  | [] => .ok child?
  | d :: rest =>
    match child? with
    | none => .error (error_at voidTok? "arrays cannot store void")
    | some c =>
      let warns := if c.isFn then ["illegal in C: arrays cannot store raw functions"] else []
      fold_dims voidTok? rest (some (.array (some c) d warns))

/-- Splitting of a parameter group: collect tokens up to a top-level `,` or
the end of the group (the inner `while` at cdecl.py lines 530-534). -/
def collect_param : List Tok → List Tok × List Tok
  | [] => ([], [])
  | t :: ts =>
    if t.string = some "," then ([], ts)
    else
      let (c, r) := collect_param ts
      (t :: c, r)

mutual

/-- `Parser.parse` (cdecl.py lines 476-584).  Returns the final `self.child`;
`none` corresponds to Python returning `None`. -/
def parser_parse (fuel : Nat) (p : PSt) : Except Err (Option Node) :=
  match fuel with
  | 0 => .error .outOfFuel
  | fuel + 1 =>
    if p.child.isNone then
      match p.current with
      | none => .error (parser_error p "expected another token")
      | some t =>
        if ¬ t.is_type then .error (parser_error p "expected a type name")
        else
          let voidTok? : Option Tok := if t.string = some "void" then some t else none
          let p := if t.string = some "void" then p else p.setChild (some (Node.typeOfTok t))
          let p := p.incr
          match p.current with
          | none =>
            do
              let _ ← check_void_decl p voidTok?
              .ok p.child
          | some _ => parse_rest fuel voidTok? p
    else
      parse_rest fuel none p

/-- The remainder of `Parser.parse` after the base-type step: pointers, the
optional name or nested group, the parameter list, array dimensions, leftover
check, function wrap, parent-group recursion, and the final void check. -/
def parse_rest (fuel : Nat) (voidTok? : Option Tok) (p : PSt) : Except Err (Option Node) :=
  match fuel with
  | 0 => .error .outOfFuel
  | fuel + 1 =>
    let p := pointer_loop (p.items.length + 1) p
    do
      let (parentGroup?, p) ←
        match p.current with
        | none => pure ((none : Option Tok), p)
        | some t =>
          if t.is_name then
            match t.string with
            | some s =>
              if KEYWORDS.contains s then
                .error (parser_error p ("cannot use \x27" ++ s ++ "\x27 as an identifier"))
              else
                pure ((none : Option Tok), p.incr)
            | none =>
              pure ((none : Option Tok), p.incr)
          else if t.is_group then
            pure (some t, p.incr)
          else
            pure ((none : Option Tok), p)
      let (isFunction, params?, p) ←
        match p.current with
        | some t =>
          if t.is_group then
            let paramToks := t.items.getD []
            do
              let params? ←
                if paramToks.length = 0 then
                  pure (none : Option (List (Option Node)))
                else if paramToks.length = 1 ∧ (paramToks.get? 0).bind Tok.string = some "void" then
                  pure (some ([] : List (Option Node)))
                else
                  do
                    let l ← params_loop fuel paramToks []
                    pure (some l)
              pure (true, params?, p.incr)
          else
            pure (false, some ([] : List (Option Node)), p)
        | none => pure (false, some ([] : List (Option Node)), p)
      let (dims, p) ← dims_loop (p.items.length + 1) [] p
      let c? ← fold_dims voidTok? dims.reverse p.child
      let p := p.setChild c?
      if p.current.isSome then
        .error (parser_error p "unexpected tokens")
      else
        do
          let p ←
            if isFunction then
              let warns :=
                match p.child with
                | some c => if c.isFn then ["illegal in C: you cannot return a raw function"] else []
                | none => []
              pure (p.setChild (some (.fn p.child params? warns)))
            else
              pure p
          let p ←
            match parentGroup? with
            | some g =>
              do
                let st ← parserInit g p.child
                let c ← parser_parse fuel st
                pure (p.setChild c)
            | none => pure p
          let _ ← check_void_decl p voidTok?
          .ok p.child

/-- The parameter-splitting loop of `Parser.parse` (cdecl.py lines 524-541):
split on commas, parse each slice as a fresh parameter group (created with
`start = None`), and flag raw-function parameters. -/
def params_loop (fuel : Nat) (items : List Tok) (acc : List (Option Node)) :
    Except Err (List (Option Node)) :=
  match fuel with
  | 0 => .error .outOfFuel
  | fuel + 1 =>
    match items with
    | [] => .ok acc
    | _ =>
      let (collected, rest) := collect_param items
      let param : Tok := .mk none none [] none (some collected)
      do
        let st ← parserInit param none
        let node? ← parser_parse fuel st
        let node? :=
          match node? with
          | some n =>
            if n.isFn then
              some (n.add_warning "illegal in C: this is a raw function being passed as a parameter")
            else some n
          | none => none
        params_loop fuel rest (acc ++ [node?])

end

/-- Fuel bound for the parser: the number of recursive `Parser(...).parse()`
invocations is bounded by the input length. -/
def parseFuel (s : String) : Nat :=
  s.length + 8

/-- The driver pipeline for one stripped input line: lex it, construct a
`Parser` over the root group, and parse (cdecl.py lines 620-629). -/
def pipeline (s : String) : Except Err (Option Node) :=
  match lexLine s with
  | .error e => .error e
  | .ok g =>
    match parserInit g none with
    | .error e => .error e
    | .ok p => parser_parse (parseFuel s) p

/-- A list of characters that is entirely whitespace. -/
def allSpace (l : List Char) : Prop :=
  ∀ c ∈ l, pyIsSpace c = true

/-- Equivalence of tokens in the sense of the re-lexing property: leaves must
have the same lexeme string and the same modifier set; groups must have the
same child count and pairwise-equivalent children.  Source offsets are not
part of the comparison. -/
inductive EquivTok : Tok → Tok → Prop where
  | leaf {t u : Tok} : t.items = none → u.items = none → t.string = u.string →
      (∀ m, m ∈ t.modifiers ↔ m ∈ u.modifiers) → EquivTok t u
  | group {t u : Tok} {ts us : List Tok} : t.items = some ts → u.items = some us →
      ts.length = us.length →
      (∀ (i : Nat) (a b : Tok), ts.get? i = some a → us.get? i = some b → EquivTok a b) →
      EquivTok t u

/-- Membership of a token in the token tree rooted at another token (the root
itself included). -/
inductive SubTok : Tok → Tok → Prop where
  | refl (t : Tok) : SubTok t t
  | child {c t root : Tok} {l : List Tok} : SubTok t root → t.items = some l → c ∈ l →
      SubTok c root

/-- Re-lexing the character list `w` produces a token equivalent to `t`,
consuming all of `w`: running `Lexer(w).next_token()` (with enough fuel)
returns an equivalent token and ends at the end of `w`. -/
def relexes (w : List Char) (t : Tok) : Prop :=
  ∃ (fl : Nat) (t₂ : Tok), next_token fl ⟨0, w⟩ = .ok (some t₂, ⟨w.length, []⟩) ∧ EquivTok t t₂

/-- The re-lexing property for a token with respect to the original input
characters `S`: the token records a span `[start, start+length)` of `S`, and
re-lexing exactly that slice of `S` reproduces an equivalent token. -/
def spanRelexes (S : List Char) (t : Tok) : Prop :=
  ∃ a n, t.start = some a ∧ t.length = some n ∧ relexes ((S.drop a).take n) t

/-- A boundary after an identifier: nothing follows, or the next character
cannot continue an identifier. -/
def identBoundary (rest : List Char) : Prop :=
  rest = [] ∨ ∃ d ds, rest = d :: ds ∧ isIdentCont d = false

/-- A boundary after skipped whitespace at which no identifier starts. -/
def noIdentBoundary (rest : List Char) : Prop :=
  rest = [] ∨ ∃ d ds, rest = d :: ds ∧ pyIsSpace d = false ∧ isIdentStart d = false

/-- Functional update of the `start` field. -/
def Tok.withStart (t : Tok) (a : Option Nat) : Tok :=
  match t with
  | .mk _ s m n it => .mk a s m n it

/-- Relation between the tails lying beyond a consumed region in the
simulation argument: either the new tail is empty (re-lexing an exact span at
the end of the input), or both tails agree up to and including a closing
parenthesis (the unconsumed remainder of an enclosing token group).  In both
cases every speculative lookahead of the lexer resolves the same way. -/
def TailRel (t1 t2 : List Char) : Prop :=
  t2 = [] ∨ ∃ u r1 r2, t1 = u ++ ')' :: r1 ∧ t2 = u ++ ')' :: r2

/-- One lexer state lies at or beyond another on the same input: the second
state's remainder is a suffix of the first state's remainder and the position
advanced by exactly the number of consumed characters. -/
def SuffSt (st0 st : LexSt) : Prop :=
  ∃ c, st0.rem = c ++ st.rem ∧ st.pos = st0.pos + c.length

/-- Consumption property of `next_token` at a given fuel. -/
def ConsumeNT (f : Nat) : Prop :=
  ∀ st res st', next_token f st = .ok (res, st') → SuffSt st st'

/-- Consumption property of `tokens_loop` at a given fuel. -/
def ConsumeTL (f : Nat) : Prop :=
  ∀ nested start items st res st', tokens_loop f nested start items st = .ok (res, st') →
    SuffSt st st'

/-- Consumption property of `parse_tokens` at a given fuel. -/
def ConsumePTK (f : Nat) : Prop :=
  ∀ nested st res st', parse_tokens f nested st = .ok (res, st') → SuffSt st st'

/-- Consumption property of `parse_type` at a given fuel. -/
def ConsumePT (f : Nat) : Prop :=
  ∀ st tok res st', parse_type f st tok = .ok (res, st') → SuffSt st st'

/-- Consumption property of `mod_loop` at a given fuel: from any state at or
beyond a base state, with a saved rewind state also at or beyond it, the loop
exits at or beyond the base state. -/
def ConsumeML (f : Nat) : Prop :=
  ∀ st0 tok mods saved st ntk res st', SuffSt st0 saved → SuffSt st0 st →
    mod_loop f tok mods saved st ntk = .ok (res, st') → SuffSt st0 st'

/-- Consumption property of `resolve_mods` at a given fuel. -/
def ConsumeRM (f : Nat) : Prop :=
  ∀ st0 tok mods saved st ntk res st', SuffSt st0 saved → SuffSt st0 st →
    resolve_mods f tok mods saved st ntk = .ok (res, st') → SuffSt st0 st'

/-- Consumption property of `finish_mods` at a given fuel. -/
def ConsumeFM (f : Nat) : Prop :=
  ∀ st tok mods res st', finish_mods f tok mods st = .ok (res, st') → SuffSt st st'

/-- Option-token relation used in the simulation: both absent, or both
present with the same lexeme string (the only field the success paths of the
modifier loop ever read from the lookahead token). -/
def NtkRel (n1 n2 : Option Tok) : Prop :=
  (n1 = none ∧ n2 = none) ∨ ∃ a b, n1 = some a ∧ n2 = some b ∧ a.string = b.string

/-- Simulation property of `next_token`: a run that consumes exactly `c` and
stops with tail `τ₁` transfers to any start position and any tail related by
`TailRel`, producing an equivalent token. -/
def SimNT (f : Nat) : Prop :=
  ∀ p₁ c τ₁ tok, next_token f ⟨p₁, c ++ τ₁⟩ = .ok (some tok, ⟨p₁ + c.length, τ₁⟩) →
    ∀ p₂ τ₂, TailRel τ₁ τ₂ →
      ∃ tok₂, next_token f ⟨p₂, c ++ τ₂⟩ = .ok (some tok₂, ⟨p₂ + c.length, τ₂⟩) ∧
        EquivTok tok tok₂

/-- Simulation property of the nested `tokens_loop`: a successful group run
consuming exactly `c` ends on a closing parenthesis, and transfers to any
start position, any `TailRel`-related tail and any pointwise-equivalent list
of already-collected items. -/
def SimTL (f : Nat) : Prop :=
  ∀ start₁ items₁ p₁ c τ₁ g,
    tokens_loop f true start₁ items₁ ⟨p₁, c ++ τ₁⟩ = .ok (some g, ⟨p₁ + c.length, τ₁⟩) →
    c.getLast? = some ')' ∧
    ∀ start₂ items₂ p₂ τ₂, TailRel τ₁ τ₂ → items₁.length = items₂.length →
      (∀ i a b, items₁.get? i = some a → items₂.get? i = some b → EquivTok a b) →
      ∃ g₂, tokens_loop f true start₂ items₂ ⟨p₂, c ++ τ₂⟩ =
          .ok (some g₂, ⟨p₂ + c.length, τ₂⟩) ∧ EquivTok g g₂

/-- Tail relation for the `parse_type` family: either the new tail is empty
and the old tail begins at an identifier boundary (the situation when
re-lexing an exact token span), or both tails start with the shared closing
parenthesis of an enclosing group.  In both cases every identifier read of
the lexer resolves the same way on both tails. -/
def PTail (t1 t2 : List Char) : Prop :=
  (t2 = [] ∧ identBoundary t1) ∨ (∃ r1 r2, t1 = ')' :: r1 ∧ t2 = ')' :: r2)

/-- Simulation property of `parse_type`: relative to the processed token's
start position, a successful run transfers to any shifted start and related
tail, and the result is the same token at the shifted start. -/
def SimPT (f : Nat) : Prop :=
  ∀ tok a₁ k c τ₁ res e w,
    tok.start = some a₁ →
    parse_type f ⟨a₁ + k, c ++ τ₁⟩ tok = .ok (res, ⟨a₁ + e, w ++ τ₁⟩) →
    ∀ a₂ τ₂, PTail τ₁ τ₂ →
      parse_type f ⟨a₂ + k, c ++ τ₂⟩ (tok.withStart (some a₂)) =
        .ok (Option.map (fun t => t.withStart (some a₂)) res, ⟨a₂ + e, w ++ τ₂⟩)

/-- Simulation property of `mod_loop`. -/
def SimML (f : Nat) : Prop :=
  ∀ tok a₁ mods j su k c τ₁ ntk₁ res e w,
    tok.start = some a₁ →
    mod_loop f tok mods ⟨a₁ + j, su ++ τ₁⟩ ⟨a₁ + k, c ++ τ₁⟩ ntk₁ =
      .ok (res, ⟨a₁ + e, w ++ τ₁⟩) →
    ∀ a₂ τ₂ ntk₂, PTail τ₁ τ₂ → NtkRel ntk₁ ntk₂ →
      mod_loop f (tok.withStart (some a₂)) mods ⟨a₂ + j, su ++ τ₂⟩ ⟨a₂ + k, c ++ τ₂⟩ ntk₂ =
        .ok (Option.map (fun t => t.withStart (some a₂)) res, ⟨a₂ + e, w ++ τ₂⟩)

/-- Simulation property of `resolve_mods`. -/
def SimRM (f : Nat) : Prop :=
  ∀ tok a₁ mods j su k c τ₁ ntk₁ res e w,
    tok.start = some a₁ →
    resolve_mods f tok mods ⟨a₁ + j, su ++ τ₁⟩ ⟨a₁ + k, c ++ τ₁⟩ ntk₁ =
      .ok (res, ⟨a₁ + e, w ++ τ₁⟩) →
    ∀ a₂ τ₂ ntk₂, PTail τ₁ τ₂ → NtkRel ntk₁ ntk₂ →
      resolve_mods f (tok.withStart (some a₂)) mods ⟨a₂ + j, su ++ τ₂⟩ ⟨a₂ + k, c ++ τ₂⟩ ntk₂ =
        .ok (Option.map (fun t => t.withStart (some a₂)) res, ⟨a₂ + e, w ++ τ₂⟩)

/-- Simulation property of `finish_mods`. -/
def SimFM (f : Nat) : Prop :=
  ∀ tok a₁ mods k c τ₁ res e w,
    tok.start = some a₁ →
    finish_mods f tok mods ⟨a₁ + k, c ++ τ₁⟩ = .ok (res, ⟨a₁ + e, w ++ τ₁⟩) →
    ∀ a₂ τ₂, PTail τ₁ τ₂ →
      finish_mods f (tok.withStart (some a₂)) mods ⟨a₂ + k, c ++ τ₂⟩ =
        .ok (Option.map (fun t => t.withStart (some a₂)) res, ⟨a₂ + e, w ++ τ₂⟩)

/-- Exit-boundary property of `parse_type`: from a state at an identifier
boundary, a successful run exits at an identifier boundary. -/
def BndPT (f : Nat) : Prop :=
  ∀ st tok res st', identBoundary st.rem → parse_type f st tok = .ok (res, st') →
    identBoundary st'.rem

/-- Exit-boundary property of `mod_loop`. -/
def BndML (f : Nat) : Prop :=
  ∀ tok mods saved st ntk res st', identBoundary saved.rem →
    (∀ nt, ntk = some nt → identBoundary st.rem) →
    mod_loop f tok mods saved st ntk = .ok (res, st') → identBoundary st'.rem

/-- Exit-boundary property of `resolve_mods`. -/
def BndRM (f : Nat) : Prop :=
  ∀ tok mods saved st ntk res st', identBoundary saved.rem →
    (∀ nt, ntk = some nt → identBoundary st.rem) →
    resolve_mods f tok mods saved st ntk = .ok (res, st') → identBoundary st'.rem

/-- Exit-boundary property of `finish_mods`. -/
def BndFM (f : Nat) : Prop :=
  ∀ st tok mods res st', identBoundary st.rem → finish_mods f tok mods st = .ok (res, st') →
    identBoundary st'.rem

/-- A lexer state lying on the original input `S`: the remainder is exactly
the suffix of `S` at the cursor position. -/
def OnS (S : List Char) (st : LexSt) : Prop :=
  st.rem = S.drop st.pos ∧ st.pos ≤ S.length

/-- Span property of `parse_type`: when the input token records start `a` and
spans exactly up to the entry cursor, the resulting token records start `a`
and spans exactly up to the exit cursor. -/
def SpanPT (f : Nat) : Prop :=
  ∀ st tok t₂ st₂ a, parse_type f st tok = .ok (some t₂, st₂) → tok.start = some a →
    tok.length = some (st.pos - a) →
    t₂.start = some a ∧ t₂.length = some (st₂.pos - a) ∧ t₂.items = tok.items

/-- Span property of `mod_loop`. -/
def SpanML (f : Nat) : Prop :=
  ∀ tok mods saved st ntk t₂ st₂ a, mod_loop f tok mods saved st ntk = .ok (some t₂, st₂) →
    tok.start = some a →
    t₂.start = some a ∧ t₂.length = some (st₂.pos - a) ∧ t₂.items = tok.items

/-- Span property of `resolve_mods`. -/
def SpanRM (f : Nat) : Prop :=
  ∀ tok mods saved st ntk t₂ st₂ a, resolve_mods f tok mods saved st ntk = .ok (some t₂, st₂) →
    tok.start = some a →
    t₂.start = some a ∧ t₂.length = some (st₂.pos - a) ∧ t₂.items = tok.items

/-- Span property of `finish_mods`. -/
def SpanFM (f : Nat) : Prop :=
  ∀ tok mods st t₂ st₂ a, finish_mods f tok mods st = .ok (some t₂, st₂) →
    tok.start = some a →
    t₂.start = some a ∧ t₂.length = some (st₂.pos - a) ∧ t₂.items = tok.items

/-- Re-lexing property of `next_token`: every token of a produced token tree
re-lexes from its recorded span of the original input. -/
def RelNT (f : Nat) : Prop :=
  ∀ S st tok st₂, OnS S st → next_token f st = .ok (some tok, st₂) →
    ∀ u, SubTok u tok → spanRelexes S u

/-- Re-lexing property of `tokens_loop`: every token of the produced group
tree, except possibly the group itself, re-lexes from its recorded span. -/
def RelTL (f : Nat) : Prop :=
  ∀ S nested start items st g st₂, OnS S st →
    (∀ t ∈ items, ∀ u, SubTok u t → spanRelexes S u) →
    tokens_loop f nested start items st = .ok (some g, st₂) →
    ∀ u, SubTok u g → u = g ∨ spanRelexes S u

/-- Claim C1, counterexample: for the input `int f()()` parsing does not
succeed; after the name `f` the first empty group is consumed as the
parameter list and the second group is left over, so the parser raises
`ParserError("unexpected tokens")` underlining the second group (columns 7-8).
No AST and no warning are produced. -/
theorem c1_counterexample :
    pipeline "int f()()" = .error (.parserError "unexpected tokens" (some (7, 2))) := by
  rfl

/-- Claim C1, amended: a function returning a function arises through the
parenthesized-group recursion, e.g. `int (f())()`: lexing followed by parsing
succeeds and returns a valid AST in which the outer `Function` node carries
the warning `illegal in C: you cannot return a raw function`. -/
theorem c1_amended_theorem :
    pipeline "int (f())()" =
      .ok (some (.fn (some (.fn (some (.type "int" [] [])) none [])) none
        ["illegal in C: you cannot return a raw function"])) := by
  rfl

/-- Claim C2, failing input: the lexing failure on `const const char c` is
not delivered as a structured lexer/parser error at all; the dead duplicate
check `nextTok in mods` lets the repeated `const` reach
`Token.add_modifier`, which raises `RuntimeError("internal error")` carrying
no offset and no length (and no caret underline is printed). -/
theorem c2_failing_eval :
    pipeline "const const char c" = .error (.runtimeError "internal error") := by
  rfl

/-- Claim C3, failing input: lexing `const const int x` does not fail with a
`LexerError` reporting the repeated modifier; the duplicate check at cdecl.py
line 215 compares the `Token` object against a list of strings and never
fires, so the repeated `const` instead hits the internal-error guard of
`Token.add_modifier` and the lexer raises `RuntimeError("internal error")`. -/
theorem c3_failing_eval :
    pipeline "const const int x" = .error (.runtimeError "internal error") := by
  rfl

/-- Claim C4, counterexample: constructing a `Parser` over an empty token
group (here the lexed group of `()`, spanning columns 0-1) raises the
user-facing `ParserError("expected more tokens here")`, not an
internal/programming error distinct from the `ParserError` kind; the same
holds for a bare non-group token. -/
theorem c4_counterexample :
    parserInit (Tok.mk (some 0) none [] (some 2) (some [])) none =
      .error (.parserError "expected more tokens here" (some (0, 2))) ∧
    parserInit (Tok.leaf 0 "x") none =
      .error (.parserError "expected more tokens here" (some (0, 1))) := by
  exact ⟨rfl, rfl⟩

/-- Claim C4, amended: constructing a `Parser` over an empty token group or a
bare non-group token raises the user-facing `ParserError("expected more
tokens here")` underlining the offending token — the same error kind used for
malformed input, reachable end to end from `int ()` — except that a group
whose start is `None` (the parameter groups the parser itself creates) makes
the underline arithmetic raise a `TypeError` instead. -/
theorem c4_amended_theorem :
    pipeline "int ()" = .error (.parserError "expected more tokens here" (some (4, 2))) ∧
    parserInit (Tok.group none) none = .error .typeError := by
  exact ⟨rfl, rfl⟩

/-- Claim C5, failing input: on `int f(,)` the empty parameter slice is put
in a group created with `start = None`; the empty-group error path of
`Parser.__init__` underlines that group, and `None + len(PROMPT)` raises a
`TypeError`, so parsing escapes with a `TypeError` rather than a
`ParserError` or `LexerError`. -/
theorem c5_failing_eval :
    pipeline "int f(,)" = .error .typeError := by
  rfl

/-- Claim C6: `int (*f)(char, int*)` parses to
`Pointer{child: Function{returns: Type{int}, params: [Type{char},
Pointer{Type{int}}]}}` — the parenthesized sub-declarator is parsed after the
function wrapper, with the function node passed in as the inner child. -/
theorem c6_theorem :
    pipeline "int (*f)(char, int*)" =
      .ok (some (.pointer
        (some (.fn (some (.type "int" [] []))
          (some [some (.type "char" [] []), some (.pointer (some (.type "int" [] [])) false [])])
          []))
        false [])) := by
  rfl

/-- Claim C7, counterexample: `void f()` succeeds and returns
`Function{returns: None}` even though the deferred `void` base type is never
wrapped in a `Pointer` — wrapping in a `Function` also discharges the final
void check, so the error is not raised exactly when the result never wraps
the void in a `Pointer`. -/
theorem c7_counterexample :
    pipeline "void f()" = .ok (some (.fn none none [])) := by
  rfl

/-- Claim C7, amended: `void` alone fails with `void on its own is not a
valid type` anchored at the void token, `void *p` succeeds as
`Pointer{child: None}`; in general the deferred void base type is an error
exactly when the final child is still the bare deferred void — wrapping it in
a `Pointer` or in a `Function` (as return type) both legalize it, and an
array over the bare void reports `arrays cannot store void` instead. -/
theorem c7_amended_theorem :
    pipeline "void" = .error (.parserError "void on its own is not a valid type" (some (0, 4))) ∧
    pipeline "void *p" = .ok (some (.pointer none false [])) ∧
    pipeline "void f()" = .ok (some (.fn none none [])) ∧
    pipeline "void x[3]" = .error (.parserError "arrays cannot store void" (some (0, 4))) := by
  exact ⟨rfl, rfl, rfl, rfl⟩

/-- Claim C8: `int f()` yields a `Function` whose parameter list is the
unspecified sentinel (`none`), `int f(void)` yields a `Function` with an
explicit empty parameter list (`some []`), and the two results are
distinct. -/
theorem c8_theorem :
    pipeline "int f()" = .ok (some (.fn (some (.type "int" [] [])) none [])) ∧
    pipeline "int f(void)" = .ok (some (.fn (some (.type "int" [] [])) (some []) [])) ∧
    pipeline "int f()" ≠ pipeline "int f(void)" := by
  refine ⟨rfl, rfl, ?_⟩
  intro h
  rw [show pipeline "int f()" = .ok (some (.fn (some (.type "int" [] [])) none [])) from rfl] at h
  rw [show pipeline "int f(void)" = .ok (some (.fn (some (.type "int" [] [])) (some []) [])) from rfl] at h
  simp at h

/-- Helper for claim C9: `add_mods` attaches a duplicate-free list of known
modifiers to a token, appending them to the existing modifier list. -/
theorem add_mods_spec (mods : List String) :
    ∀ (a : Option Nat) (s : Option String) (m0 : List String) (n : Option Nat)
      (it : Option (List Tok)),
      (∀ x ∈ mods, x ∈ MODIFIERS) → mods.Nodup → (∀ x ∈ mods, x ∉ m0) →
      add_mods (.mk a s m0 n it) mods = .ok (.mk a s (m0 ++ mods) n it) := by
  induction mods with
  | nil => intro a s m0 n it _ _ _; simp [add_mods]
  | cons m rest ih =>
    intro a s m0 n it hmem hnd hdisj
    have hm : m ∈ MODIFIERS := hmem m (List.mem_cons_self m rest)
    have hm0 : m ∉ m0 := hdisj m (List.mem_cons_self m rest)
    have hcond : (m0.contains m || !(MODIFIERS.contains m)) = false := by
      simp only [Bool.or_eq_false_iff, Bool.not_eq_true']
      exact ⟨by simpa using hm0, by simpa using hm⟩
    rw [add_mods, Tok.add_modifier]
    simp only [Tok.modifiers, hcond, Bool.false_eq_true, if_false]
    have := ih a s (m0 ++ [m]) n it
      (fun x hx => hmem x (List.mem_cons_of_mem m hx))
      (List.Nodup.of_cons hnd)
      (fun x hx => by
        intro hcon
        rcases List.mem_append.mp hcon with h1 | h1
        · exact hdisj x (List.mem_cons_of_mem m hx) h1
        · rcases List.mem_singleton.mp h1 with rfl
          exact (List.nodup_cons.mp hnd).1 hx)
    rw [show ((Except.ok (Tok.mk a s (m0 ++ [m]) n it) : Except Err Tok) >>=
          fun tok => add_mods tok rest) = add_mods (.mk a s (m0 ++ [m]) n it) rest from rfl]
    rw [this]
    simp

/-- Claim C9: `unsigned x` resolves to `Type{name: "int", modifiers:
{unsigned}}`; in general, whenever the modifier loop stops with a last
modifier of `signed`/`unsigned` and the following identifier is absent or not
a primitive type name, the post-loop resolution rewinds to just after the
modifiers, defaults the type name to `int`, and attaches the accumulated
modifiers. -/
theorem c9_theorem :
    pipeline "unsigned x" = .ok (some (.type "int" ["unsigned"] [])) ∧
    ∀ (fuel a : Nat) (s0 : Option String) (n0 : Option Nat) (it0 : Option (List Tok))
      (mods : List String) (saved st : LexSt) (nextTok? : Option Tok),
      (mods.getLast? = some "signed" ∨ mods.getLast? = some "unsigned") →
      inStrList (nextTok?.bind Tok.string) PRIMTYPES = false →
      (∀ x ∈ mods, x ∈ MODIFIERS) → mods.Nodup →
      resolve_mods (fuel + 3) (.mk (some a) s0 [] n0 it0) mods saved st nextTok? =
        .ok (some (.mk (some a) (some "int") mods (some (saved.pos - a)) it0), saved) := by
  constructor
  · rfl
  · intro fuel a s0 n0 it0 mods saved st nextTok? hlast hnp hmem hnd
    have hfin : finish_mods (fuel + 2) ((Tok.mk (some a) s0 [] n0 it0).withString (some "int"))
        mods saved =
        .ok (some (.mk (some a) (some "int") mods (some (saved.pos - a)) it0), saved) := by
      rw [finish_mods]
      simp only [Tok.withString, Tok.start, Tok.withLength]
      rw [show ((add_mods (.mk (some a) (some "int") [] (some (saved.pos - a)) it0) mods) >>=
            fun tok => parse_type (fuel + 1) saved tok) =
          ((add_mods (.mk (some a) (some "int") [] (some (saved.pos - a)) it0) mods) >>=
            fun tok => parse_type (fuel + 1) saved tok) from rfl]
      rw [add_mods_spec mods (some a) (some "int") [] (some (saved.pos - a)) it0 hmem hnd
        (by intro x _; simp)]
      show parse_type (fuel + 1) saved (.mk (some a) (some "int") mods (some (saved.pos - a)) it0)
          = _
      rw [parse_type]
      simp [Tok.string, inStrList, PRIMTYPES]
    match nextTok? with
    | none =>
      rw [resolve_mods]
      rw [if_pos hlast]
      exact hfin
    | some nt =>
      rw [resolve_mods]
      have hnp' : inStrList nt.string PRIMTYPES = false := by simpa using hnp
      rw [hnp']
      simp only [Bool.false_eq_true, if_false]
      rw [if_pos hlast]
      exact hfin

/-- Witness for claim C9: the general default-to-int clause applied to the
state reached while lexing `unsigned x` just before the identifier `x`. -/
theorem c9_witness :
    resolve_mods 3 (.mk (some 0) (some "unsigned") [] (some 8) none) ["unsigned"]
        ⟨8, ['x']⟩ ⟨10, []⟩ (some (Tok.leaf 9 "x")) =
      .ok (some (.mk (some 0) (some "int") ["unsigned"] (some 8) none), ⟨8, ['x']⟩) := by
  exact c9_theorem.2 0 0 (some "unsigned") (some 8) none ["unsigned"] ⟨8, ['x']⟩ ⟨10, []⟩
    (some (Tok.leaf 9 "x")) (Or.inr rfl) rfl (by decide) (by decide)

/-- A whitespace character is one of six concrete characters. -/
theorem space_cases {c : Char} (h : pyIsSpace c = true) :
    c = ' ' ∨ c = '\t' ∨ c = '\n' ∨ c = '\x0d' ∨ c = '\x0b' ∨ c = '\x0c' := by
  unfold pyIsSpace at h
  simp only [Bool.or_eq_true, decide_eq_true_eq] at h
  tauto

/-- An identifier-start character is not whitespace. -/
theorem identStart_not_space {c : Char} (h : isIdentStart c = true) : pyIsSpace c = false := by
  cases hs : pyIsSpace c
  · rfl
  · rcases space_cases hs with rfl | rfl | rfl | rfl | rfl | rfl <;> exact absurd h (by decide)

/-- An identifier character is not whitespace. -/
theorem identCont_not_space {c : Char} (h : isIdentCont c = true) : pyIsSpace c = false := by
  cases hs : pyIsSpace c
  · rfl
  · rcases space_cases hs with rfl | rfl | rfl | rfl | rfl | rfl <;> exact absurd h (by decide)

/-- An identifier-start character is an identifier character. -/
theorem identStart_cont {c : Char} (h : isIdentStart c = true) : isIdentCont c = true := by
  simp only [isIdentStart, Bool.or_eq_true] at h
  simp only [isIdentCont, Bool.or_eq_true]
  tauto

/-- `takeWhile` over an all-satisfying prefix. -/
theorem takeWhile_append_all {P : Char → Bool} {u : List Char} (v : List Char)
    (h : ∀ c ∈ u, P c = true) : (u ++ v).takeWhile P = u ++ v.takeWhile P := by
  induction u with
  | nil => simp
  | cons c cs ih =>
    have hc : P c = true := h c (List.mem_cons_self c cs)
    simp only [List.cons_append, List.takeWhile_cons_of_pos hc, List.cons.injEq, true_and]
    exact ih (fun x hx => h x (List.mem_cons_of_mem c hx))

/-- `dropWhile` over an all-satisfying prefix. -/
theorem dropWhile_append_all {P : Char → Bool} {u : List Char} (v : List Char)
    (h : ∀ c ∈ u, P c = true) : (u ++ v).dropWhile P = v.dropWhile P := by
  induction u with
  | nil => simp
  | cons c cs ih =>
    have hc : P c = true := h c (List.mem_cons_self c cs)
    simp only [List.cons_append, List.dropWhile_cons_of_pos hc]
    exact ih (fun x hx => h x (List.mem_cons_of_mem c hx))

/-- Elements of a `takeWhile` satisfy the predicate. -/
theorem mem_takeWhile_sat {P : Char → Bool} {l : List Char} :
    ∀ c ∈ l.takeWhile P, P c = true := by
  induction l with
  | nil => simp
  | cons x xs ih =>
    by_cases hx : P x = true
    · simp only [List.takeWhile_cons_of_pos hx, List.mem_cons]
      rintro c (rfl | hc)
      · exact hx
      · exact ih c hc
    · simp [List.takeWhile_cons_of_neg (by simpa using hx)]

/-- The head of a `dropWhile` fails the predicate. -/
theorem head_dropWhile_neg {P : Char → Bool} {l rest : List Char} {c : Char}
    (h : l.dropWhile P = c :: rest) : P c = false := by
  induction l with
  | nil => simp at h
  | cons x xs ih =>
    by_cases hx : P x = true
    · rw [List.dropWhile_cons_of_pos hx] at h
      exact ih h
    · rw [List.dropWhile_cons_of_neg (by simpa using hx)] at h
      cases h
      simpa using hx

/-- Canonical form of the whitespace-skipping loop. -/
theorem skip_chars_eq (l : List Char) : ∀ p,
    skip_chars p l = ⟨p + (l.takeWhile pyIsSpace).length, l.dropWhile pyIsSpace⟩ := by
  induction l with
  | nil => intro p; simp [skip_chars]
  | cons c cs ih =>
    intro p
    by_cases hc : pyIsSpace c = true
    · rw [skip_chars, if_pos hc, ih (p + 1), List.takeWhile_cons_of_pos hc,
        List.dropWhile_cons_of_pos hc]
      simp only [List.length_cons, LexSt.mk.injEq, and_true]
      omega
    · rw [skip_chars, if_neg hc, List.takeWhile_cons_of_neg (by simpa using hc),
        List.dropWhile_cons_of_neg (by simpa using hc)]
      simp

/-- Canonical form of `skip_space`. -/
theorem skip_space_eq (p : Nat) (l : List Char) :
    skip_space ⟨p, l⟩ = ⟨p + (l.takeWhile pyIsSpace).length, l.dropWhile pyIsSpace⟩ :=
  skip_chars_eq l p

/-- `parse_ident` on whitespace followed by an identifier-shaped prefix. -/
theorem parse_ident_ident_shape (p : Nat) (sp : List Char) (c : Char) (idt rest : List Char)
    (hsp : allSpace sp) (hc : isIdentStart c = true)
    (hid : ∀ x ∈ idt, isIdentCont x = true) (hrest : identBoundary rest) :
    parse_ident ⟨p, sp ++ c :: (idt ++ rest)⟩ =
      (some (Tok.leaf (p + sp.length) (String.mk (c :: idt))),
        ⟨p + sp.length + 1 + idt.length, rest⟩) := by
  have hsk : skip_space ⟨p, sp ++ c :: (idt ++ rest)⟩ = ⟨p + sp.length, c :: (idt ++ rest)⟩ := by
    rw [skip_space_eq, takeWhile_append_all _ hsp, dropWhile_append_all _ hsp,
      List.takeWhile_cons_of_neg (show ¬ pyIsSpace c = true by simp [identStart_not_space hc]),
      List.dropWhile_cons_of_neg (show ¬ pyIsSpace c = true by simp [identStart_not_space hc])]
    simp
  have htw : (idt ++ rest).takeWhile isIdentCont = idt := by
    rw [takeWhile_append_all _ hid]
    rcases hrest with rfl | ⟨d, ds, rfl, hd⟩
    · simp
    · simp [List.takeWhile_cons_of_neg (show ¬ isIdentCont d = true by simp [hd])]
  have hdw : (idt ++ rest).dropWhile isIdentCont = rest := by
    rw [dropWhile_append_all _ hid]
    rcases hrest with rfl | ⟨d, ds, rfl, hd⟩
    · simp
    · simp [List.dropWhile_cons_of_neg (show ¬ isIdentCont d = true by simp [hd])]
  rw [parse_ident, hsk]
  simp only [hc, if_true, htw, hdw]

/-- `parse_ident` on whitespace followed by a non-identifier boundary. -/
theorem parse_ident_none_shape (p : Nat) (sp rest : List Char)
    (hsp : allSpace sp) (hrest : noIdentBoundary rest) :
    parse_ident ⟨p, sp ++ rest⟩ = (none, ⟨p + sp.length, rest⟩) := by
  have hsk : skip_space ⟨p, sp ++ rest⟩ = ⟨p + sp.length, rest⟩ := by
    rw [skip_space_eq, takeWhile_append_all _ hsp, dropWhile_append_all _ hsp]
    rcases hrest with rfl | ⟨d, ds, rfl, hd, _⟩
    · simp
    · simp [List.takeWhile_cons_of_neg (show ¬ pyIsSpace d = true by simp [hd]),
        List.dropWhile_cons_of_neg (show ¬ pyIsSpace d = true by simp [hd])]
  rw [parse_ident, hsk]
  rcases hrest with rfl | ⟨d, ds, rfl, _, hd⟩
  · rfl
  · simp only [hd, Bool.false_eq_true, if_false]

/-- Inversion of `parse_ident`: the input splits into skipped whitespace and
either a non-identifier boundary (`none` result) or a maximal identifier
followed by an identifier boundary. -/
theorem parse_ident_inv {st : LexSt} {res : Option Tok} {st' : LexSt}
    (h : parse_ident st = (res, st')) :
    ∃ sp rest, st.rem = sp ++ rest ∧ allSpace sp ∧
      ((res = none ∧ st' = ⟨st.pos + sp.length, rest⟩ ∧ noIdentBoundary rest) ∨
       (∃ c idt rest', rest = c :: (idt ++ rest') ∧ isIdentStart c = true ∧
          (∀ x ∈ idt, isIdentCont x = true) ∧ identBoundary rest' ∧
          res = some (Tok.leaf (st.pos + sp.length) (String.mk (c :: idt))) ∧
          st' = ⟨st.pos + sp.length + 1 + idt.length, rest'⟩)) := by
  obtain ⟨p, l⟩ := st
  simp only []
  have hsplit : l = l.takeWhile pyIsSpace ++ l.dropWhile pyIsSpace :=
    (List.takeWhile_append_dropWhile pyIsSpace l).symm
  refine ⟨l.takeWhile pyIsSpace, l.dropWhile pyIsSpace, hsplit, mem_takeWhile_sat, ?_⟩
  rw [parse_ident, skip_space_eq] at h
  rcases hd : l.dropWhile pyIsSpace with _ | ⟨c, cs⟩
  · rw [hd] at h
    left
    cases h
    exact ⟨rfl, rfl, Or.inl rfl⟩
  · rw [hd] at h
    have hcns : pyIsSpace c = false := head_dropWhile_neg hd
    by_cases hc : isIdentStart c = true
    · simp only [hc, if_true] at h
      right
      refine ⟨c, cs.takeWhile isIdentCont, cs.dropWhile isIdentCont, ?_, hc, mem_takeWhile_sat,
        ?_, ?_, ?_⟩
      · rw [List.takeWhile_append_dropWhile]
      · rcases hd2 : cs.dropWhile isIdentCont with _ | ⟨d, ds⟩
        · exact Or.inl rfl
        · exact Or.inr ⟨d, ds, rfl, head_dropWhile_neg hd2⟩
      · cases h; rfl
      · cases h; rfl
    · simp only [hc] at h
      left
      cases h
      exact ⟨rfl, rfl, Or.inr ⟨c, cs, rfl, hcns, by simpa using hc⟩⟩

/-- `SuffSt` is reflexive. -/
theorem suffSt_refl (st : LexSt) : SuffSt st st :=
  ⟨[], by simp⟩

/-- `SuffSt` is transitive. -/
theorem suffSt_trans {a b c : LexSt} (h1 : SuffSt a b) (h2 : SuffSt b c) : SuffSt a c := by
  obtain ⟨x, hx, hpx⟩ := h1
  obtain ⟨y, hy, hpy⟩ := h2
  exact ⟨x ++ y, by rw [hx, hy, List.append_assoc], by rw [hpy, hpx]; simp; omega⟩

/-- Advancing over a present character moves one step onward. -/
theorem suffSt_advance {st : LexSt} {c : Char} {cs : List Char} (h : st.rem = c :: cs) :
    SuffSt st (advance st) :=
  ⟨[c], by simp [advance, h], by simp [advance]⟩

/-- Skipping whitespace moves onward. -/
theorem suffSt_skip (st : LexSt) : SuffSt st (skip_space st) := by
  obtain ⟨p, l⟩ := st
  rw [skip_space_eq]
  exact ⟨l.takeWhile pyIsSpace, by simp [List.takeWhile_append_dropWhile], by simp⟩

/-- `parse_ident` moves onward. -/
theorem suffSt_parse_ident {st st' : LexSt} {res : Option Tok}
    (h : parse_ident st = (res, st')) : SuffSt st st' := by
  obtain ⟨p, l⟩ := st
  obtain ⟨sp, rest, rfl, _, hcase⟩ := parse_ident_inv h
  rcases hcase with ⟨_, rfl, _⟩ | ⟨c, idt, rest', rfl, _, _, _, _, rfl⟩
  · exact ⟨sp, rfl, by simp⟩
  · refine ⟨sp ++ c :: idt, by simp, by simp; omega⟩

/-- All of `mod_loop`, `resolve_mods`, `finish_mods`, `parse_type`,
`next_token`, `tokens_loop` and `parse_tokens` only move the cursor onward
from a base state. -/
theorem consume_all : ∀ f, ConsumeNT f ∧ ConsumeTL f ∧ ConsumePTK f ∧ ConsumePT f ∧
    ConsumeML f ∧ ConsumeRM f ∧ ConsumeFM f := by
  intro f
  induction f with
  | zero =>
    refine ⟨?_, ?_, ?_, ?_, ?_, ?_, ?_⟩
    · intro st res st' h; rw [next_token] at h; exact absurd h (by simp)
    · intro nested start items st res st' h; rw [tokens_loop] at h; exact absurd h (by simp)
    · intro nested st res st' h; rw [parse_tokens] at h; exact absurd h (by simp)
    · intro st tok res st' h; rw [parse_type] at h; exact absurd h (by simp)
    · intro st0 tok mods saved st ntk res st' h1 h2 h
      rcases ntk with _ | nt <;> rw [mod_loop] at h <;> exact absurd h (by simp)
    · intro st0 tok mods saved st ntk res st' h1 h2 h
      rcases ntk with _ | nt <;> rw [resolve_mods] at h <;> exact absurd h (by simp)
    · intro st tok mods res st' h; rw [finish_mods] at h; exact absurd h (by simp)
  | succ f ih =>
    obtain ⟨ihNT, ihTL, ihPTK, ihPT, ihML, ihRM, ihFM⟩ := ih
    have hFM : ConsumeFM (f + 1) := by
      intro st tok mods res st' h
      rw [finish_mods] at h
      rcases htk : tok.start with _ | a
      · rw [htk] at h; simp at h
      · rw [htk] at h
        simp only [] at h
        simp only [bind, Except.bind] at h
        rcases ham : add_mods (tok.withLength (some (st.pos - a))) mods with e | tok₂
        · rw [ham] at h; simp at h
        · rw [ham] at h
          exact ihPT st tok₂ res st' h
    have hRM : ConsumeRM (f + 1) := by
      intro st0 tok mods saved st ntk res st' hsaved hst h
      rcases ntk with _ | nt <;> rw [resolve_mods] at h
      · by_cases hlast : (mods.getLast? = some "signed" ∨ mods.getLast? = some "unsigned")
        · rw [if_pos hlast] at h
          exact suffSt_trans hsaved (ihFM _ _ _ _ _ h)
        · rw [if_neg hlast] at h; simp at h
      · by_cases hprim : inStrList nt.string PRIMTYPES = true
        · rw [if_pos hprim] at h
          exact suffSt_trans hst (ihFM _ _ _ _ _ h)
        · rw [if_neg hprim] at h
          by_cases hlast : (mods.getLast? = some "signed" ∨ mods.getLast? = some "unsigned")
          · rw [if_pos hlast] at h
            exact suffSt_trans hsaved (ihFM _ _ _ _ _ h)
          · rw [if_neg hlast] at h
            rcases hna : nt.start with _ | a <;> rcases hnl : nt.length with _ | n <;>
              simp [hna, hnl] at h
    have hML : ConsumeML (f + 1) := by
      intro st0 tok mods saved st ntk res st' hsaved hst h
      rcases ntk with _ | nt <;> rw [mod_loop] at h
      · exact ihRM st0 _ _ _ _ _ _ _ hsaved hst h
      · by_cases hmod : inStrList nt.string MODIFIERS = true
        · rw [if_pos hmod] at h
          simp only [tokenInStringList, Bool.false_eq_true, if_false] at h
          by_cases hstruct : nt.string = some "struct"
          · rw [if_pos hstruct] at h
            rcases htk : tok.start with _ | a
            · rw [htk] at h; simp at h
            · rw [htk] at h
              simp only [] at h
              by_cases hcnd : (mods.length ≠ 1 ∨ mods.get? 0 ≠ some "const")
              · rw [if_pos hcnd] at h; simp at h
              · rw [if_neg hcnd] at h
                simp only [bind, Except.bind] at h
                rcases ham : (tok.withLength (some (st.pos - a))).add_modifier "const"
                  with e | tok₂
                · rw [ham] at h; simp at h
                · rw [ham] at h
                  exact suffSt_trans hst (ihPT _ _ _ _ h)
          · rw [if_neg hstruct] at h
            by_cases hsu : (nt.string = some "signed" ∨ nt.string = some "unsigned")
            · rw [if_pos hsu] at h
              by_cases hdup : ("signed" ∈ mods ∨ "unsigned" ∈ mods)
              · rw [if_pos hdup] at h
                rcases hta : tok.start with _ | a <;> simp [hta] at h
              · rw [if_neg hdup] at h
                rcases hns : nt.string with _ | ns
                · rw [hns] at h
                  simp only [Except.ok.injEq, Prod.mk.injEq] at h
                  obtain ⟨_, rfl⟩ := h
                  exact hst
                · rw [hns] at h
                  rcases hpi : parse_ident st with ⟨ntk₂, st₂⟩
                  rw [hpi] at h
                  exact ihML st0 _ _ _ _ _ _ _ hst
                    (suffSt_trans hst (suffSt_parse_ident hpi)) h
            · rw [if_neg hsu] at h
              rcases hns : nt.string with _ | ns
              · rw [hns] at h
                simp only [Except.ok.injEq, Prod.mk.injEq] at h
                obtain ⟨_, rfl⟩ := h
                exact hst
              · rw [hns] at h
                rcases hpi : parse_ident st with ⟨ntk₂, st₂⟩
                rw [hpi] at h
                exact ihML st0 _ _ _ _ _ _ _ hst
                  (suffSt_trans hst (suffSt_parse_ident hpi)) h
        · rw [if_neg hmod] at h
          exact ihRM st0 _ _ _ _ _ _ _ hsaved hst h
    have hPT : ConsumePT (f + 1) := by
      intro st tok res st' h
      rw [parse_type] at h
      by_cases hstruct : tok.string = some "struct"
      · rw [if_pos hstruct] at h
        rcases hpi : parse_ident st with ⟨name?, st₁⟩
        rw [hpi] at h
        rcases name? with _ | name
        · simp at h
        · simp only [] at h
          rcases hns : name.string with _ | nameStr
          · rw [hns] at h; simp at h
          · rw [hns] at h
            simp only [] at h
            by_cases hkw : KEYWORDS.contains nameStr = true
            · rw [if_pos hkw] at h
              rcases hna : name.start with _ | a <;> rcases hnl : name.length with _ | n <;>
                simp [hna, hnl] at h
            · rw [if_neg hkw] at h
              rcases htk : tok.start with _ | a
              · rw [htk] at h; simp at h
              · rw [htk] at h
                simp only [] at h
                simp only [bind, Except.bind] at h
                rcases ham : (tok.withLength (some (st₁.pos - a))).add_modifier "struct"
                  with e | tok₂
                · rw [ham] at h; simp at h
                · rw [ham] at h
                  simp only [Except.ok.injEq, Prod.mk.injEq] at h
                  obtain ⟨_, rfl⟩ := h
                  exact suffSt_parse_ident hpi
      · rw [if_neg hstruct] at h
        by_cases hprim : inStrList tok.string PRIMTYPES = true
        · rw [if_pos hprim] at h
          by_cases hlong : tok.string = some "long"
          · rw [if_pos hlong] at h
            rcases hpi : parse_ident st with ⟨nt?, st₁⟩
            rw [hpi] at h
            rcases nt? with _ | nt
            · simp only [Except.ok.injEq, Prod.mk.injEq] at h
              obtain ⟨_, rfl⟩ := h
              exact suffSt_refl st
            · simp only [] at h
              rcases hns : nt.string with _ | nts
              · rw [hns] at h
                simp only [Except.ok.injEq, Prod.mk.injEq] at h
                obtain ⟨_, rfl⟩ := h
                exact suffSt_refl st
              · rw [hns] at h
                simp only [] at h
                by_cases hlt : LONGTYPES.contains nts = true
                · rw [if_pos hlt] at h
                  rcases hta : tok.start with _ | a
                  · rw [hta] at h; simp at h
                  · rw [hta] at h
                    simp only [] at h
                    simp only [Except.ok.injEq, Prod.mk.injEq] at h
                    obtain ⟨_, rfl⟩ := h
                    exact suffSt_parse_ident hpi
                · rw [if_neg hlt] at h
                  simp only [Except.ok.injEq, Prod.mk.injEq] at h
                  obtain ⟨_, rfl⟩ := h
                  exact suffSt_refl st
          · rw [if_neg hlong] at h
            simp only [Except.ok.injEq, Prod.mk.injEq] at h
            obtain ⟨_, rfl⟩ := h
            exact suffSt_refl st
        · rw [if_neg hprim] at h
          by_cases hmod : inStrList tok.string MODIFIERS = true
          · rw [if_pos hmod] at h
            rcases hts : tok.string with _ | ts
            · rw [hts] at h
              simp only [Except.ok.injEq, Prod.mk.injEq] at h
              obtain ⟨_, rfl⟩ := h
              exact suffSt_refl st
            · rw [hts] at h
              simp only [] at h
              rcases hpi : parse_ident st with ⟨ntk?, st₁⟩
              rw [hpi] at h
              simp only [] at h
              exact ihML st _ _ _ _ _ _ _ (suffSt_refl st) (suffSt_parse_ident hpi) h
          · rw [if_neg hmod] at h
            simp only [Except.ok.injEq, Prod.mk.injEq] at h
            obtain ⟨_, rfl⟩ := h
            exact suffSt_refl st
    have hNT : ConsumeNT (f + 1) := by
      intro st res st' h
      rw [next_token] at h
      have hsk : SuffSt st (skip_space st) := suffSt_skip st
      rcases hc : curchar (skip_space st) with _ | ch
      · simp only [hc] at h
        simp only [Except.ok.injEq, Prod.mk.injEq] at h
        obtain ⟨_, rfl⟩ := h
        exact hsk
      · simp only [hc] at h
        have hrem : ∃ cs, (skip_space st).rem = ch :: cs := by
          rcases hr : (skip_space st).rem with _ | ⟨c, cs⟩
          · rw [curchar, hr] at hc; simp at hc
          · rw [curchar, hr] at hc; simp at hc; exact ⟨cs, by rw [hc]⟩
        obtain ⟨cs, hcs⟩ := hrem
        by_cases hpunct : ch ∈ PUNCTUATION
        · rw [if_pos hpunct] at h
          by_cases hstar : ch = '*'
          · rw [if_pos hstar] at h
            rcases hpi : parse_ident (advance (skip_space st)) with ⟨id?, st₂⟩
            rw [hpi] at h
            have hadv : SuffSt st (advance (skip_space st)) :=
              suffSt_trans hsk (suffSt_advance hcs)
            rcases id? with _ | ident
            · simp only [Except.ok.injEq, Prod.mk.injEq] at h
              obtain ⟨_, rfl⟩ := h
              exact suffSt_trans hsk (suffSt_advance hcs)
            · simp only [] at h
              by_cases hconst : ident.string = some "const"
              · rw [if_pos hconst] at h
                simp only [bind, Except.bind] at h
                rcases ham : (Tok.leaf (skip_space st).pos "*").add_modifier "const"
                  with e | tok₂
                · rw [ham] at h; simp at h
                · rw [ham] at h
                  simp only [Except.ok.injEq, Prod.mk.injEq] at h
                  obtain ⟨_, rfl⟩ := h
                  exact suffSt_trans hadv (suffSt_parse_ident hpi)
              · rw [if_neg hconst] at h
                simp only [Except.ok.injEq, Prod.mk.injEq] at h
                obtain ⟨_, rfl⟩ := h
                exact suffSt_trans hsk (suffSt_advance hcs)
          · rw [if_neg hstar] at h
            simp only [Except.ok.injEq, Prod.mk.injEq] at h
            obtain ⟨_, rfl⟩ := h
            exact suffSt_trans hsk (suffSt_advance hcs)
        · rw [if_neg hpunct] at h
          rcases hpi : parse_ident (skip_space st) with ⟨tk?, st₁⟩
          rw [hpi] at h
          rcases tk? with _ | tk <;> simp only [] at h
          · by_cases hdig : pyIsDigit ch = true
            · rw [if_pos hdig] at h
              simp only [Except.ok.injEq, Prod.mk.injEq] at h
              obtain ⟨_, rfl⟩ := h
              refine suffSt_trans hsk ?_
              refine ⟨ch :: (skip_space st).rem.tail.takeWhile pyIsDigit, ?_, by simp; omega⟩
              rw [hcs]
              simp [List.takeWhile_append_dropWhile]
            · rw [if_neg hdig] at h
              by_cases hpar : ch = '('
              · rw [if_pos hpar] at h
                exact suffSt_trans (suffSt_trans hsk (suffSt_advance hcs)) (ihPTK _ _ _ _ h)
              · rw [if_neg hpar] at h
                by_cases hrp : ch = ')'
                · rw [if_pos hrp] at h; simp at h
                · rw [if_neg hrp] at h; simp at h
          · by_cases hkw : inStrList tk.string KEYWORDS = true
            · rw [if_pos hkw] at h
              exact suffSt_trans (suffSt_trans hsk (suffSt_parse_ident hpi)) (ihPT _ _ _ _ h)
            · rw [if_neg hkw] at h
              simp only [Except.ok.injEq, Prod.mk.injEq] at h
              obtain ⟨_, rfl⟩ := h
              exact suffSt_trans hsk (suffSt_parse_ident hpi)
    have hTL : ConsumeTL (f + 1) := by
      intro nested start items st res st' h
      rw [tokens_loop] at h
      by_cases hcl : (nested = true ∧ curchar st = some ')')
      · rw [if_pos hcl] at h
        simp only [Except.ok.injEq, Prod.mk.injEq] at h
        obtain ⟨_, rfl⟩ := h
        obtain ⟨_, hc⟩ := hcl
        have : ∃ cs, st.rem = ')' :: cs := by
          rcases hr : st.rem with _ | ⟨c, cs⟩
          · rw [curchar, hr] at hc; simp at hc
          · rw [curchar, hr] at hc; simp at hc; exact ⟨cs, by rw [hc]⟩
        obtain ⟨cs, hcs⟩ := this
        exact suffSt_advance hcs
      · rw [if_neg hcl] at h
        rcases hnt : next_token f st with e | ⟨tk?, st₁⟩
        · rw [hnt] at h; simp at h
        · rw [hnt] at h
          rcases tk? with _ | tok <;> simp only [] at h
          · by_cases hn : nested = true
            · rw [if_pos hn] at h; simp at h
            · rw [if_neg hn] at h
              simp only [Except.ok.injEq, Prod.mk.injEq] at h
              obtain ⟨_, rfl⟩ := h
              exact ihNT _ _ _ hnt
          · exact suffSt_trans (ihNT _ _ _ hnt) (ihTL _ _ _ _ _ _ h)
    have hPTK : ConsumePTK (f + 1) := by
      intro nested st res st' h
      rw [parse_tokens] at h
      exact ihTL _ _ _ _ _ _ h
    exact ⟨hNT, hTL, hPTK, hPT, hML, hRM, hFM⟩

/-- Align a consumption decomposition with a coarser split of the same list:
if the remainder still holds at least the tail, the consumed part is a prefix
of the head part. -/
theorem suffix_align {c rem u τ : List Char} (h : c ++ rem = u ++ τ)
    (hlen : τ.length ≤ rem.length) : ∃ v, c ++ v = u ∧ rem = v ++ τ := by
  have hlc : c.length ≤ u.length := by
    have := congrArg List.length h
    simp at this
    omega
  have h3 : c = u.take c.length := by
    have h1 : (c ++ rem).take c.length = c := by simp
    have h2 : (u ++ τ).take c.length = u.take c.length := List.take_append_of_le_length hlc
    conv_lhs => rw [← h1, h, h2]
  have hu : u = c ++ u.drop c.length := by
    conv_lhs => rw [← List.take_append_drop c.length u]
    rw [← h3]
  refine ⟨u.drop c.length, hu.symm, ?_⟩
  have heq : c ++ rem = c ++ (u.drop c.length ++ τ) := by
    rw [h]
    conv_lhs => rw [hu]
    rw [List.append_assoc]
  exact List.append_cancel_left heq

/-- Split a concatenation at a designated closing parenthesis when the first
part cannot contain one. -/
theorem split_no_rp {x y u r : List Char} (h : x ++ y = u ++ ')' :: r)
    (hx : ∀ c ∈ x, c ≠ ')') : ∃ v, u = x ++ v ∧ y = v ++ ')' :: r := by
  induction x generalizing u with
  | nil => exact ⟨u, rfl, h⟩
  | cons a x' ih =>
    rcases u with _ | ⟨b, u'⟩
    · simp only [List.cons_append, List.nil_append] at h
      injection h with h1 h2
      exact absurd h1 (hx a (List.mem_cons_self a x'))
    · simp only [List.cons_append] at h
      injection h with h1 h2
      subst h1
      obtain ⟨v, hv1, hv2⟩ := ih h2 (fun c hc => hx c (List.mem_cons_of_mem a hc))
      exact ⟨v, by rw [hv1]; rfl, hv2⟩

/-- `takeWhile` stops inside a list with a failing head in its remainder. -/
theorem takeWhile_append_stop {P : Char → Bool} {u : List Char} {d : Char} {ds : List Char}
    (v : List Char) (hu : u.dropWhile P = d :: ds) :
    (u ++ v).takeWhile P = u.takeWhile P ∧ (u ++ v).dropWhile P = d :: (ds ++ v) := by
  induction u with
  | nil => simp at hu
  | cons a u' ih =>
    by_cases ha : P a = true
    · rw [List.dropWhile_cons_of_pos ha] at hu
      obtain ⟨h1, h2⟩ := ih hu
      constructor
      · simp only [List.cons_append, List.takeWhile_cons_of_pos ha, h1]
      · simp only [List.cons_append, List.dropWhile_cons_of_pos ha, h2]
    · rw [List.dropWhile_cons_of_neg (by simpa using ha)] at hu
      injection hu with h1 h2
      subst h1
      subst h2
      constructor
      · simp only [List.cons_append,
          List.takeWhile_cons_of_neg (show ¬ P a = true by simpa using ha)]
      · simp only [List.cons_append,
          List.dropWhile_cons_of_neg (show ¬ P a = true by simpa using ha)]

/-- A successful token read always moves strictly past the skipped
whitespace. -/
theorem strictNT {f : Nat} {st st' : LexSt} {tok : Tok}
    (h : next_token f st = .ok (some tok, st')) : (skip_space st).pos < st'.pos := by
  rcases f with _ | f
  · rw [next_token] at h; exact absurd h (by simp)
  rw [next_token] at h
  rcases hc : curchar (skip_space st) with _ | ch
  · simp only [hc] at h
    exact absurd h (by simp)
  · simp only [hc] at h
    have hcs : ∃ cs, (skip_space st).rem = ch :: cs := by
      rcases hr : (skip_space st).rem with _ | ⟨c, cs⟩
      · rw [curchar, hr] at hc; simp at hc
      · rw [curchar, hr] at hc; simp at hc; exact ⟨cs, by rw [hc]⟩
    obtain ⟨cs, hcs⟩ := hcs
    by_cases hpunct : ch ∈ PUNCTUATION
    · rw [if_pos hpunct] at h
      by_cases hstar : ch = '*'
      · rw [if_pos hstar] at h
        rcases hpi : parse_ident (advance (skip_space st)) with ⟨id?, st₂⟩
        rw [hpi] at h
        have hst₂ : SuffSt (advance (skip_space st)) st₂ := suffSt_parse_ident hpi
        rcases id? with _ | ident
        · simp only [Except.ok.injEq, Prod.mk.injEq] at h
          obtain ⟨_, rfl⟩ := h
          simp [advance]
        · simp only [] at h
          by_cases hconst : ident.string = some "const"
          · rw [if_pos hconst] at h
            simp only [bind, Except.bind] at h
            rcases ham : (Tok.leaf (skip_space st).pos "*").add_modifier "const" with e | tok₂
            · rw [ham] at h; simp at h
            · rw [ham] at h
              simp only [Except.ok.injEq, Prod.mk.injEq] at h
              obtain ⟨_, rfl⟩ := h
              obtain ⟨x, _, hx⟩ := hst₂
              simp [advance] at hx
              omega
          · rw [if_neg hconst] at h
            simp only [Except.ok.injEq, Prod.mk.injEq] at h
            obtain ⟨_, rfl⟩ := h
            simp [advance]
      · rw [if_neg hstar] at h
        simp only [Except.ok.injEq, Prod.mk.injEq] at h
        obtain ⟨_, rfl⟩ := h
        simp [advance]
    · rw [if_neg hpunct] at h
      rcases hpi : parse_ident (skip_space st) with ⟨tk?, st₁⟩
      rw [hpi] at h
      rcases tk? with _ | tk <;> simp only [] at h
      · by_cases hdig : pyIsDigit ch = true
        · rw [if_pos hdig] at h
          simp only [Except.ok.injEq, Prod.mk.injEq] at h
          obtain ⟨_, rfl⟩ := h
          simp only []
          omega
        · rw [if_neg hdig] at h
          by_cases hpar : ch = '('
          · rw [if_pos hpar] at h
            have := (consume_all f).2.2.1 _ _ _ _ h
            obtain ⟨x, _, hx⟩ := this
            simp [advance] at hx
            omega
          · rw [if_neg hpar] at h
            by_cases hrp : ch = ')'
            · rw [if_pos hrp] at h; exact absurd h (by simp)
            · rw [if_neg hrp] at h; exact absurd h (by simp)
      · have hpos : (skip_space st).pos < st₁.pos := by
          obtain ⟨sp, rest, _, _, hcase⟩ := parse_ident_inv hpi
          rcases hcase with ⟨hne, _, _⟩ | ⟨c, idt, rest', _, _, _, _, _, hst₁⟩
          · exact absurd hne (by simp)
          · rw [hst₁]
            simp
            omega
        by_cases hkw : inStrList tk.string KEYWORDS = true
        · rw [if_pos hkw] at h
          have hcons : SuffSt st₁ st' := (consume_all f).2.2.2.1 _ _ _ _ h
          obtain ⟨x, _, hx⟩ := hcons
          omega
        · rw [if_neg hkw] at h
          simp only [Except.ok.injEq, Prod.mk.injEq] at h
          obtain ⟨_, rfl⟩ := h
          omega

/-- Field algebra of `Tok.withStart`. -/
theorem withStart_fields (t : Tok) (a : Option Nat) :
    (t.withStart a).start = a ∧ (t.withStart a).string = t.string ∧
    (t.withStart a).modifiers = t.modifiers ∧ (t.withStart a).length = t.length ∧
    (t.withStart a).items = t.items := by
  rcases t with ⟨a0, s, m, n, it⟩
  exact ⟨rfl, rfl, rfl, rfl, rfl⟩

/-- `withString` commutes with `withStart`. -/
theorem withString_withStart (t : Tok) (a : Option Nat) (s : Option String) :
    (t.withStart a).withString s = (t.withString s).withStart a := by
  rcases t with ⟨a0, s0, m, n, it⟩
  rfl

/-- `withLength` commutes with `withStart`. -/
theorem withLength_withStart (t : Tok) (a : Option Nat) (n : Option Nat) :
    (t.withStart a).withLength n = (t.withLength n).withStart a := by
  rcases t with ⟨a0, s0, m, n0, it⟩
  rfl

/-- `add_modifier` commutes with `withStart`. -/
theorem add_modifier_withStart (t : Tok) (a : Option Nat) (m : String) :
    (t.withStart a).add_modifier m =
      Except.map (fun u => u.withStart a) (t.add_modifier m) := by
  rcases t with ⟨a0, s0, m0, n, it⟩
  simp only [Tok.withStart]
  rw [Tok.add_modifier, Tok.add_modifier]
  simp only [Tok.modifiers]
  by_cases hc : (m0.contains m || !(MODIFIERS.contains m)) = true
  · rw [if_pos hc, if_pos hc]
    rfl
  · rw [if_neg hc, if_neg hc]
    rfl

/-- `add_mods` commutes with `withStart`. -/
theorem add_mods_withStart (mods : List String) : ∀ (t : Tok) (a : Option Nat),
    add_mods (t.withStart a) mods = Except.map (fun u => u.withStart a) (add_mods t mods) := by
  induction mods with
  | nil => intro t a; rfl
  | cons m rest ih =>
    intro t a
    rw [add_mods, add_mods]
    simp only [bind, Except.bind, add_modifier_withStart]
    rcases t.add_modifier m with e | t'
    · rfl
    · exact ih t' a

/-- `EquivTok` is reflexive. -/
theorem equivTok_refl (t : Tok) : EquivTok t t := by
  rcases t with ⟨a, s, m, n, it⟩
  rcases it with _ | l
  · exact EquivTok.leaf rfl rfl rfl (fun _ => Iff.rfl)
  · refine EquivTok.group rfl rfl rfl ?_
    intro i x y hx hy
    rw [hx] at hy
    injection hy with hxy
    subst hxy
    exact equivTok_refl x
termination_by sizeOf t
decreasing_by
  simp_wf
  have h1 := List.sizeOf_lt_of_mem (List.get?_mem hx)
  omega

/-- A token is equivalent to itself at any other start offset. -/
theorem equivTok_withStart (t : Tok) (a : Option Nat) : EquivTok t (t.withStart a) := by
  rcases t with ⟨a0, s, m, n, it⟩
  rcases it with _ | l
  · exact EquivTok.leaf rfl rfl rfl (fun _ => Iff.rfl)
  · refine EquivTok.group rfl rfl rfl ?_
    intro i x y hx hy
    rw [hx] at hy
    injection hy with hxy
    subst hxy
    exact equivTok_refl x

/-- Position of a literal lexer state. -/
theorem lexSt_pos (p : Nat) (r : List Char) : (⟨p, r⟩ : LexSt).pos = p := rfl

/-- Remainder of a literal lexer state. -/
theorem lexSt_rem (p : Nat) (r : List Char) : (⟨p, r⟩ : LexSt).rem = r := rfl

/-- Fields of `Tok.withString`. -/
theorem withString_fields (t : Tok) (s : Option String) :
    (t.withString s).start = t.start ∧ (t.withString s).string = s ∧
    (t.withString s).modifiers = t.modifiers ∧ (t.withString s).length = t.length ∧
    (t.withString s).items = t.items := by
  rcases t with ⟨a, s0, m, n, it⟩
  exact ⟨rfl, rfl, rfl, rfl, rfl⟩

/-- Fields of `Tok.withLength`. -/
theorem withLength_fields (t : Tok) (n : Option Nat) :
    (t.withLength n).start = t.start ∧ (t.withLength n).string = t.string ∧
    (t.withLength n).modifiers = t.modifiers ∧ (t.withLength n).length = n ∧
    (t.withLength n).items = t.items := by
  rcases t with ⟨a, s0, m, n0, it⟩
  exact ⟨rfl, rfl, rfl, rfl, rfl⟩

/-- `Tok.add_modifier` only appends to the modifier list. -/
theorem add_modifier_fields {t u : Tok} {m : String} (h : t.add_modifier m = .ok u) :
    u.start = t.start ∧ u.string = t.string ∧ u.modifiers = t.modifiers ++ [m] ∧
    u.length = t.length ∧ u.items = t.items := by
  rcases t with ⟨a, s0, m0, n, it⟩
  rw [Tok.add_modifier] at h
  by_cases hc : ((Tok.mk a s0 m0 n it).modifiers.contains m || !(MODIFIERS.contains m)) = true
  · rw [if_pos hc] at h; exact absurd h (by simp)
  · rw [if_neg hc] at h
    simp only [Except.ok.injEq] at h
    subst h
    exact ⟨rfl, rfl, rfl, rfl, rfl⟩

/-- `add_mods` only appends to the modifier list. -/
theorem add_mods_fields (mods : List String) : ∀ {t u : Tok}, add_mods t mods = .ok u →
    u.start = t.start ∧ u.string = t.string ∧ u.modifiers = t.modifiers ++ mods ∧
    u.length = t.length ∧ u.items = t.items := by
  induction mods with
  | nil =>
    intro t u h
    rw [add_mods] at h
    simp only [Except.ok.injEq] at h
    subst h
    exact ⟨rfl, rfl, by simp, rfl, rfl⟩
  | cons m rest ih =>
    intro t u h
    rw [add_mods] at h
    simp only [bind, Except.bind] at h
    rcases ham : t.add_modifier m with e | t₂
    · rw [ham] at h; exact absurd h (by simp)
    · rw [ham] at h
      obtain ⟨h1, h2, h3, h4, h5⟩ := add_modifier_fields ham
      obtain ⟨g1, g2, g3, g4, g5⟩ := ih h
      exact ⟨g1.trans h1, g2.trans h2, by rw [g3, h3]; simp, g4.trans h4, g5.trans h5⟩

/-- `withStart` of a leaf token. -/
theorem leaf_withStart (a b : Nat) (s : String) :
    (Tok.leaf a s).withStart (some b) = Tok.leaf b s := rfl

/-- Adding `const` to a fresh star token. -/
theorem star_const_tok (q : Nat) :
    (Tok.leaf q "*").add_modifier "const" =
      .ok (Tok.mk (some q) (some "*") ["const"] (some 1) none) := rfl

/-- `PTail` forces an identifier boundary at any common continuation. -/
theorem ptail_bnd_mono {τ₁ τ₂ : List Char} (hpt : PTail τ₁ τ₂) :
    ∀ v, identBoundary (v ++ τ₁) → identBoundary (v ++ τ₂) := by
  intro v hb
  rcases v with _ | ⟨d, vs⟩
  · rcases hpt with ⟨rfl, _⟩ | ⟨r1, r2, rfl, rfl⟩
    · exact Or.inl rfl
    · exact Or.inr ⟨')', r2, rfl, by decide⟩
  · rcases hb with hnil | ⟨e, es, heq, he⟩
    · exact absurd hnil (by simp)
    · simp only [List.cons_append, List.cons.injEq] at heq
      exact Or.inr ⟨d, vs ++ τ₂, rfl, by rw [heq.1]; exact he⟩

/-- `PTail` version of the boundary transfer for non-identifier boundaries. -/
theorem ptail_nobnd_mono {τ₁ τ₂ : List Char} (hpt : PTail τ₁ τ₂) :
    ∀ v, noIdentBoundary (v ++ τ₁) → noIdentBoundary (v ++ τ₂) := by
  intro v hb
  rcases v with _ | ⟨d, vs⟩
  · rcases hpt with ⟨rfl, _⟩ | ⟨r1, r2, rfl, rfl⟩
    · exact Or.inl rfl
    · exact Or.inr ⟨')', r2, rfl, by decide, by decide⟩
  · rcases hb with hnil | ⟨e, es, heq, he1, he2⟩
    · exact absurd hnil (by simp)
    · simp only [List.cons_append, List.cons.injEq] at heq
      exact Or.inr ⟨d, vs ++ τ₂, rfl, by rw [heq.1]; exact he1, by rw [heq.1]; exact he2⟩

/-- `TailRel` preserves identifier boundaries at any common continuation. -/
theorem tailRel_bnd_mono {τ₁ τ₂ : List Char} (htr : TailRel τ₁ τ₂) :
    ∀ v, identBoundary (v ++ τ₁) → identBoundary (v ++ τ₂) := by
  intro v hb
  rcases v with _ | ⟨d, vs⟩
  · rcases htr with rfl | ⟨u, r1, r2, rfl, rfl⟩
    · exact Or.inl rfl
    · rcases u with _ | ⟨y, u0⟩
      · exact Or.inr ⟨')', r2, rfl, by decide⟩
      · simp only [List.nil_append] at hb ⊢
        rcases hb with hnil | ⟨e, es, heq, he⟩
        · exact absurd hnil (by simp)
        · simp only [List.cons_append, List.cons.injEq] at heq
          exact Or.inr ⟨y, u0 ++ ')' :: r2, rfl, by rw [heq.1]; exact he⟩
  · rcases hb with hnil | ⟨e, es, heq, he⟩
    · exact absurd hnil (by simp)
    · simp only [List.cons_append, List.cons.injEq] at heq
      exact Or.inr ⟨d, vs ++ τ₂, rfl, by rw [heq.1]; exact he⟩

/-- `TailRel` version of the transfer for non-identifier boundaries. -/
theorem tailRel_nobnd_mono {τ₁ τ₂ : List Char} (htr : TailRel τ₁ τ₂) :
    ∀ v, noIdentBoundary (v ++ τ₁) → noIdentBoundary (v ++ τ₂) := by
  intro v hb
  rcases v with _ | ⟨d, vs⟩
  · rcases htr with rfl | ⟨u, r1, r2, rfl, rfl⟩
    · exact Or.inl rfl
    · rcases u with _ | ⟨y, u0⟩
      · exact Or.inr ⟨')', r2, rfl, by decide, by decide⟩
      · simp only [List.nil_append] at hb ⊢
        rcases hb with hnil | ⟨e, es, heq, he1, he2⟩
        · exact absurd hnil (by simp)
        · simp only [List.cons_append, List.cons.injEq] at heq
          exact Or.inr ⟨y, u0 ++ ')' :: r2, rfl, by rw [heq.1]; exact he1,
            by rw [heq.1]; exact he2⟩
  · rcases hb with hnil | ⟨e, es, heq, he1, he2⟩
    · exact absurd hnil (by simp)
    · simp only [List.cons_append, List.cons.injEq] at heq
      exact Or.inr ⟨d, vs ++ τ₂, rfl, by rw [heq.1]; exact he1, by rw [heq.1]; exact he2⟩

/-- A prefix of an all-whitespace list is all-whitespace. -/
theorem allSpace_prefix {u v : List Char} (h : allSpace (u ++ v)) : allSpace u :=
  fun c hc => h c (List.mem_append_left v hc)

/-- `parse_ident` never crosses a closing parenthesis: from a state whose
remainder ends in a parenthesized tail, at least that tail remains. -/
theorem pi_align_rp {q : Nat} {C r : List Char} {res : Option Tok} {st₂ : LexSt}
    (h : parse_ident ⟨q, C ++ ')' :: r⟩ = (res, st₂)) :
    r.length + 1 ≤ st₂.rem.length := by
  obtain ⟨sp, rest, hsplit, hsp, hcase⟩ := parse_ident_inv h
  simp only [lexSt_rem] at hsplit
  have hspnp : ∀ x ∈ sp, x ≠ ')' := by
    intro x hx hxe
    have hs := hsp x hx
    rw [hxe] at hs
    exact absurd hs (by decide)
  rcases hcase with ⟨_, hst, _⟩ | ⟨ch, idt, rest2, hrest, hch, hid, _, _, hst⟩
  · obtain ⟨v, _, hv2⟩ := split_no_rp hsplit.symm hspnp
    rw [hst]
    simp only [lexSt_rem, hv2, List.length_append, List.length_cons]
    omega
  · have hx : (sp ++ ch :: idt) ++ rest2 = C ++ ')' :: r := by
      rw [hsplit, hrest]
      simp [List.append_assoc]
    have hnp : ∀ x ∈ sp ++ ch :: idt, x ≠ ')' := by
      intro x hx2 hxe
      rcases List.mem_append.1 hx2 with h1 | h2
      · exact hspnp x h1 hxe
      · rcases List.mem_cons.1 h2 with rfl | h3
        · rw [hxe] at hch; exact absurd hch (by decide)
        · have hic := hid x h3; rw [hxe] at hic; exact absurd hic (by decide)
    obtain ⟨v, _, hv2⟩ := split_no_rp hx hnp
    rw [hst]
    simp only [lexSt_rem, hv2, List.length_append, List.length_cons]
    omega

/-- When a `parse_ident` read moves past the whole tail boundary, the entire
head region before the tail is whitespace. -/
theorem pi_cross {q : Nat} {C τ₁ : List Char} {res : Option Tok} {st₂ : LexSt}
    (h : parse_ident ⟨q, C ++ τ₁⟩ = (res, st₂))
    (hlt : st₂.rem.length < τ₁.length) (hbnd : identBoundary τ₁) : allSpace C := by
  obtain ⟨sp, rest, hsplit, hsp, hcase⟩ := parse_ident_inv h
  simp only [lexSt_rem] at hsplit
  rcases hcase with ⟨_, hst, _⟩ | ⟨ch, idt, rest2, hrest, hch, hid, _, _, hst⟩
  · have hrl : rest.length < τ₁.length := by
      rw [hst] at hlt; simpa using hlt
    obtain ⟨v, hv1, _⟩ := suffix_align hsplit (le_of_lt hrl)
    rw [← hv1] at hsp
    exact allSpace_prefix hsp
  · have hrl : rest2.length < τ₁.length := by
      rw [hst] at hlt; simpa using hlt
    by_cases hsc : C.length ≤ sp.length
    · have hlen2 : rest.length ≤ τ₁.length := by
        have := congrArg List.length hsplit
        simp at this
        omega
      obtain ⟨v, hv1, _⟩ := suffix_align hsplit hlen2
      rw [← hv1] at hsp
      exact allSpace_prefix hsp
    · push_neg at hsc
      have hlen2 : τ₁.length ≤ rest.length := by
        have := congrArg List.length hsplit
        simp at this
        omega
      obtain ⟨v, hv1, hv2⟩ := suffix_align hsplit.symm hlen2
      rw [hrest] at hv2
      have hv2b : v ++ τ₁ = (ch :: idt) ++ rest2 := by
        rw [← hv2]; simp
      obtain ⟨w, hw1, hw2⟩ := suffix_align hv2b (le_of_lt hrl)
      rcases w with _ | ⟨e, ws⟩
      · rw [hw2] at hrl; simp at hrl
      · rcases hbnd with hnil | ⟨e2, es2, heq2, he2⟩
        · rw [hnil] at hw2; simp at hw2
        · rw [hw2] at heq2
          simp only [List.cons_append, List.cons.injEq] at heq2
          have hmem : e ∈ ch :: idt := by
            rw [← hw1]
            exact List.mem_append_right v (List.mem_cons_self e ws)
          have hcont : isIdentCont e = true := by
            rcases List.mem_cons.1 hmem with rfl | h3
            · exact identStart_cont hch
            · exact hid e h3
          rw [← heq2.1] at he2
          rw [he2] at hcont
          exact absurd hcont (by simp)

/-- Transfer of a `parse_ident` read that does not cross the tail: the same
read happens at any shifted position over any related tail. -/
theorem pi_transfer {q₁ : Nat} {C τ₁ : List Char} {res : Option Tok} {st₂ : LexSt}
    (h : parse_ident ⟨q₁, C ++ τ₁⟩ = (res, st₂))
    (hal : τ₁.length ≤ st₂.rem.length)
    {τ₂ : List Char}
    (hB : ∀ v, identBoundary (v ++ τ₁) → identBoundary (v ++ τ₂))
    (hN : ∀ v, noIdentBoundary (v ++ τ₁) → noIdentBoundary (v ++ τ₂)) :
    ∃ u C₂, C = u ++ C₂ ∧ st₂ = ⟨q₁ + u.length, C₂ ++ τ₁⟩ ∧
      ∀ q₂, ((res = none ∧ noIdentBoundary (C₂ ++ τ₁) ∧
          parse_ident ⟨q₂, C ++ τ₂⟩ = (none, ⟨q₂ + u.length, C₂ ++ τ₂⟩)) ∨
        (∃ sp body, u = sp ++ body ∧ allSpace sp ∧ body ≠ [] ∧ identBoundary (C₂ ++ τ₁) ∧
          res = some (Tok.leaf (q₁ + sp.length) (String.mk body)) ∧
          parse_ident ⟨q₂, C ++ τ₂⟩ =
            (some (Tok.leaf (q₂ + sp.length) (String.mk body)),
              ⟨q₂ + u.length, C₂ ++ τ₂⟩))) := by
  obtain ⟨sp, rest, hsplit, hsp, hcase⟩ := parse_ident_inv h
  simp only [lexSt_rem, lexSt_pos] at hsplit hcase
  rcases hcase with ⟨hres, hst, hnb⟩ | ⟨ch, idt, rest2, hrest, hch, hid, hbnd2, hres, hst⟩
  · rw [hst] at hal
    simp only [lexSt_rem] at hal
    obtain ⟨v, hv1, hv2⟩ := suffix_align hsplit.symm hal
    refine ⟨sp, v, hv1.symm, by rw [hst, hv2], ?_⟩
    intro q₂
    left
    refine ⟨hres, hv2 ▸ hnb, ?_⟩
    have hC2 : C ++ τ₂ = sp ++ (v ++ τ₂) := by
      rw [← hv1]; simp [List.append_assoc]
    rw [hC2]
    exact parse_ident_none_shape q₂ sp (v ++ τ₂) hsp (hN v (hv2 ▸ hnb))
  · rw [hst] at hal
    simp only [lexSt_rem] at hal
    have hx : (sp ++ ch :: idt) ++ rest2 = C ++ τ₁ := by
      rw [hsplit, hrest]
      simp [List.append_assoc]
    obtain ⟨v, hv1, hv2⟩ := suffix_align hx hal
    have hulen : (sp ++ ch :: idt).length = sp.length + 1 + idt.length := by
      simp; omega
    refine ⟨sp ++ ch :: idt, v, hv1.symm, ?_, ?_⟩
    · rw [hst, hv2, hulen]
      congr 1
      omega
    · intro q₂
      right
      refine ⟨sp, ch :: idt, rfl, hsp, by simp, hv2 ▸ hbnd2, hres, ?_⟩
      have hC2 : C ++ τ₂ = sp ++ ch :: (idt ++ (v ++ τ₂)) := by
        rw [← hv1]; simp [List.append_assoc]
      rw [hC2, parse_ident_ident_shape q₂ sp ch idt (v ++ τ₂) hsp hch hid
        (hB v (hv2 ▸ hbnd2)), hulen]
      congr 2
      omega

/-- Extending two pointwise-equivalent token lists by equivalent elements. -/
theorem pairEquiv_snoc {l₁ l₂ : List Tok} {t₁ t₂ : Tok}
    (hlen : l₁.length = l₂.length)
    (hp : ∀ i a b, l₁.get? i = some a → l₂.get? i = some b → EquivTok a b)
    (ht : EquivTok t₁ t₂) :
    ∀ i a b, (l₁ ++ [t₁]).get? i = some a → (l₂ ++ [t₂]).get? i = some b → EquivTok a b := by
  intro i a b ha hb
  rcases Nat.lt_trichotomy i l₁.length with hlt | heq | hgt
  · rw [List.get?_append hlt] at ha
    rw [List.get?_append (hlen ▸ hlt)] at hb
    exact hp i a b ha hb
  · subst heq
    rw [List.get?_concat_length] at ha
    rw [hlen, List.get?_concat_length] at hb
    simp only [Option.some.injEq] at ha hb
    rw [← ha, ← hb]
    exact ht
  · have hnone : (l₁ ++ [t₁]).get? i = none := by
      rw [List.get?_eq_none]
      simp
      omega
    rw [hnone] at ha
    exact absurd ha (by simp)

/-- The boundary facts of a `parse_ident` result: the exit state of a
successful identifier read lies at an identifier boundary. -/
theorem pi_some_bnd {st st₂ : LexSt} {nt : Tok}
    (h : parse_ident st = (some nt, st₂)) : identBoundary st₂.rem := by
  obtain ⟨sp, rest, _, _, hcase⟩ := parse_ident_inv h
  rcases hcase with ⟨hnone, _, _⟩ | ⟨c2, idt, rest2, _, _, _, hbn2, _, hstq⟩
  · exact absurd hnone (by simp)
  · rw [hstq]
    exact hbn2

/-- All of the `parse_type` cluster preserves identifier boundaries from the
states an exit can rewind to. -/
theorem bnd_all : ∀ f, BndPT f ∧ BndML f ∧ BndRM f ∧ BndFM f := by
  intro f
  induction f with
  | zero =>
    refine ⟨?_, ?_, ?_, ?_⟩
    · intro st tok res st₂ hb h; rw [parse_type] at h; exact absurd h (by simp)
    · intro tok mods saved st ntk res st₂ hbs hbn h
      rcases ntk with _ | nt <;> rw [mod_loop] at h <;> exact absurd h (by simp)
    · intro tok mods saved st ntk res st₂ hbs hbn h
      rcases ntk with _ | nt <;> rw [resolve_mods] at h <;> exact absurd h (by simp)
    · intro tok mods st res st₂ hb h; rw [finish_mods] at h; exact absurd h (by simp)
  | succ f ih =>
    obtain ⟨ihPT, ihML, ihRM, ihFM⟩ := ih
    have hFM : BndFM (f + 1) := by
      intro st tok mods res st₂ hb h
      rw [finish_mods] at h
      rcases htk : tok.start with _ | a
      · rw [htk] at h; exact absurd h (by simp)
      · rw [htk] at h
        simp only [bind, Except.bind] at h
        rcases ham : add_mods (tok.withLength (some (st.pos - a))) mods with e | t₂
        · rw [ham] at h; exact absurd h (by simp)
        · rw [ham] at h
          exact ihPT st t₂ res st₂ hb h
    have hRM : BndRM (f + 1) := by
      intro tok mods saved st ntk res st₂ hbs hbn h
      rcases ntk with _ | nt <;> rw [resolve_mods] at h
      · by_cases hlast : (mods.getLast? = some "signed" ∨ mods.getLast? = some "unsigned")
        · rw [if_pos hlast] at h
          exact ihFM _ _ _ _ _ hbs h
        · rw [if_neg hlast] at h; exact absurd h (by simp)
      · by_cases hprim : inStrList nt.string PRIMTYPES = true
        · rw [if_pos hprim] at h
          exact ihFM _ _ _ _ _ (hbn nt rfl) h
        · rw [if_neg hprim] at h
          by_cases hlast : (mods.getLast? = some "signed" ∨ mods.getLast? = some "unsigned")
          · rw [if_pos hlast] at h
            exact ihFM _ _ _ _ _ hbs h
          · rw [if_neg hlast] at h
            rcases hna : nt.start with _ | a <;> rcases hnl : nt.length with _ | n <;>
              simp [hna, hnl] at h
    have hML : BndML (f + 1) := by
      intro tok mods saved st ntk res st₂ hbs hbn h
      rcases ntk with _ | nt <;> rw [mod_loop] at h
      · exact ihRM _ _ _ _ _ _ _ hbs hbn h
      · by_cases hmod : inStrList nt.string MODIFIERS = true
        · rw [if_pos hmod] at h
          simp only [tokenInStringList, Bool.false_eq_true, if_false] at h
          by_cases hstruct : nt.string = some "struct"
          · rw [if_pos hstruct] at h
            rcases htk : tok.start with _ | a
            · rw [htk] at h; exact absurd h (by simp)
            · rw [htk] at h
              simp only [] at h
              by_cases hcnd : (mods.length ≠ 1 ∨ mods.get? 0 ≠ some "const")
              · rw [if_pos hcnd] at h; exact absurd h (by simp)
              · rw [if_neg hcnd] at h
                simp only [bind, Except.bind] at h
                rcases ham : (tok.withLength (some (st.pos - a))).add_modifier "const"
                  with e | t₂
                · rw [ham] at h; exact absurd h (by simp)
                · rw [ham] at h
                  exact ihPT _ _ _ _ (hbn nt rfl) h
          · rw [if_neg hstruct] at h
            by_cases hsu : (nt.string = some "signed" ∨ nt.string = some "unsigned")
            · rw [if_pos hsu] at h
              by_cases hdup : ("signed" ∈ mods ∨ "unsigned" ∈ mods)
              · rw [if_pos hdup] at h
                rcases hta : tok.start with _ | a <;> simp [hta] at h
              · rw [if_neg hdup] at h
                rcases hns : nt.string with _ | ns
                · rw [hns] at h
                  simp only [Except.ok.injEq, Prod.mk.injEq] at h
                  obtain ⟨_, rfl⟩ := h
                  exact hbn nt rfl
                · rw [hns] at h
                  rcases hpi : parse_ident st with ⟨ntk₂, st₃⟩
                  rw [hpi] at h
                  dsimp only at h
                  refine ihML _ _ _ _ _ _ _ (hbn nt rfl) ?_ h
                  intro nt₂ hn
                  rw [hn] at hpi
                  exact pi_some_bnd hpi
            · rw [if_neg hsu] at h
              rcases hns : nt.string with _ | ns
              · rw [hns] at h
                simp only [Except.ok.injEq, Prod.mk.injEq] at h
                obtain ⟨_, rfl⟩ := h
                exact hbn nt rfl
              · rw [hns] at h
                rcases hpi : parse_ident st with ⟨ntk₂, st₃⟩
                rw [hpi] at h
                dsimp only at h
                refine ihML _ _ _ _ _ _ _ (hbn nt rfl) ?_ h
                intro nt₂ hn
                rw [hn] at hpi
                exact pi_some_bnd hpi
        · rw [if_neg hmod] at h
          exact ihRM _ _ _ _ _ _ _ hbs hbn h
    have hPT : BndPT (f + 1) := by
      intro st tok res st₂ hb h
      rw [parse_type] at h
      by_cases hstruct : tok.string = some "struct"
      · rw [if_pos hstruct] at h
        rcases hpi : parse_ident st with ⟨name?, st₁⟩
        rw [hpi] at h
        rcases name? with _ | name
        · exact absurd h (by simp)
        · simp only [] at h
          rcases hns : name.string with _ | nameStr
          · rw [hns] at h; exact absurd h (by simp)
          · rw [hns] at h
            simp only [] at h
            by_cases hkw : KEYWORDS.contains nameStr = true
            · rw [if_pos hkw] at h
              rcases hna : name.start with _ | a <;> rcases hnl : name.length with _ | n <;>
                simp [hna, hnl] at h
            · rw [if_neg hkw] at h
              rcases htk : tok.start with _ | a
              · rw [htk] at h; exact absurd h (by simp)
              · rw [htk] at h
                simp only [bind, Except.bind] at h
                rcases ham : (tok.withLength (some (st₁.pos - a))).add_modifier "struct"
                  with e | t₂
                · rw [ham] at h; exact absurd h (by simp)
                · rw [ham] at h
                  simp only [Except.ok.injEq, Prod.mk.injEq] at h
                  obtain ⟨_, rfl⟩ := h
                  exact pi_some_bnd hpi
      · rw [if_neg hstruct] at h
        by_cases hprim : inStrList tok.string PRIMTYPES = true
        · rw [if_pos hprim] at h
          by_cases hlong : tok.string = some "long"
          · rw [if_pos hlong] at h
            rcases hpi : parse_ident st with ⟨nt?, st₁⟩
            rw [hpi] at h
            rcases nt? with _ | nt
            · simp only [Except.ok.injEq, Prod.mk.injEq] at h
              obtain ⟨_, rfl⟩ := h
              exact hb
            · simp only [] at h
              rcases hns : nt.string with _ | nts
              · rw [hns] at h
                simp only [Except.ok.injEq, Prod.mk.injEq] at h
                obtain ⟨_, rfl⟩ := h
                exact hb
              · rw [hns] at h
                simp only [] at h
                by_cases hlt : LONGTYPES.contains nts = true
                · rw [if_pos hlt] at h
                  rcases hta : tok.start with _ | a
                  · rw [hta] at h; exact absurd h (by simp)
                  · rw [hta] at h
                    simp only [Except.ok.injEq, Prod.mk.injEq] at h
                    obtain ⟨_, rfl⟩ := h
                    exact pi_some_bnd hpi
                · rw [if_neg hlt] at h
                  simp only [Except.ok.injEq, Prod.mk.injEq] at h
                  obtain ⟨_, rfl⟩ := h
                  exact hb
          · rw [if_neg hlong] at h
            simp only [Except.ok.injEq, Prod.mk.injEq] at h
            obtain ⟨_, rfl⟩ := h
            exact hb
        · rw [if_neg hprim] at h
          by_cases hmod : inStrList tok.string MODIFIERS = true
          · rw [if_pos hmod] at h
            rcases hts : tok.string with _ | ts
            · rw [hts] at h
              simp only [Except.ok.injEq, Prod.mk.injEq] at h
              obtain ⟨_, rfl⟩ := h
              exact hb
            · rw [hts] at h
              simp only [] at h
              rcases hpi : parse_ident st with ⟨ntk?, st₁⟩
              rw [hpi] at h
              dsimp only at h
              refine ihML _ _ _ _ _ _ _ hb ?_ h
              intro nt₂ hn
              rw [hn] at hpi
              exact pi_some_bnd hpi
          · rw [if_neg hmod] at h
            simp only [Except.ok.injEq, Prod.mk.injEq] at h
            obtain ⟨_, rfl⟩ := h
            exact hb
    exact ⟨hPT, hML, hRM, hFM⟩

/-- A successful `mod_loop` run whose exit state holds strictly more input
than the current state must have resolved by rewinding: the accumulated
modifiers end in `signed` or `unsigned`, and the run reduces to `finish_mods`
on the defaulted `int` token at the saved rewind state. -/
theorem ml_deep : ∀ {f : Nat} {tok : Tok} {mods : List String} {saved st : LexSt}
    {ntk res : Option Tok} {exit : LexSt},
    mod_loop f tok mods saved st ntk = .ok (res, exit) →
    st.rem.length < exit.rem.length →
    ∃ g, f = g + 2 ∧
      (mods.getLast? = some "signed" ∨ mods.getLast? = some "unsigned") ∧
      finish_mods g (tok.withString (some "int")) mods saved = .ok (res, exit) := by
  intro f tok mods saved st ntk res exit h hlt
  rcases f with _ | f
  · rcases ntk with _ | nt <;> rw [mod_loop] at h <;> exact absurd h (by simp)
  · rcases ntk with _ | nt
    · rw [mod_loop] at h
      rcases f with _ | f
      · rw [resolve_mods] at h; exact absurd h (by simp)
      · rw [resolve_mods] at h
        by_cases hlast : (mods.getLast? = some "signed" ∨ mods.getLast? = some "unsigned")
        · rw [if_pos hlast] at h
          exact ⟨f, rfl, hlast, h⟩
        · rw [if_neg hlast] at h; exact absurd h (by simp)
    · rw [mod_loop] at h
      by_cases hmod : inStrList nt.string MODIFIERS = true
      · rw [if_pos hmod] at h
        simp only [tokenInStringList, Bool.false_eq_true, if_false] at h
        by_cases hstruct : nt.string = some "struct"
        · rw [if_pos hstruct] at h
          rcases htk : tok.start with _ | a
          · rw [htk] at h; exact absurd h (by simp)
          · rw [htk] at h
            simp only [] at h
            by_cases hcnd : (mods.length ≠ 1 ∨ mods.get? 0 ≠ some "const")
            · rw [if_pos hcnd] at h; exact absurd h (by simp)
            · rw [if_neg hcnd] at h
              simp only [bind, Except.bind] at h
              rcases ham : (tok.withLength (some (st.pos - a))).add_modifier "const"
                with e | t₂
              · rw [ham] at h; exact absurd h (by simp)
              · rw [ham] at h
                obtain ⟨x, hx1, _⟩ := (consume_all f).2.2.2.1 _ _ _ _ h
                have hxl := congrArg List.length hx1
                simp at hxl
                exact absurd hlt (by omega)
        · rw [if_neg hstruct] at h
          by_cases hsu : (nt.string = some "signed" ∨ nt.string = some "unsigned")
          · rw [if_pos hsu] at h
            by_cases hdup : ("signed" ∈ mods ∨ "unsigned" ∈ mods)
            · rw [if_pos hdup] at h
              rcases hta : tok.start with _ | a <;> simp [hta] at h
            · rw [if_neg hdup] at h
              rcases hns : nt.string with _ | ns
              · rw [hns] at h
                simp only [Except.ok.injEq, Prod.mk.injEq] at h
                obtain ⟨_, rfl⟩ := h
                exact absurd hlt (by omega)
              · rw [hns] at h
                rcases hpi : parse_ident st with ⟨ntk₂, st₃⟩
                rw [hpi] at h
                dsimp only at h
                obtain ⟨x, hx1, _⟩ := (consume_all f).2.2.2.2.1 st _ _ _ _ _ _ _
                  (suffSt_refl st) (suffSt_parse_ident hpi) h
                have hxl := congrArg List.length hx1
                simp at hxl
                exact absurd hlt (by omega)
          · rw [if_neg hsu] at h
            rcases hns : nt.string with _ | ns
            · rw [hns] at h
              simp only [Except.ok.injEq, Prod.mk.injEq] at h
              obtain ⟨_, rfl⟩ := h
              exact absurd hlt (by omega)
            · rw [hns] at h
              rcases hpi : parse_ident st with ⟨ntk₂, st₃⟩
              rw [hpi] at h
              dsimp only at h
              obtain ⟨x, hx1, _⟩ := (consume_all f).2.2.2.2.1 st _ _ _ _ _ _ _
                (suffSt_refl st) (suffSt_parse_ident hpi) h
              have hxl := congrArg List.length hx1
              simp at hxl
              exact absurd hlt (by omega)
      · rw [if_neg hmod] at h
        rcases f with _ | f
        · rw [resolve_mods] at h; exact absurd h (by simp)
        · rw [resolve_mods] at h
          by_cases hprim : inStrList nt.string PRIMTYPES = true
          · rw [if_pos hprim] at h
            obtain ⟨x, hx1, _⟩ := (consume_all f).2.2.2.2.2.2 _ _ _ _ _ h
            have hxl := congrArg List.length hx1
            simp at hxl
            exact absurd hlt (by omega)
          · rw [if_neg hprim] at h
            by_cases hlast : (mods.getLast? = some "signed" ∨ mods.getLast? = some "unsigned")
            · rw [if_pos hlast] at h
              exact ⟨f, rfl, hlast, h⟩
            · rw [if_neg hlast] at h
              rcases hna : nt.start with _ | a <;> rcases hnl : nt.length with _ | n <;>
                simp [hna, hnl] at h

/-- Transfer of one modifier-loop continuation: after a modifier has been
accepted at a pinned state, the following `parse_ident` read and the
recursive `mod_loop` call transfer to any shifted start and related tail. -/
theorem ml_step (f : Nat)
    (ihML : ∀ g, g < f + 1 → SimML g) (ihFM : ∀ g, g < f + 1 → SimFM g)
    {tok : Tok} {a₁ : Nat} {mods : List String} {k : Nat} {c τ₁ : List Char}
    {ntk₁ : Option Tok} {st₁ : LexSt} {res : Option Tok} {e : Nat} {w : List Char}
    (htk : tok.start = some a₁)
    (hpi : parse_ident ⟨a₁ + k, c ++ τ₁⟩ = (ntk₁, st₁))
    (h : mod_loop f tok mods ⟨a₁ + k, c ++ τ₁⟩ st₁ ntk₁ = .ok (res, ⟨a₁ + e, w ++ τ₁⟩))
    (a₂ : Nat) {τ₂ : List Char} (hpt : PTail τ₁ τ₂) :
    ∃ ntk₂ st₂, parse_ident ⟨a₂ + k, c ++ τ₂⟩ = (ntk₂, st₂) ∧
      mod_loop f (tok.withStart (some a₂)) mods ⟨a₂ + k, c ++ τ₂⟩ st₂ ntk₂ =
        .ok (Option.map (fun t => t.withStart (some a₂)) res, ⟨a₂ + e, w ++ τ₂⟩) := by
  rcases Nat.lt_or_ge st₁.rem.length τ₁.length with hcross | hal
  · rcases hpt with ⟨hτ₂, hbnd⟩ | ⟨r1, r2, hr1, hr2⟩
    · subst hτ₂
      have hsp : allSpace c := pi_cross hpi hcross hbnd
      have hexit : st₁.rem.length < (⟨a₁ + e, w ++ τ₁⟩ : LexSt).rem.length := by
        simp only [lexSt_rem, List.length_append]
        omega
      obtain ⟨g, hf, hlast, hfin⟩ := ml_deep h hexit
      have hws : (tok.withString (some "int")).start = some a₁ := by
        rw [(withString_fields tok (some "int")).1]; exact htk
      have hfin₂ := ihFM g (by omega) _ _ _ _ _ _ _ _ _ hws hfin a₂ []
        (Or.inl ⟨rfl, hbnd⟩)
      refine ⟨none, ⟨a₂ + k + c.length, []⟩, ?_, ?_⟩
      · exact parse_ident_none_shape (a₂ + k) c [] hsp (Or.inl rfl)
      · have hf2 : f = (g + 1) + 1 := by omega
        rw [hf2, mod_loop, resolve_mods, if_pos hlast, withString_withStart]
        exact hfin₂
    · exfalso
      rw [hr1] at hpi hcross
      have halign := pi_align_rp hpi
      simp only [List.length_cons] at hcross
      omega
  · obtain ⟨u, C₂, rfl, hst₁, hcases⟩ :=
      pi_transfer hpi hal (ptail_bnd_mono hpt) (ptail_nobnd_mono hpt)
    rcases hcases (a₂ + k) with ⟨hres0, hnb, hpi₂⟩ | ⟨sp, body, hu, hsp, hbne, hbnd2, hres1, hpi₂⟩
    · rw [hst₁, hres0] at h
      rw [Nat.add_assoc a₁ k u.length] at h
      have hcont := ihML f (by omega) tok a₁ mods k (u ++ C₂) (k + u.length) C₂ τ₁
        none res e w htk h a₂ τ₂ none hpt (Or.inl ⟨rfl, rfl⟩)
      refine ⟨none, ⟨a₂ + k + u.length, C₂ ++ τ₂⟩, hpi₂, ?_⟩
      rw [Nat.add_assoc a₂ k u.length]
      exact hcont
    · rw [hst₁, hres1] at h
      rw [Nat.add_assoc a₁ k u.length] at h
      have hcont := ihML f (by omega) tok a₁ mods k (u ++ C₂) (k + u.length) C₂ τ₁
        (some (Tok.leaf (a₁ + k + sp.length) (String.mk body))) res e w htk h a₂ τ₂
        (some (Tok.leaf (a₂ + k + sp.length) (String.mk body))) hpt
        (Or.inr ⟨Tok.leaf (a₁ + k + sp.length) (String.mk body),
          Tok.leaf (a₂ + k + sp.length) (String.mk body), rfl, rfl, rfl⟩)
      refine ⟨some (Tok.leaf (a₂ + k + sp.length) (String.mk body)),
        ⟨a₂ + k + u.length, C₂ ++ τ₂⟩, hpi₂, ?_⟩
      rw [Nat.add_assoc a₂ k u.length]
      exact hcont

/-- Fields of a leaf token. -/
theorem leaf_fields (a : Nat) (s : String) :
    (Tok.leaf a s).start = some a ∧ (Tok.leaf a s).string = some s ∧
    (Tok.leaf a s).modifiers = [] ∧ (Tok.leaf a s).length = some s.length ∧
    (Tok.leaf a s).items = none :=
  ⟨rfl, rfl, rfl, rfl, rfl⟩

/-- Leaves with the same lexeme are equivalent. -/
theorem equivTok_leaf (a b : Nat) (s : String) : EquivTok (Tok.leaf a s) (Tok.leaf b s) :=
  EquivTok.leaf rfl rfl rfl (fun m => Iff.rfl)

/-- `parse_ident` at the end of the input. -/
theorem pi_nil (q : Nat) : parse_ident ⟨q, []⟩ = (none, ⟨q, []⟩) := rfl

set_option maxHeartbeats 1000000 in
theorem sim_all : ∀ f, SimFM f ∧ SimRM f ∧ SimML f ∧ SimPT f ∧ SimTL f ∧ SimNT f := by
  intro f
  induction f using Nat.strong_induction_on with
  | _ f ih =>
  rcases f with _ | f
  · refine ⟨?_, ?_, ?_, ?_, ?_, ?_⟩
    · intro tok a₁ mods k c τ₁ res e w htk h
      rw [finish_mods] at h
      exact absurd h (by simp)
    · intro tok a₁ mods j su k c τ₁ ntk₁ res e w htk h
      rcases ntk₁ with _ | nt <;> rw [resolve_mods] at h <;> exact absurd h (by simp)
    · intro tok a₁ mods j su k c τ₁ ntk₁ res e w htk h
      rcases ntk₁ with _ | nt <;> rw [mod_loop] at h <;> exact absurd h (by simp)
    · intro tok a₁ k c τ₁ res e w htk h
      rw [parse_type] at h
      exact absurd h (by simp)
    · intro start₁ items₁ p₁ c τ₁ g h
      rw [tokens_loop] at h
      exact absurd h (by simp)
    · intro p₁ c τ₁ tok h
      rw [next_token] at h
      exact absurd h (by simp)
  · have ihFM : ∀ g, g < f + 1 → SimFM g := fun g hg => (ih g (by omega)).1
    have ihRM : ∀ g, g < f + 1 → SimRM g := fun g hg => (ih g (by omega)).2.1
    have ihML : ∀ g, g < f + 1 → SimML g := fun g hg => (ih g (by omega)).2.2.1
    have ihPT : ∀ g, g < f + 1 → SimPT g := fun g hg => (ih g (by omega)).2.2.2.1
    have ihTL : ∀ g, g < f + 1 → SimTL g := fun g hg => (ih g (by omega)).2.2.2.2.1
    have ihNT : ∀ g, g < f + 1 → SimNT g := fun g hg => (ih g (by omega)).2.2.2.2.2
    have hFM : SimFM (f + 1) := by
      intro tok a₁ mods k c τ₁ res e w htk h a₂ τ₂ hpt
      rw [finish_mods] at h
      rw [finish_mods, (withStart_fields tok (some a₂)).1]
      rw [htk] at h
      simp only [] at h ⊢
      simp only [lexSt_pos, Nat.add_sub_cancel_left] at h ⊢
      simp only [bind, Except.bind] at h ⊢
      rw [withLength_withStart, add_mods_withStart]
      rcases ham : add_mods (tok.withLength (some k)) mods with e0 | t₂
      · rw [ham] at h; exact absurd h (by simp)
      · rw [ham] at h
        simp only [Except.map]
        have hst : t₂.start = some a₁ := by
          rw [(add_mods_fields mods ham).1, (withLength_fields tok (some k)).1]
          exact htk
        exact ihPT f (by omega) t₂ a₁ k c τ₁ res e w hst h a₂ τ₂ hpt
    have hRM : SimRM (f + 1) := by
      intro tok a₁ mods j su k c τ₁ ntk₁ res e w htk h a₂ τ₂ ntk₂ hpt hnr
      rcases hnr with ⟨rfl, rfl⟩ | ⟨nt₁, nt₂, rfl, rfl, hstr⟩
      · rw [resolve_mods] at h ⊢
        by_cases hlast : (mods.getLast? = some "signed" ∨ mods.getLast? = some "unsigned")
        · rw [if_pos hlast] at h ⊢
          rw [withString_withStart]
          have hws : (tok.withString (some "int")).start = some a₁ := by
            rw [(withString_fields tok (some "int")).1]; exact htk
          exact ihFM f (by omega) (tok.withString (some "int")) a₁ mods j su τ₁ res e w
            hws h a₂ τ₂ hpt
        · rw [if_neg hlast] at h; exact absurd h (by simp)
      · rw [resolve_mods] at h ⊢
        rw [← hstr]
        by_cases hprim : inStrList nt₁.string PRIMTYPES = true
        · rw [if_pos hprim] at h ⊢
          rw [withString_withStart]
          have hws : (tok.withString nt₁.string).start = some a₁ := by
            rw [(withString_fields tok nt₁.string).1]; exact htk
          exact ihFM f (by omega) (tok.withString nt₁.string) a₁ mods k c τ₁ res e w
            hws h a₂ τ₂ hpt
        · rw [if_neg hprim] at h ⊢
          by_cases hlast : (mods.getLast? = some "signed" ∨ mods.getLast? = some "unsigned")
          · rw [if_pos hlast] at h ⊢
            rw [withString_withStart]
            have hws : (tok.withString (some "int")).start = some a₁ := by
              rw [(withString_fields tok (some "int")).1]; exact htk
            exact ihFM f (by omega) (tok.withString (some "int")) a₁ mods j su τ₁ res e w
              hws h a₂ τ₂ hpt
          · rw [if_neg hlast] at h
            rcases hna : nt₁.start with _ | a <;> rcases hnl : nt₁.length with _ | n <;>
              simp [hna, hnl] at h
    have hML : SimML (f + 1) := by
      intro tok a₁ mods j su k c τ₁ ntk₁ res e w htk h a₂ τ₂ ntk₂ hpt hnr
      rcases hnr with ⟨rfl, rfl⟩ | ⟨nt₁, nt₂, rfl, rfl, hstr⟩
      · rw [mod_loop] at h ⊢
        exact ihRM f (by omega) tok a₁ mods j su k c τ₁ none res e w htk h a₂ τ₂ none
          hpt (Or.inl ⟨rfl, rfl⟩)
      · rw [mod_loop] at h ⊢
        rw [← hstr]
        by_cases hmod : inStrList nt₁.string MODIFIERS = true
        · rw [if_pos hmod] at h ⊢
          simp only [tokenInStringList, Bool.false_eq_true, if_false] at h ⊢
          by_cases hstruct : nt₁.string = some "struct"
          · rw [if_pos hstruct] at h ⊢
            rw [htk] at h
            rw [(withStart_fields tok (some a₂)).1]
            simp only [] at h ⊢
            by_cases hcnd : (mods.length ≠ 1 ∨ mods.get? 0 ≠ some "const")
            · rw [if_pos hcnd] at h; exact absurd h (by simp)
            · rw [if_neg hcnd] at h ⊢
              simp only [lexSt_pos, Nat.add_sub_cancel_left] at h ⊢
              simp only [bind, Except.bind] at h ⊢
              rw [withLength_withStart, add_modifier_withStart]
              rcases ham : (tok.withLength (some k)).add_modifier "const" with e0 | t₂
              · rw [ham] at h; exact absurd h (by simp)
              · rw [ham] at h
                simp only [Except.map]
                rw [withString_withStart]
                have hst : (t₂.withString (some "struct")).start = some a₁ := by
                  rw [(withString_fields t₂ (some "struct")).1,
                    (add_modifier_fields ham).1, (withLength_fields tok (some k)).1]
                  exact htk
                exact ihPT f (by omega) (t₂.withString (some "struct")) a₁ k c τ₁ res e w
                  hst h a₂ τ₂ hpt
          · rw [if_neg hstruct] at h ⊢
            by_cases hsu : (nt₁.string = some "signed" ∨ nt₁.string = some "unsigned")
            · rw [if_pos hsu] at h ⊢
              by_cases hdup : ("signed" ∈ mods ∨ "unsigned" ∈ mods)
              · rw [if_pos hdup] at h
                rcases hta : tok.start with _ | a <;> rw [hta] at h <;>
                  exact absurd h (by simp)
              · rw [if_neg hdup] at h ⊢
                rcases hns : nt₁.string with _ | ns
                · rw [hns] at h
                  have h2 : Except.ok ((none : Option Tok), (⟨a₁ + k, c ++ τ₁⟩ : LexSt)) =
                      Except.ok (res, (⟨a₁ + e, w ++ τ₁⟩ : LexSt)) := h
                  simp only [Except.ok.injEq, Prod.mk.injEq, LexSt.mk.injEq] at h2
                  obtain ⟨hres, hpos, hrem⟩ := h2
                  obtain rfl : e = k := by omega
                  obtain rfl := List.append_cancel_right hrem
                  rw [← hres]
                  rfl
                · rw [hns] at h
                  have h2 : mod_loop f tok (mods ++ [ns]) ⟨a₁ + k, c ++ τ₁⟩
                      (parse_ident ⟨a₁ + k, c ++ τ₁⟩).2 (parse_ident ⟨a₁ + k, c ++ τ₁⟩).1 =
                      .ok (res, ⟨a₁ + e, w ++ τ₁⟩) := h
                  rcases hpi : parse_ident ⟨a₁ + k, c ++ τ₁⟩ with ⟨ntk₁b, st₁b⟩
                  rw [hpi] at h2
                  dsimp only at h2
                  obtain ⟨ntk₂b, st₂b, hpi₂, hcont⟩ := ml_step f ihML ihFM htk hpi h2 a₂ hpt
                  show mod_loop f (tok.withStart (some a₂)) (mods ++ [ns]) ⟨a₂ + k, c ++ τ₂⟩
                      (parse_ident ⟨a₂ + k, c ++ τ₂⟩).2 (parse_ident ⟨a₂ + k, c ++ τ₂⟩).1 =
                      .ok (Option.map (fun t => t.withStart (some a₂)) res, ⟨a₂ + e, w ++ τ₂⟩)
                  rw [hpi₂]
                  exact hcont
            · rw [if_neg hsu] at h ⊢
              rcases hns : nt₁.string with _ | ns
              · rw [hns] at h
                have h2 : Except.ok ((none : Option Tok), (⟨a₁ + k, c ++ τ₁⟩ : LexSt)) =
                    Except.ok (res, (⟨a₁ + e, w ++ τ₁⟩ : LexSt)) := h
                simp only [Except.ok.injEq, Prod.mk.injEq, LexSt.mk.injEq] at h2
                obtain ⟨hres, hpos, hrem⟩ := h2
                obtain rfl : e = k := by omega
                obtain rfl := List.append_cancel_right hrem
                rw [← hres]
                rfl
              · rw [hns] at h
                have h2 : mod_loop f tok (mods ++ [ns]) ⟨a₁ + k, c ++ τ₁⟩
                    (parse_ident ⟨a₁ + k, c ++ τ₁⟩).2 (parse_ident ⟨a₁ + k, c ++ τ₁⟩).1 =
                    .ok (res, ⟨a₁ + e, w ++ τ₁⟩) := h
                rcases hpi : parse_ident ⟨a₁ + k, c ++ τ₁⟩ with ⟨ntk₁b, st₁b⟩
                rw [hpi] at h2
                dsimp only at h2
                obtain ⟨ntk₂b, st₂b, hpi₂, hcont⟩ := ml_step f ihML ihFM htk hpi h2 a₂ hpt
                show mod_loop f (tok.withStart (some a₂)) (mods ++ [ns]) ⟨a₂ + k, c ++ τ₂⟩
                    (parse_ident ⟨a₂ + k, c ++ τ₂⟩).2 (parse_ident ⟨a₂ + k, c ++ τ₂⟩).1 =
                    .ok (Option.map (fun t => t.withStart (some a₂)) res, ⟨a₂ + e, w ++ τ₂⟩)
                rw [hpi₂]
                exact hcont
        · rw [if_neg hmod] at h ⊢
          exact ihRM f (by omega) tok a₁ mods j su k c τ₁ (some nt₁) res e w htk h a₂ τ₂
            (some nt₂) hpt (Or.inr ⟨nt₁, nt₂, rfl, rfl, hstr⟩)
    have hPT : SimPT (f + 1) := by
      intro tok a₁ k c τ₁ res e w htk h a₂ τ₂ hpt
      rw [parse_type] at h ⊢
      rw [(withStart_fields tok (some a₂)).2.1]
      by_cases hstruct : tok.string = some "struct"
      · rw [if_pos hstruct] at h ⊢
        rcases hpi : parse_ident ⟨a₁ + k, c ++ τ₁⟩ with ⟨name?, st₁⟩
        rw [hpi] at h
        rcases name? with _ | name
        · exact absurd h (by simp)
        · simp only [] at h
          rcases hns : name.string with _ | nameStr
          · rw [hns] at h; exact absurd h (by simp)
          · rw [hns] at h
            simp only [] at h
            by_cases hkw : KEYWORDS.contains nameStr = true
            · rw [if_pos hkw] at h
              rcases hna : name.start with _ | a0 <;> rcases hnl : name.length with _ | n0 <;>
                simp [hna, hnl] at h
            · rw [if_neg hkw] at h
              rw [htk] at h
              simp only [] at h
              simp only [bind, Except.bind] at h
              rcases ham : (tok.withLength (some (st₁.pos - a₁))).add_modifier "struct"
                with e0 | t₂
              · rw [ham] at h; exact absurd h (by simp)
              · rw [ham] at h
                simp only [Except.ok.injEq, Prod.mk.injEq] at h
                obtain ⟨hres, hexit⟩ := h
                subst hexit
                simp only [lexSt_pos, Nat.add_sub_cancel_left] at ham
                have hal : τ₁.length ≤ (⟨a₁ + e, w ++ τ₁⟩ : LexSt).rem.length := by
                  simp only [lexSt_rem, List.length_append]
                  omega
                obtain ⟨u, C₂, rfl, hst₁, hcases⟩ :=
                  pi_transfer hpi hal (ptail_bnd_mono hpt) (ptail_nobnd_mono hpt)
                rw [LexSt.mk.injEq] at hst₁
                obtain ⟨hpos2, hrem2⟩ := hst₁
                obtain rfl := List.append_cancel_right hrem2
                obtain rfl : e = k + u.length := by omega
                rcases hcases (a₂ + k) with ⟨hres0, _, _⟩ |
                  ⟨sp, body, hu, hsp, hbne, hbnd2, hres1, hpi₂⟩
                · exact absurd hres0 (by simp)
                · rw [Option.some.injEq] at hres1
                  subst hres1
                  rw [(leaf_fields (a₁ + k + sp.length) (String.mk body)).2.1,
                    Option.some.injEq] at hns
                  subst hns
                  rw [hpi₂]
                  simp only []
                  rw [(leaf_fields (a₂ + k + sp.length) (String.mk body)).2.1]
                  simp only []
                  rw [if_neg hkw]
                  rw [(withStart_fields tok (some a₂)).1]
                  simp only []
                  simp only [bind, Except.bind]
                  have hsub : a₂ + k + u.length - a₂ = k + u.length := by omega
                  rw [hsub]
                  rw [withLength_withStart, add_modifier_withStart, ham]
                  simp only [Except.map]
                  rw [withString_withStart]
                  rw [← hres]
                  have hposf : a₂ + k + u.length = a₂ + (k + u.length) := by omega
                  rw [hposf]
                  rfl
      · rw [if_neg hstruct] at h ⊢
        by_cases hprim : inStrList tok.string PRIMTYPES = true
        · rw [if_pos hprim] at h ⊢
          by_cases hlong : tok.string = some "long"
          · rw [if_pos hlong] at h ⊢
            rcases hpi : parse_ident ⟨a₁ + k, c ++ τ₁⟩ with ⟨nt?, st₁⟩
            rw [hpi] at h
            rcases nt? with _ | nt
            · simp only [Except.ok.injEq, Prod.mk.injEq, LexSt.mk.injEq] at h
              obtain ⟨hres, hpos, hrem⟩ := h
              obtain rfl : k = e := by omega
              obtain rfl := List.append_cancel_right hrem
              rcases Nat.lt_or_ge st₁.rem.length τ₁.length with hcross | hal
              · rcases hpt with ⟨hτ₂, hbnd⟩ | ⟨r1, r2, hr1, hr2⟩
                · subst hτ₂
                  have hsp : allSpace c := pi_cross hpi hcross hbnd
                  rw [parse_ident_none_shape (a₂ + k) c [] hsp (Or.inl rfl)]
                  rw [← hres]
                  rfl
                · exfalso
                  rw [hr1] at hpi hcross
                  have halign := pi_align_rp hpi
                  simp only [List.length_cons] at hcross
                  omega
              · obtain ⟨u, C₂, rfl, hst₁, hcases⟩ :=
                  pi_transfer hpi hal (ptail_bnd_mono hpt) (ptail_nobnd_mono hpt)
                rcases hcases (a₂ + k) with ⟨_, _, hpi₂⟩ |
                  ⟨sp, body, hu, hsp, hbne, hbnd2, hres1, hpi₂⟩
                · rw [hpi₂]
                  rw [← hres]
                  rfl
                · exact absurd hres1 (by simp)
            · simp only [] at h
              rcases hnts : nt.string with _ | nts
              · obtain ⟨sp0, rest0, _, _, hc0⟩ := parse_ident_inv hpi
                rcases hc0 with ⟨hn0, _, _⟩ | ⟨c0, idt0, r0, _, _, _, _, hres0, _⟩
                · exact absurd hn0 (by simp)
                · rw [Option.some.injEq] at hres0
                  rw [hres0, (leaf_fields _ _).2.1] at hnts
                  exact absurd hnts (by simp)
              · rw [hnts] at h
                simp only [] at h
                by_cases hlt2 : LONGTYPES.contains nts = true
                · rw [if_pos hlt2] at h
                  rw [htk] at h
                  simp only [] at h
                  simp only [Except.ok.injEq, Prod.mk.injEq] at h
                  obtain ⟨hres, hexit⟩ := h
                  subst hexit
                  simp only [lexSt_pos, Nat.add_sub_cancel_left] at hres
                  have hal : τ₁.length ≤ (⟨a₁ + e, w ++ τ₁⟩ : LexSt).rem.length := by
                    simp only [lexSt_rem, List.length_append]
                    omega
                  obtain ⟨u, C₂, rfl, hst₁, hcases⟩ :=
                    pi_transfer hpi hal (ptail_bnd_mono hpt) (ptail_nobnd_mono hpt)
                  rw [LexSt.mk.injEq] at hst₁
                  obtain ⟨hpos2, hrem2⟩ := hst₁
                  obtain rfl := List.append_cancel_right hrem2
                  obtain rfl : e = k + u.length := by omega
                  rcases hcases (a₂ + k) with ⟨hres0, _, _⟩ |
                    ⟨sp, body, hu, hsp, hbne, hbnd2, hres1, hpi₂⟩
                  · exact absurd hres0 (by simp)
                  · rw [Option.some.injEq] at hres1
                    subst hres1
                    rw [(leaf_fields (a₁ + k + sp.length) (String.mk body)).2.1,
                      Option.some.injEq] at hnts
                    subst hnts
                    rw [hpi₂]
                    simp only []
                    rw [(leaf_fields (a₂ + k + sp.length) (String.mk body)).2.1]
                    simp only []
                    rw [if_pos hlt2, (withStart_fields tok (some a₂)).1]
                    simp only []
                    have hsub : a₂ + k + u.length - a₂ = k + u.length := by omega
                    rw [hsub]
                    rw [withString_withStart, withLength_withStart]
                    rw [← hres]
                    have hposf : a₂ + k + u.length = a₂ + (k + u.length) := by omega
                    rw [hposf]
                    rfl
                · rw [if_neg hlt2] at h
                  simp only [Except.ok.injEq, Prod.mk.injEq, LexSt.mk.injEq] at h
                  obtain ⟨hres, hpos, hrem⟩ := h
                  obtain rfl : k = e := by omega
                  obtain rfl := List.append_cancel_right hrem
                  rcases Nat.lt_or_ge st₁.rem.length τ₁.length with hcross | hal
                  · rcases hpt with ⟨hτ₂, hbnd⟩ | ⟨r1, r2, hr1, hr2⟩
                    · subst hτ₂
                      have hsp : allSpace c := pi_cross hpi hcross hbnd
                      rw [parse_ident_none_shape (a₂ + k) c [] hsp (Or.inl rfl)]
                      rw [← hres]
                      rfl
                    · exfalso
                      rw [hr1] at hpi hcross
                      have halign := pi_align_rp hpi
                      simp only [List.length_cons] at hcross
                      omega
                  · obtain ⟨u, C₂, rfl, hst₁, hcases⟩ :=
                      pi_transfer hpi hal (ptail_bnd_mono hpt) (ptail_nobnd_mono hpt)
                    rcases hcases (a₂ + k) with ⟨hres0, _, _⟩ |
                      ⟨sp, body, hu, hsp, hbne, hbnd2, hres1, hpi₂⟩
                    · exact absurd hres0 (by simp)
                    · rw [Option.some.injEq] at hres1
                      subst hres1
                      rw [(leaf_fields (a₁ + k + sp.length) (String.mk body)).2.1,
                        Option.some.injEq] at hnts
                      subst hnts
                      rw [hpi₂]
                      simp only []
                      rw [(leaf_fields (a₂ + k + sp.length) (String.mk body)).2.1]
                      simp only []
                      rw [if_neg hlt2]
                      rw [← hres]
                      rfl
          · rw [if_neg hlong] at h ⊢
            simp only [Except.ok.injEq, Prod.mk.injEq, LexSt.mk.injEq] at h
            obtain ⟨hres, hpos, hrem⟩ := h
            obtain rfl : k = e := by omega
            obtain rfl := List.append_cancel_right hrem
            rw [← hres]
            rfl
        · rw [if_neg hprim] at h ⊢
          by_cases hmod : inStrList tok.string MODIFIERS = true
          · rw [if_pos hmod] at h ⊢
            rcases hts : tok.string with _ | ts
            · rw [hts] at h
              have h2 : Except.ok ((none : Option Tok), (⟨a₁ + k, c ++ τ₁⟩ : LexSt)) =
                  Except.ok (res, (⟨a₁ + e, w ++ τ₁⟩ : LexSt)) := h
              simp only [Except.ok.injEq, Prod.mk.injEq, LexSt.mk.injEq] at h2
              obtain ⟨hres, hpos, hrem⟩ := h2
              obtain rfl : k = e := by omega
              obtain rfl := List.append_cancel_right hrem
              rw [← hres]
              rfl
            · rw [hts] at h
              have h2 : mod_loop f tok [ts] ⟨a₁ + k, c ++ τ₁⟩
                  (parse_ident ⟨a₁ + k, c ++ τ₁⟩).2 (parse_ident ⟨a₁ + k, c ++ τ₁⟩).1 =
                  .ok (res, ⟨a₁ + e, w ++ τ₁⟩) := h
              rcases hpi : parse_ident ⟨a₁ + k, c ++ τ₁⟩ with ⟨ntk₁b, st₁b⟩
              rw [hpi] at h2
              dsimp only at h2
              have h3 : mod_loop f tok ([] ++ [ts]) ⟨a₁ + k, c ++ τ₁⟩ st₁b ntk₁b =
                  .ok (res, ⟨a₁ + e, w ++ τ₁⟩) := h2
              obtain ⟨ntk₂b, st₂b, hpi₂, hcont⟩ := ml_step f ihML ihFM htk hpi h3 a₂ hpt
              show mod_loop f (tok.withStart (some a₂)) [ts] ⟨a₂ + k, c ++ τ₂⟩
                  (parse_ident ⟨a₂ + k, c ++ τ₂⟩).2 (parse_ident ⟨a₂ + k, c ++ τ₂⟩).1 =
                  .ok (Option.map (fun t => t.withStart (some a₂)) res, ⟨a₂ + e, w ++ τ₂⟩)
              rw [hpi₂]
              exact hcont
          · rw [if_neg hmod] at h ⊢
            simp only [Except.ok.injEq, Prod.mk.injEq, LexSt.mk.injEq] at h
            obtain ⟨hres, hpos, hrem⟩ := h
            obtain rfl : k = e := by omega
            obtain rfl := List.append_cancel_right hrem
            rw [← hres]
            rfl
    have hTL : SimTL (f + 1) := by
      intro start₁ items₁ p₁ c τ₁ g h
      rw [tokens_loop] at h
      by_cases hcl : (true = true ∧ curchar ⟨p₁, c ++ τ₁⟩ = some ')')
      · rw [if_pos hcl] at h
        simp only [Except.ok.injEq, Prod.mk.injEq, Option.some.injEq] at h
        obtain ⟨hg, hexit⟩ := h
        simp only [advance, lexSt_pos, lexSt_rem, LexSt.mk.injEq] at hexit hg
        obtain ⟨hp, hrem⟩ := hexit
        rcases c with _ | ⟨x, c2⟩
        · simp at hp
        · obtain rfl : c2 = [] := by
            have hlc : c2.length = 0 := by
              simp only [List.length_cons] at hp
              omega
            exact List.eq_nil_of_length_eq_zero hlc
          obtain rfl : x = ')' := by
            obtain ⟨-, hcur⟩ := hcl
            simp [curchar] at hcur
            exact hcur
          refine ⟨by simp, ?_⟩
          intro start₂ items₂ p₂ τ₂ htr hlen hpair
          refine ⟨Tok.mk (some start₂) none [] (some (p₂ + 1 - start₂)) (some items₂), ?_, ?_⟩
          · rw [tokens_loop]
            have hcc : (true = true ∧ curchar ⟨p₂, [')'] ++ τ₂⟩ = some ')') :=
              ⟨rfl, by simp [curchar]⟩
            rw [if_pos hcc]
            rfl
          · rw [← hg]
            exact EquivTok.group rfl rfl hlen hpair
      · rw [if_neg hcl] at h
        rcases hnt : next_token f ⟨p₁, c ++ τ₁⟩ with e0 | ⟨tk?, st₁⟩
        · rw [hnt] at h; exact absurd h (by simp)
        · rw [hnt] at h
          rcases tk? with _ | tk
          · exact absurd h (by simp)
          · simp only [] at h
            obtain ⟨u, hu1, hu2⟩ := (consume_all f).1 _ _ _ hnt
            simp only [lexSt_rem, lexSt_pos] at hu1 hu2
            obtain ⟨y, hy1, _⟩ := (consume_all f).2.1 _ _ _ _ _ _ h
            simp only [lexSt_rem] at hy1
            have hlen1 : τ₁.length ≤ st₁.rem.length := by rw [hy1]; simp
            obtain ⟨v, hv1, hv2⟩ := suffix_align hu1.symm hlen1
            have hustrict := strictNT hnt
            have hsk : p₁ ≤ (skip_space ⟨p₁, c ++ τ₁⟩).pos := by
              rw [skip_space_eq]
              simp
            obtain ⟨sp1, sr1⟩ := st₁
            simp only [lexSt_pos, lexSt_rem] at hu2 hv2 hustrict
            subst hu2
            subst hv2
            have hul : 0 < u.length := by omega
            subst hv1
            have hexit2 : p₁ + (u ++ v).length = (p₁ + u.length) + v.length := by
              simp
              omega
            rw [hexit2] at h
            obtain ⟨hvlast, htrans⟩ := ihTL f (by omega) start₁ (items₁ ++ [tk])
              (p₁ + u.length) v τ₁ g h
            have hvne : v ≠ [] := by
              intro hv
              rw [hv] at hvlast
              simp at hvlast
            have hgl := List.getLast?_eq_getLast v hvne
            rw [hvlast] at hgl
            simp only [Option.some.injEq] at hgl
            have hv0 : v = v.dropLast ++ [')'] := by
              conv_lhs => rw [← List.dropLast_append_getLast hvne]
              rw [← hgl]
            constructor
            · rw [hv0, ← List.append_assoc]
              exact List.getLast?_concat _
            · intro start₂ items₂ p₂ τ₂ htr hlen hpair
              have htrv : TailRel (v ++ τ₁) (v ++ τ₂) := by
                right
                refine ⟨v.dropLast, τ₁, τ₂, ?_, ?_⟩
                · conv_lhs => rw [hv0]
                  simp
                · conv_lhs => rw [hv0]
                  simp
              have hnt2 : next_token f ⟨p₁, u ++ (v ++ τ₁)⟩ =
                  .ok (some tk, ⟨p₁ + u.length, v ++ τ₁⟩) := by
                rw [← List.append_assoc]
                exact hnt
              obtain ⟨tk₂, hnt₂, heq⟩ := ihNT f (by omega) p₁ u (v ++ τ₁) tk hnt2 p₂
                (v ++ τ₂) htrv
              obtain ⟨g₂, hrec, hgeq⟩ := htrans start₂ (items₂ ++ [tk₂]) (p₂ + u.length) τ₂
                htr (by simp [hlen]) (pairEquiv_snoc hlen hpair heq)
              refine ⟨g₂, ?_, hgeq⟩
              rw [tokens_loop]
              have hccn : ¬ (true = true ∧ curchar ⟨p₂, (u ++ v) ++ τ₂⟩ = some ')') := by
                rintro ⟨-, hcc⟩
                rcases u with _ | ⟨x1, u1⟩
                · simp at hul
                · apply hcl
                  refine ⟨rfl, ?_⟩
                  simp [curchar] at hcc ⊢
                  exact hcc
              rw [if_neg hccn]
              rw [List.append_assoc]
              rw [hnt₂]
              have hpos3 : p₂ + (u ++ v).length = (p₂ + u.length) + v.length := by
                simp
                omega
              rw [hpos3]
              exact hrec
    have hNT : SimNT (f + 1) := by
      intro p₁ c τ₁ tok h p₂ τ₂ htr
      have hstrict := strictNT h
      rw [next_token] at h
      rcases hcc : curchar (skip_space ⟨p₁, c ++ τ₁⟩) with _ | ch
      · simp only [hcc] at h
        exact absurd h (by simp)
      · simp only [hcc] at h
        rw [skip_space_eq] at hcc hstrict h
        simp only [lexSt_pos] at hstrict
        have hcd : c.dropWhile pyIsSpace ≠ [] := by
          intro hnil
          have hceq : c = c.takeWhile pyIsSpace := by
            conv_lhs => rw [← List.takeWhile_append_dropWhile pyIsSpace c]
            rw [hnil, List.append_nil]
          have hall : allSpace c := by
            intro x hx
            rw [hceq] at hx
            exact mem_takeWhile_sat x hx
          rw [takeWhile_append_all τ₁ hall] at hstrict
          simp only [List.length_append] at hstrict
          omega
        rcases hcds : c.dropWhile pyIsSpace with _ | ⟨d, ds⟩
        · exact absurd hcds hcd
        · obtain ⟨htw2, hdw2⟩ := takeWhile_append_stop τ₁ hcds
          obtain ⟨htw3, hdw3⟩ := takeWhile_append_stop (P := pyIsSpace) τ₂ hcds
          rw [htw2, hdw2] at h hcc
          simp only [curchar, lexSt_rem, List.head?_cons, Option.some.injEq] at hcc
          subst hcc
          have hd : pyIsSpace d = false := head_dropWhile_neg hcds
          have hc2 : c = c.takeWhile pyIsSpace ++ d :: ds := by
            conv_lhs => rw [← List.takeWhile_append_dropWhile pyIsSpace c]
            rw [hcds]
          rw [htw2] at hstrict
          set m := (c.takeWhile pyIsSpace).length with hm
          have hclen : c.length = m + 1 + ds.length := by
            conv_lhs => rw [hc2]
            simp [hm]
            omega
          by_cases hpunct : d ∈ PUNCTUATION
          · rw [if_pos hpunct] at h
            by_cases hstar : d = '*'
            · rw [if_pos hstar] at h
              simp only [advance, lexSt_pos, lexSt_rem, List.tail_cons] at h
              rcases hpi : parse_ident ⟨p₁ + m + 1, ds ++ τ₁⟩ with ⟨id?, st₂⟩
              rw [hpi] at h
              rcases id? with _ | ident
              · simp only [Except.ok.injEq, Prod.mk.injEq, LexSt.mk.injEq,
                  Option.some.injEq] at h
                obtain ⟨htok, hpos, hrem⟩ := h
                have hds : ds = [] := by
                  have hl := congrArg List.length hrem
                  simp at hl
                  exact hl
                subst hds
                simp only [List.length_nil, Nat.add_zero] at hclen
                have hpx : ∃ st₃, parse_ident ⟨p₂ + m + 1, ([] : List Char) ++ τ₂⟩ =
                    (none, st₃) := by
                  rcases htr with rfl | ⟨u₀, r1, r2, hr1, hr2⟩
                  · exact ⟨⟨p₂ + m + 1, []⟩, by rw [List.nil_append]; exact pi_nil _⟩
                  · rw [hr1, List.nil_append] at hpi
                    have hal := pi_align_rp hpi
                    obtain ⟨u, C₂, hC, hst₁, hcases⟩ := pi_transfer hpi
                      (by simp only [List.length_cons]; omega)
                      (ptail_bnd_mono (Or.inr ⟨r1, r2, rfl, rfl⟩))
                      (ptail_nobnd_mono (Or.inr ⟨r1, r2, rfl, rfl⟩))
                    rcases hcases (p₂ + m + 1) with ⟨_, _, hpi₂⟩ |
                      ⟨_, _, _, _, _, _, hres1, _⟩
                    · rw [hr2, List.nil_append]
                      exact ⟨_, hpi₂⟩
                    · exact absurd hres1 (by simp)
                obtain ⟨st₃, hpi₂⟩ := hpx
                refine ⟨Tok.leaf (p₂ + m) "*", ?_, ?_⟩
                · rw [next_token, skip_space_eq, htw3, hdw3]
                  simp only [curchar, lexSt_rem, List.head?_cons]
                  rw [if_pos hpunct, if_pos hstar]
                  simp only [advance, lexSt_pos, lexSt_rem, List.tail_cons]
                  rw [hpi₂]
                  have hpe : p₂ + m + 1 = p₂ + c.length := by omega
                  rw [hpe]
                  rfl
                · rw [← htok]
                  exact equivTok_leaf _ _ _
              · simp only [] at h
                by_cases hconst : ident.string = some "const"
                · rw [if_pos hconst] at h
                  simp only [bind, Except.bind] at h
                  rw [star_const_tok] at h
                  simp only [Except.ok.injEq, Prod.mk.injEq, Option.some.injEq] at h
                  obtain ⟨htok, hexit⟩ := h
                  subst hexit
                  have hal2 : τ₁.length ≤ (⟨p₁ + c.length, τ₁⟩ : LexSt).rem.length :=
                    Nat.le_refl _
                  obtain ⟨u, C₂, hC, hst₁, hcases⟩ := pi_transfer hpi hal2
                    (tailRel_bnd_mono htr) (tailRel_nobnd_mono htr)
                  rw [LexSt.mk.injEq] at hst₁
                  obtain ⟨hpos2, hrem2⟩ := hst₁
                  have hC2nil : C₂ = [] := by
                    have hl := congrArg List.length hrem2
                    simp at hl
                    exact hl
                  subst hC2nil
                  rw [List.append_nil] at hC
                  subst hC
                  rcases hcases (p₂ + m + 1) with ⟨hres0, _, _⟩ |
                    ⟨sp, body, hu, hsp, hbne, hbnd2, hres1, hpi₂⟩
                  · exact absurd hres0 (by simp)
                  · rw [Option.some.injEq] at hres1
                    rw [hres1, (leaf_fields _ _).2.1, Option.some.injEq] at hconst
                    refine ⟨(Tok.mk (some (p₂ + m)) (some "*") ["const"] (some 1)
                      none).withLength (some (1 + ds.length)), ?_, ?_⟩
                    · rw [next_token, skip_space_eq, htw3, hdw3]
                      simp only [curchar, lexSt_rem, List.head?_cons]
                      rw [if_pos hpunct, if_pos hstar]
                      simp only [advance, lexSt_pos, lexSt_rem, List.tail_cons]
                      rw [hpi₂]
                      simp only []
                      have hconst₂ : (Tok.leaf (p₂ + m + 1 + sp.length)
                          (String.mk body)).string = some "const" := by
                        rw [(leaf_fields _ _).2.1, hconst]
                      rw [if_pos hconst₂]
                      simp only [bind, Except.bind]
                      rw [star_const_tok]
                      simp only [lexSt_pos]
                      have hsub2 : p₂ + m + 1 + ds.length - (p₂ + m) = 1 + ds.length := by
                        omega
                      rw [hsub2]
                      have hpe : p₂ + m + 1 + ds.length = p₂ + c.length := by omega
                      rw [hpe]
                      rfl
                    · rw [← htok]
                      have hsub1 : p₁ + c.length - (p₁ + m) = 1 + ds.length := by omega
                      rw [hsub1]
                      exact EquivTok.leaf rfl rfl rfl (fun m2 => Iff.rfl)
                · rw [if_neg hconst] at h
                  simp only [Except.ok.injEq, Prod.mk.injEq, LexSt.mk.injEq,
                    Option.some.injEq] at h
                  obtain ⟨htok, hpos, hrem⟩ := h
                  have hds : ds = [] := by
                    have hl := congrArg List.length hrem
                    simp at hl
                    exact hl
                  subst hds
                  simp only [List.length_nil, Nat.add_zero] at hclen
                  rcases htr with rfl | ⟨u₀, r1, r2, hr1, hr2⟩
                  · refine ⟨Tok.leaf (p₂ + m) "*", ?_, ?_⟩
                    · rw [next_token, skip_space_eq, htw3, hdw3]
                      simp only [curchar, lexSt_rem, List.head?_cons]
                      rw [if_pos hpunct, if_pos hstar]
                      simp only [advance, lexSt_pos, lexSt_rem, List.tail_cons]
                      rw [List.nil_append, pi_nil]
                      have hpe : p₂ + m + 1 = p₂ + c.length := by omega
                      rw [hpe]
                    · rw [← htok]
                      exact equivTok_leaf _ _ _
                  · rw [hr1, List.nil_append] at hpi
                    have hal := pi_align_rp hpi
                    obtain ⟨u, C₂, hC, hst₁, hcases⟩ := pi_transfer hpi
                      (by simp only [List.length_cons]; omega)
                      (ptail_bnd_mono (Or.inr ⟨r1, r2, rfl, rfl⟩))
                      (ptail_nobnd_mono (Or.inr ⟨r1, r2, rfl, rfl⟩))
                    rcases hcases (p₂ + m + 1) with ⟨hres0, _, _⟩ |
                      ⟨sp, body, hu, hsp, hbne, hbnd2, hres1, hpi₂⟩
                    · exact absurd hres0 (by simp)
                    · rw [Option.some.injEq] at hres1
                      refine ⟨Tok.leaf (p₂ + m) "*", ?_, ?_⟩
                      · rw [next_token, skip_space_eq, htw3, hdw3]
                        simp only [curchar, lexSt_rem, List.head?_cons]
                        rw [if_pos hpunct, if_pos hstar]
                        simp only [advance, lexSt_pos, lexSt_rem, List.tail_cons]
                        rw [List.nil_append, hr2, hpi₂]
                        simp only []
                        have hconst₂ : ¬ ((Tok.leaf (p₂ + m + 1 + sp.length)
                            (String.mk body)).string = some "const") := by
                          rw [hres1, (leaf_fields (p₁ + m + 1 + sp.length)
                            (String.mk body)).2.1] at hconst
                          rw [(leaf_fields (p₂ + m + 1 + sp.length)
                            (String.mk body)).2.1]
                          exact hconst
                        rw [if_neg hconst₂]
                        have hpe : p₂ + m + 1 = p₂ + c.length := by omega
                        rw [hpe]
                      · rw [← htok]
                        exact equivTok_leaf _ _ _
            · rw [if_neg hstar] at h
              simp only [advance, lexSt_pos, lexSt_rem, List.tail_cons] at h
              simp only [Except.ok.injEq, Prod.mk.injEq, LexSt.mk.injEq,
                Option.some.injEq] at h
              obtain ⟨htok, hpos, hrem⟩ := h
              have hds : ds = [] := by
                have hl := congrArg List.length hrem
                simp at hl
                exact hl
              subst hds
              simp only [List.length_nil, Nat.add_zero] at hclen
              refine ⟨Tok.leaf (p₂ + m) (String.mk [d]), ?_, ?_⟩
              · rw [next_token, skip_space_eq, htw3, hdw3]
                simp only [curchar, lexSt_rem, List.head?_cons]
                rw [if_pos hpunct, if_neg hstar]
                simp only [advance, lexSt_pos, lexSt_rem, List.tail_cons]
                have hpe : p₂ + m + 1 = p₂ + c.length := by omega
                rw [hpe]
                rfl
              · rw [← htok]
                exact equivTok_leaf _ _ _
          · rw [if_neg hpunct] at h
            rcases hpi : parse_ident ⟨p₁ + m, d :: (ds ++ τ₁)⟩ with ⟨tk?, st₁⟩
            rw [hpi] at h
            rcases tk? with _ | tk
            · simp only [] at h
              by_cases hdig : pyIsDigit d = true
              · rw [if_pos hdig] at h
                simp only [lexSt_pos, lexSt_rem, List.tail_cons] at h
                have hnb : noIdentBoundary (d :: (ds ++ τ₁)) := by
                  obtain ⟨sp0, rest0, hsplit0, hsp0, hc0⟩ := parse_ident_inv hpi
                  simp only [lexSt_rem] at hsplit0
                  rcases hc0 with ⟨-, -, hnb0⟩ | ⟨c0, idt0, r0, -, -, -, -, hres0, -⟩
                  · rcases sp0 with _ | ⟨y, sp1⟩
                    · rw [List.nil_append] at hsplit0
                      rw [hsplit0]
                      exact hnb0
                    · simp only [List.cons_append, List.cons.injEq] at hsplit0
                      obtain ⟨rfl, -⟩ := hsplit0
                      exact absurd (hsp0 d (List.mem_cons_self _ _)) (by simp [hd])
                  · exact absurd hres0 (by simp)
                obtain ⟨hdns, hdni⟩ : pyIsSpace d = false ∧ isIdentStart d = false := by
                  rcases hnb with hnil | ⟨e, es, heq, he1, he2⟩
                  · exact absurd hnil (by simp)
                  · simp only [List.cons.injEq] at heq
                    rw [heq.1]
                    exact ⟨he1, he2⟩
                have hpigen : ∀ q (r : List Char),
                    parse_ident ⟨q, d :: r⟩ = (none, ⟨q, d :: r⟩) := by
                  intro q r
                  have hv := parse_ident_none_shape q [] (d :: r) (by intro x hx; simp at hx)
                    (Or.inr ⟨d, r, rfl, hdns, hdni⟩)
                  simpa using hv
                rcases hdsd : ds.dropWhile pyIsDigit with _ | ⟨d2, ds2⟩
                · have hds_take : ds.takeWhile pyIsDigit = ds := by
                    conv_rhs => rw [← List.takeWhile_append_dropWhile pyIsDigit ds]
                    rw [hdsd, List.append_nil]
                  have hdall : ∀ x ∈ ds, pyIsDigit x = true := by
                    intro x hx
                    rw [← hds_take] at hx
                    exact mem_takeWhile_sat x hx
                  rw [takeWhile_append_all τ₁ hdall, dropWhile_append_all τ₁ hdall] at h
                  simp only [Except.ok.injEq, Prod.mk.injEq, LexSt.mk.injEq,
                    Option.some.injEq] at h
                  obtain ⟨htok, hpos, hrem⟩ := h
                  have hτ₁h : ∀ x xs, τ₁ = x :: xs → pyIsDigit x = false := by
                    intro x xs hx
                    by_contra hxd
                    simp only [Bool.not_eq_false] at hxd
                    rw [hx, List.dropWhile_cons_of_pos hxd] at hrem
                    have hl := congrArg List.length hrem
                    have hle : (List.dropWhile pyIsDigit xs).length ≤ xs.length :=
                      List.Sublist.length_le (List.dropWhile_sublist _)
                    simp only [List.length_cons] at hl
                    omega
                  have hτ₁take : τ₁.takeWhile pyIsDigit = [] := by
                    rcases hτc : τ₁ with _ | ⟨x, xs⟩
                    · rfl
                    · rw [List.takeWhile_cons_of_neg (by simp [hτ₁h x xs hτc])]
                  rw [hτ₁take, List.append_nil] at htok hpos
                  have hτ₂h : ∀ x xs, τ₂ = x :: xs → pyIsDigit x = false := by
                    intro x xs hx
                    rcases htr with rfl | ⟨u₀, r1, r2, hr1, hr2⟩
                    · simp at hx
                    · rcases u₀ with _ | ⟨y, u1⟩
                      · rw [hr2] at hx
                        simp only [List.nil_append, List.cons.injEq] at hx
                        rw [← hx.1]
                        decide
                      · rw [hr2] at hx
                        simp only [List.cons_append, List.cons.injEq] at hx
                        rw [← hx.1]
                        exact hτ₁h y (u1 ++ ')' :: r1) (by rw [hr1]; simp)
                  have hτ₂take : τ₂.takeWhile pyIsDigit = [] := by
                    rcases hτc : τ₂ with _ | ⟨x, xs⟩
                    · rfl
                    · rw [List.takeWhile_cons_of_neg (by simp [hτ₂h x xs hτc])]
                  have hτ₂drop : τ₂.dropWhile pyIsDigit = τ₂ := by
                    rcases hτc : τ₂ with _ | ⟨x, xs⟩
                    · rfl
                    · rw [List.dropWhile_cons_of_neg (by simp [hτ₂h x xs hτc])]
                  refine ⟨Tok.leaf (p₂ + m) (String.mk (d :: ds)), ?_, ?_⟩
                  · rw [next_token, skip_space_eq, htw3, hdw3]
                    simp only [curchar, lexSt_rem, List.head?_cons]
                    rw [if_neg hpunct]
                    rw [hpigen (p₂ + m) (ds ++ τ₂)]
                    simp only []
                    rw [if_pos hdig]
                    simp only [lexSt_pos, lexSt_rem, List.tail_cons]
                    rw [takeWhile_append_all τ₂ hdall, dropWhile_append_all τ₂ hdall,
                      hτ₂take, hτ₂drop, List.append_nil]
                    have hpe : p₂ + m + 1 + ds.length = p₂ + c.length := by omega
                    rw [hpe]
                  · rw [← htok]
                    exact equivTok_leaf _ _ _
                · obtain ⟨htd, hdd⟩ := takeWhile_append_stop τ₁ hdsd
                  rw [htd, hdd] at h
                  simp only [Except.ok.injEq, Prod.mk.injEq, LexSt.mk.injEq] at h
                  obtain ⟨-, -, hrem⟩ := h
                  have hl := congrArg List.length hrem
                  simp only [List.length_cons, List.length_append] at hl
                  exfalso
                  omega
              · rw [if_neg hdig] at h
                by_cases hpar : d = '('
                · rw [if_pos hpar] at h
                  have hnb : noIdentBoundary (d :: (ds ++ τ₁)) := by
                    obtain ⟨sp0, rest0, hsplit0, hsp0, hc0⟩ := parse_ident_inv hpi
                    simp only [lexSt_rem] at hsplit0
                    rcases hc0 with ⟨-, -, hnb0⟩ | ⟨c0, idt0, r0, -, -, -, -, hres0, -⟩
                    · rcases sp0 with _ | ⟨y, sp1⟩
                      · rw [List.nil_append] at hsplit0
                        rw [hsplit0]
                        exact hnb0
                      · simp only [List.cons_append, List.cons.injEq] at hsplit0
                        obtain ⟨rfl, -⟩ := hsplit0
                        exact absurd (hsp0 d (List.mem_cons_self _ _)) (by simp [hd])
                    · exact absurd hres0 (by simp)
                  obtain ⟨hdns, hdni⟩ : pyIsSpace d = false ∧ isIdentStart d = false := by
                    rcases hnb with hnil | ⟨e, es, heq, he1, he2⟩
                    · exact absurd hnil (by simp)
                    · simp only [List.cons.injEq] at heq
                      rw [heq.1]
                      exact ⟨he1, he2⟩
                  have hpigen : ∀ q (r : List Char),
                      parse_ident ⟨q, d :: r⟩ = (none, ⟨q, d :: r⟩) := by
                    intro q r
                    have hv := parse_ident_none_shape q [] (d :: r)
                      (by intro x hx; simp at hx) (Or.inr ⟨d, r, rfl, hdns, hdni⟩)
                    simpa using hv
                  rcases f with _ | g
                  · rw [parse_tokens] at h
                    exact absurd h (by simp)
                  · rw [parse_tokens] at h
                    simp only [advance, lexSt_pos, lexSt_rem, List.tail_cons, if_true] at h
                    have hm1 : p₁ + m + 1 - 1 = p₁ + m := by omega
                    rw [hm1] at h
                    have hpe1 : p₁ + c.length = (p₁ + m + 1) + ds.length := by omega
                    rw [hpe1] at h
                    obtain ⟨hdslast, htrans⟩ := ihTL g (by omega) (p₁ + m) [] (p₁ + m + 1)
                      ds τ₁ tok h
                    obtain ⟨g₂, hrec, hgeq⟩ := htrans (p₂ + m) [] (p₂ + m + 1) τ₂ htr rfl
                      (by intro i a b ha hb; simp at ha)
                    refine ⟨g₂, ?_, hgeq⟩
                    rw [next_token, skip_space_eq, htw3, hdw3]
                    simp only [curchar, lexSt_rem, List.head?_cons]
                    rw [if_neg hpunct]
                    rw [hpigen (p₂ + m) (ds ++ τ₂)]
                    simp only []
                    rw [if_neg hdig, if_pos hpar]
                    rw [parse_tokens]
                    simp only [advance, lexSt_pos, lexSt_rem, List.tail_cons, if_true]
                    have hm2 : p₂ + m + 1 - 1 = p₂ + m := by omega
                    rw [hm2, hrec]
                    have hpe2 : (p₂ + m + 1) + ds.length = p₂ + c.length := by omega
                    rw [hpe2]
                · rw [if_neg hpar] at h
                  by_cases hrp : d = ')'
                  · rw [if_pos hrp] at h; exact absurd h (by simp)
                  · rw [if_neg hrp] at h; exact absurd h (by simp)
            · simp only [] at h
              by_cases hkw : inStrList tk.string KEYWORDS = true
              · rw [if_pos hkw] at h
                obtain ⟨y, hy1, -⟩ := (consume_all f).2.2.2.1 _ _ _ _ h
                simp only [lexSt_rem] at hy1
                have hal : τ₁.length ≤ st₁.rem.length := by
                  rw [hy1]
                  simp
                have hpib : parse_ident ⟨p₁ + m, (d :: ds) ++ τ₁⟩ = (some tk, st₁) := hpi
                obtain ⟨u, C₂, hC, hst₁, hcases⟩ := pi_transfer hpib hal
                  (tailRel_bnd_mono htr) (tailRel_nobnd_mono htr)
                rcases hcases (p₂ + m) with ⟨hres0, -, -⟩ |
                  ⟨sp, body, hu, hsp, hbne, hbnd2, hres1, hpi₂⟩
                · exact absurd hres0 (by simp)
                · rw [Option.some.injEq] at hres1
                  subst hres1
                  subst hst₁
                  have hbentry : identBoundary
                      ((⟨p₁ + m + u.length, C₂ ++ τ₁⟩ : LexSt).rem) := by
                    simp only [lexSt_rem]
                    exact hbnd2
                  have hbτ₁ : identBoundary τ₁ := by
                    have hb := (bnd_all f).1 _ _ _ _ hbentry h
                    simpa using hb
                  have hCl := congrArg List.length hC
                  simp only [List.length_cons, List.length_append] at hCl
                  have hul := congrArg List.length hu
                  simp only [List.length_append] at hul
                  have hpt2 : parse_type f ⟨p₂ + m + u.length, C₂ ++ τ₂⟩
                      (Tok.leaf (p₂ + m + sp.length) (String.mk body)) =
                      .ok (some (tok.withStart (some (p₂ + m + sp.length))),
                        ⟨p₂ + c.length, τ₂⟩) := by
                    rcases htr with rfl | ⟨u₀, r1, r2, hr1, hr2⟩
                    · have h1 : parse_type f ⟨(p₁ + m + sp.length) + body.length, C₂ ++ τ₁⟩
                          (Tok.leaf (p₁ + m + sp.length) (String.mk body)) =
                          .ok (some tok, ⟨(p₁ + m + sp.length) +
                            (body.length + C₂.length), [] ++ τ₁⟩) := by
                        rw [List.nil_append]
                        have he1 : p₁ + m + u.length =
                            (p₁ + m + sp.length) + body.length := by omega
                        have he2 : p₁ + c.length =
                            (p₁ + m + sp.length) + (body.length + C₂.length) := by omega
                        rw [← he1, ← he2]
                        exact h
                      have h2 := ihPT f (by omega) _ _ _ _ _ _ _ _
                        (leaf_fields (p₁ + m + sp.length) (String.mk body)).1 h1
                        (p₂ + m + sp.length) [] (Or.inl ⟨rfl, hbτ₁⟩)
                      rw [List.nil_append, leaf_withStart] at h2
                      have he3 : (p₂ + m + sp.length) + body.length =
                          p₂ + m + u.length := by omega
                      have he4 : (p₂ + m + sp.length) + (body.length + C₂.length) =
                          p₂ + c.length := by omega
                      rw [he3, he4] at h2
                      exact h2
                    · have h1 : parse_type f ⟨(p₁ + m + sp.length) + body.length,
                          (C₂ ++ u₀) ++ ')' :: r1⟩
                          (Tok.leaf (p₁ + m + sp.length) (String.mk body)) =
                          .ok (some tok, ⟨(p₁ + m + sp.length) +
                            (body.length + C₂.length), u₀ ++ ')' :: r1⟩) := by
                        rw [List.append_assoc]
                        have he1 : p₁ + m + u.length =
                            (p₁ + m + sp.length) + body.length := by omega
                        have he2 : p₁ + c.length =
                            (p₁ + m + sp.length) + (body.length + C₂.length) := by omega
                        rw [← he1, ← he2, ← hr1]
                        exact h
                      have h2 := ihPT f (by omega) _ _ _ _ _ _ _ _
                        (leaf_fields (p₁ + m + sp.length) (String.mk body)).1 h1
                        (p₂ + m + sp.length) (')' :: r2) (Or.inr ⟨r1, r2, rfl, rfl⟩)
                      rw [leaf_withStart, List.append_assoc, ← hr2] at h2
                      have he3 : (p₂ + m + sp.length) + body.length =
                          p₂ + m + u.length := by omega
                      have he4 : (p₂ + m + sp.length) + (body.length + C₂.length) =
                          p₂ + c.length := by omega
                      rw [he3, he4] at h2
                      exact h2
                  refine ⟨tok.withStart (some (p₂ + m + sp.length)), ?_, ?_⟩
                  · rw [next_token, skip_space_eq, htw3, hdw3]
                    simp only [curchar, lexSt_rem, List.head?_cons]
                    rw [if_neg hpunct]
                    have hpi₂b : parse_ident ⟨p₂ + m, d :: (ds ++ τ₂)⟩ =
                        (some (Tok.leaf (p₂ + m + sp.length) (String.mk body)),
                          ⟨p₂ + m + u.length, C₂ ++ τ₂⟩) := hpi₂
                    rw [hpi₂b]
                    simp only []
                    have hkw₂ : inStrList (Tok.leaf (p₂ + m + sp.length)
                        (String.mk body)).string KEYWORDS = true := by
                      rw [(leaf_fields (p₁ + m + sp.length) (String.mk body)).2.1] at hkw
                      rw [(leaf_fields (p₂ + m + sp.length) (String.mk body)).2.1]
                      exact hkw
                    rw [if_pos hkw₂]
                    exact hpt2
                  · exact equivTok_withStart tok _

              · rw [if_neg hkw] at h
                simp only [Except.ok.injEq, Prod.mk.injEq, Option.some.injEq] at h
                obtain ⟨htok, hexit⟩ := h
                subst hexit
                have hal : τ₁.length ≤ (⟨p₁ + c.length, τ₁⟩ : LexSt).rem.length :=
                  Nat.le_refl _
                have hpib : parse_ident ⟨p₁ + m, (d :: ds) ++ τ₁⟩ =
                    (some tk, ⟨p₁ + c.length, τ₁⟩) := hpi
                obtain ⟨u, C₂, hC, hst₁, hcases⟩ := pi_transfer hpib hal
                  (tailRel_bnd_mono htr) (tailRel_nobnd_mono htr)
                rw [LexSt.mk.injEq] at hst₁
                obtain ⟨hpos2, hrem2⟩ := hst₁
                have hC2nil : C₂ = [] := by
                  have hl := congrArg List.length hrem2
                  simp at hl
                  exact hl
                subst hC2nil
                rcases hcases (p₂ + m) with ⟨hres0, -, -⟩ |
                  ⟨sp, body, hu, hsp, hbne, hbnd2, hres1, hpi₂⟩
                · exact absurd hres0 (by simp)
                · rw [Option.some.injEq] at hres1
                  refine ⟨Tok.leaf (p₂ + m + sp.length) (String.mk body), ?_, ?_⟩
                  · rw [next_token, skip_space_eq, htw3, hdw3]
                    simp only [curchar, lexSt_rem, List.head?_cons]
                    rw [if_neg hpunct]
                    have hpi₂b : parse_ident ⟨p₂ + m, d :: (ds ++ τ₂)⟩ =
                        (some (Tok.leaf (p₂ + m + sp.length) (String.mk body)),
                          ⟨p₂ + m + u.length, ([] : List Char) ++ τ₂⟩) := hpi₂
                    rw [hpi₂b]
                    simp only []
                    have hkw₂ : ¬ (inStrList (Tok.leaf (p₂ + m + sp.length)
                        (String.mk body)).string KEYWORDS = true) := by
                      rw [hres1, (leaf_fields (p₁ + m + sp.length)
                        (String.mk body)).2.1] at hkw
                      rw [(leaf_fields (p₂ + m + sp.length) (String.mk body)).2.1]
                      exact hkw
                    rw [if_neg hkw₂]
                    have hpe : p₂ + m + u.length = p₂ + c.length := by omega
                    rw [hpe]
                    rfl
                  · rw [← htok, hres1]
                    exact equivTok_leaf _ _ _
    exact ⟨hFM, hRM, hML, hPT, hTL, hNT⟩


/-- A keyword string is a primitive type name or a modifier. -/
theorem inStrList_keywords {o : Option String} (h : inStrList o KEYWORDS = true) :
    inStrList o PRIMTYPES = true ∨ inStrList o MODIFIERS = true := by
  rcases o with _ | s
  · exact absurd h (by simp [inStrList])
  · have h2 : s ∈ PRIMTYPES ++ MODIFIERS := List.elem_iff.mp h
    rcases List.mem_append.mp h2 with hp | hm
    · exact Or.inl (List.elem_iff.mpr hp)
    · exact Or.inr (List.elem_iff.mpr hm)

/-- A primitive type name is a keyword. -/
theorem inStrList_prim_kw {o : Option String} (h : inStrList o PRIMTYPES = true) :
    inStrList o KEYWORDS = true := by
  rcases o with _ | s
  · exact absurd h (by simp [inStrList])
  · exact List.elem_iff.mpr (List.mem_append.mpr (Or.inl (List.elem_iff.mp h)))

/-- A token returned by `parse_ident` always carries a string. -/
theorem parse_ident_string {st st' : LexSt} {nt : Tok}
    (h : parse_ident st = (some nt, st')) : ∃ s, nt.string = some s := by
  obtain ⟨sp, rest, _, _, hcase⟩ := parse_ident_inv h
  rcases hcase with ⟨hres, _, _⟩ | ⟨c, idt, rest', _, _, _, _, hres, _⟩
  · exact absurd hres (by simp)
  · rw [Option.some.injEq] at hres
    subst hres
    exact ⟨_, rfl⟩

/-- The head of the remainder after `skip_space` is never whitespace. -/
theorem skip_head_not_space {st : LexSt} {c : Char} {cs : List Char}
    (h : (skip_space st).rem = c :: cs) : pyIsSpace c = false := by
  obtain ⟨p, l⟩ := st
  rw [skip_space_eq] at h
  exact head_dropWhile_neg h

/-- `skip_space` is idempotent. -/
theorem skip_skip (st : LexSt) : skip_space (skip_space st) = skip_space st := by
  obtain ⟨p, l⟩ := st
  rw [skip_space_eq, skip_space_eq]
  rcases hd : l.dropWhile pyIsSpace with _ | ⟨c, cs⟩
  · simp
  · have hc := head_dropWhile_neg hd
    rw [List.takeWhile_cons_of_neg (by simp [hc]), List.dropWhile_cons_of_neg (by simp [hc])]
    simp

/-- `next_token` first skips whitespace, so it factors through `skip_space`. -/
theorem next_token_skip (f : Nat) (st : LexSt) :
    next_token (f + 1) st = next_token (f + 1) (skip_space st) := by
  rw [next_token, next_token, skip_skip]

/-- Sub-tokens of a leaf: the leaf itself only. -/
theorem subTok_leaf {u tok : Tok} (hit : tok.items = none) (h : SubTok u tok) : u = tok := by
  induction h with
  | refl t => rfl
  | child hsub hitems hmem ih =>
    have h2 := hitems
    rw [ih hit, hit] at h2
    exact absurd h2 (by simp)

/-- Sub-tokens of a group: the group itself, or a sub-token of a child. -/
theorem subTok_group {u g : Tok} {L : List Tok} (hit : g.items = some L) (h : SubTok u g) :
    u = g ∨ ∃ t ∈ L, SubTok u t := by
  induction h with
  | refl t => exact Or.inl rfl
  | child hsub hitems hmem ih =>
    rcases ih hit with heq | ⟨s, hs, hus⟩
    · subst heq
      rw [hit, Option.some.injEq] at hitems
      subst hitems
      exact Or.inr ⟨_, hmem, SubTok.refl _⟩
    · exact Or.inr ⟨s, hs, SubTok.child hus hitems hmem⟩

/-- Moving onward from a state lying on `S` stays on `S`. -/
theorem onS_suff {S : List Char} {st st' : LexSt} (h : OnS S st) (hsf : SuffSt st st') :
    OnS S st' := by
  obtain ⟨hrem, hle⟩ := h
  obtain ⟨c, hc, hp⟩ := hsf
  have hdec : c ++ st'.rem = S.drop st.pos := by rw [← hc, hrem]
  have hlen : (S.drop st.pos).length = S.length - st.pos := List.length_drop _ _
  have hlen2 : c.length + st'.rem.length = S.length - st.pos := by
    rw [← hdec] at hlen
    simpa using hlen
  constructor
  · rw [hp, ← List.drop_drop, ← hdec, List.drop_left]
  · omega

/-- A state on `S` with empty remainder sits at the end of `S`. -/
theorem onS_pos_eq {S : List Char} {st : LexSt} (h : OnS S st) (hrem : st.rem = []) :
    st.pos = S.length := by
  obtain ⟨h1, h2⟩ := h
  rw [hrem] at h1
  have h3 := List.drop_eq_nil_iff.mp h1.symm
  omega

set_option maxHeartbeats 1000000 in
/-- Tokens produced by the `parse_type` family record the processed token's
start position, record a length spanning exactly up to the exit cursor, and
preserve the `items` field. -/
theorem span_all : ∀ f, SpanPT f ∧ SpanML f ∧ SpanRM f ∧ SpanFM f := by
  intro f
  induction f with
  | zero =>
    refine ⟨?_, ?_, ?_, ?_⟩
    · intro st tok t₂ st₂ a h; rw [parse_type] at h; exact absurd h (by simp)
    · intro tok mods saved st ntk t₂ st₂ a h
      rcases ntk with _ | nt <;> rw [mod_loop] at h <;> exact absurd h (by simp)
    · intro tok mods saved st ntk t₂ st₂ a h
      rcases ntk with _ | nt <;> rw [resolve_mods] at h <;> exact absurd h (by simp)
    · intro tok mods st t₂ st₂ a h; rw [finish_mods] at h; exact absurd h (by simp)
  | succ f ih =>
    obtain ⟨ihPT, ihML, ihRM, ihFM⟩ := ih
    have hFM : SpanFM (f + 1) := by
      intro tok mods st t₂ st₂ a h hstart
      rw [finish_mods] at h
      rw [hstart] at h
      simp only [] at h
      simp only [bind, Except.bind] at h
      rcases ham : add_mods (tok.withLength (some (st.pos - a))) mods with e | tok₂
      · rw [ham] at h; exact absurd h (by simp)
      · rw [ham] at h
        obtain ⟨h1, _, _, h4, h5⟩ := add_mods_fields mods ham
        obtain ⟨w1, _, _, w4, w5⟩ := withLength_fields tok (some (st.pos - a))
        obtain ⟨g1, g2, g3⟩ := ihPT st tok₂ t₂ st₂ a h (by rw [h1, w1, hstart]) (by rw [h4, w4])
        exact ⟨g1, g2, by rw [g3, h5, w5]⟩
    have hRM : SpanRM (f + 1) := by
      intro tok mods saved st ntk t₂ st₂ a h hstart
      rcases ntk with _ | nt <;> rw [resolve_mods] at h
      · by_cases hlast : (mods.getLast? = some "signed" ∨ mods.getLast? = some "unsigned")
        · rw [if_pos hlast] at h
          obtain ⟨w1, _, _, _, w5⟩ := withString_fields tok (some "int")
          obtain ⟨g1, g2, g3⟩ := ihFM _ _ _ _ _ a h (by rw [w1, hstart])
          exact ⟨g1, g2, by rw [g3, w5]⟩
        · rw [if_neg hlast] at h; exact absurd h (by simp)
      · by_cases hprim : inStrList nt.string PRIMTYPES = true
        · rw [if_pos hprim] at h
          obtain ⟨w1, _, _, _, w5⟩ := withString_fields tok nt.string
          obtain ⟨g1, g2, g3⟩ := ihFM _ _ _ _ _ a h (by rw [w1, hstart])
          exact ⟨g1, g2, by rw [g3, w5]⟩
        · rw [if_neg hprim] at h
          by_cases hlast : (mods.getLast? = some "signed" ∨ mods.getLast? = some "unsigned")
          · rw [if_pos hlast] at h
            obtain ⟨w1, _, _, _, w5⟩ := withString_fields tok (some "int")
            obtain ⟨g1, g2, g3⟩ := ihFM _ _ _ _ _ a h (by rw [w1, hstart])
            exact ⟨g1, g2, by rw [g3, w5]⟩
          · rw [if_neg hlast] at h
            rcases hna : nt.start with _ | a' <;> rcases hnl : nt.length with _ | n <;>
              simp [hna, hnl] at h
    have hML : SpanML (f + 1) := by
      intro tok mods saved st ntk t₂ st₂ a h hstart
      rcases ntk with _ | nt <;> rw [mod_loop] at h
      · exact ihRM _ _ _ _ _ _ _ a h hstart
      · by_cases hmod : inStrList nt.string MODIFIERS = true
        · rw [if_pos hmod] at h
          simp only [tokenInStringList, Bool.false_eq_true, if_false] at h
          by_cases hstruct : nt.string = some "struct"
          · rw [if_pos hstruct] at h
            rw [hstart] at h
            simp only [] at h
            by_cases hcnd : (mods.length ≠ 1 ∨ mods.get? 0 ≠ some "const")
            · rw [if_pos hcnd] at h; exact absurd h (by simp)
            · rw [if_neg hcnd] at h
              simp only [bind, Except.bind] at h
              rcases ham : (tok.withLength (some (st.pos - a))).add_modifier "const" with e | tok₂
              · rw [ham] at h; exact absurd h (by simp)
              · rw [ham] at h
                obtain ⟨h1, _, _, h4, h5⟩ := add_modifier_fields ham
                obtain ⟨w1, _, _, w4, w5⟩ := withLength_fields tok (some (st.pos - a))
                obtain ⟨s1, _, _, s4, s5⟩ := withString_fields tok₂ (some "struct")
                obtain ⟨g1, g2, g3⟩ := ihPT st _ t₂ st₂ a h (by rw [s1, h1, w1, hstart])
                  (by rw [s4, h4, w4])
                exact ⟨g1, g2, by rw [g3, s5, h5, w5]⟩
          · rw [if_neg hstruct] at h
            by_cases hsu : (nt.string = some "signed" ∨ nt.string = some "unsigned")
            · rw [if_pos hsu] at h
              by_cases hdup : ("signed" ∈ mods ∨ "unsigned" ∈ mods)
              · rw [if_pos hdup] at h
                rcases hta : tok.start with _ | a' <;> simp [hta] at h
              · rw [if_neg hdup] at h
                rcases hns : nt.string with _ | ns
                · rw [hns] at h
                  exact absurd h (by simp)
                · rw [hns] at h
                  rcases hpi : parse_ident st with ⟨ntk₂, st₃⟩
                  rw [hpi] at h
                  exact ihML _ _ _ _ _ _ _ a h hstart
            · rw [if_neg hsu] at h
              rcases hns : nt.string with _ | ns
              · rw [hns] at h
                exact absurd h (by simp)
              · rw [hns] at h
                rcases hpi : parse_ident st with ⟨ntk₂, st₃⟩
                rw [hpi] at h
                exact ihML _ _ _ _ _ _ _ a h hstart
        · rw [if_neg hmod] at h
          exact ihRM _ _ _ _ _ _ _ a h hstart
    have hPT : SpanPT (f + 1) := by
      intro st tok t₂ st₂ a h hstart hlen
      rw [parse_type] at h
      by_cases hstruct : tok.string = some "struct"
      · rw [if_pos hstruct] at h
        rcases hpi : parse_ident st with ⟨name?, st₁⟩
        rw [hpi] at h
        rcases name? with _ | name
        · exact absurd h (by simp)
        · simp only [] at h
          rcases hns : name.string with _ | nameStr
          · rw [hns] at h; exact absurd h (by simp)
          · rw [hns] at h
            simp only [] at h
            by_cases hkw : KEYWORDS.contains nameStr = true
            · rw [if_pos hkw] at h
              rcases hna : name.start with _ | a' <;> rcases hnl : name.length with _ | n <;>
                simp [hna, hnl] at h
            · rw [if_neg hkw] at h
              rw [hstart] at h
              simp only [] at h
              simp only [bind, Except.bind] at h
              rcases ham : (tok.withLength (some (st₁.pos - a))).add_modifier "struct" with e | tok₂
              · rw [ham] at h; exact absurd h (by simp)
              · rw [ham] at h
                simp only [Except.ok.injEq, Prod.mk.injEq, Option.some.injEq] at h
                obtain ⟨rfl, rfl⟩ := h
                obtain ⟨h1, _, _, h4, h5⟩ := add_modifier_fields ham
                obtain ⟨w1, _, _, w4, w5⟩ := withLength_fields tok (some (st₁.pos - a))
                obtain ⟨s1, _, _, s4, s5⟩ := withString_fields tok₂ (some nameStr)
                exact ⟨by rw [s1, h1, w1, hstart], by rw [s4, h4, w4], by rw [s5, h5, w5]⟩
      · rw [if_neg hstruct] at h
        by_cases hprim : inStrList tok.string PRIMTYPES = true
        · rw [if_pos hprim] at h
          by_cases hlong : tok.string = some "long"
          · rw [if_pos hlong] at h
            rcases hpi : parse_ident st with ⟨nt?, st₁⟩
            rw [hpi] at h
            rcases nt? with _ | nt
            · simp only [Except.ok.injEq, Prod.mk.injEq, Option.some.injEq] at h
              obtain ⟨rfl, rfl⟩ := h
              exact ⟨hstart, hlen, rfl⟩
            · simp only [] at h
              rcases hns : nt.string with _ | nts
              · rw [hns] at h
                simp only [Except.ok.injEq, Prod.mk.injEq, Option.some.injEq] at h
                obtain ⟨rfl, rfl⟩ := h
                exact ⟨hstart, hlen, rfl⟩
              · rw [hns] at h
                simp only [] at h
                by_cases hlt : LONGTYPES.contains nts = true
                · rw [if_pos hlt] at h
                  rw [hstart] at h
                  simp only [] at h
                  simp only [Except.ok.injEq, Prod.mk.injEq, Option.some.injEq] at h
                  obtain ⟨rfl, rfl⟩ := h
                  obtain ⟨s1, _, _, _, s5⟩ := withString_fields tok (some ("long " ++ nts))
                  obtain ⟨w1, _, _, w4, w5⟩ :=
                    withLength_fields (tok.withString (some ("long " ++ nts))) (some (st₁.pos - a))
                  exact ⟨by rw [w1, s1, hstart], by rw [w4], by rw [w5, s5]⟩
                · rw [if_neg hlt] at h
                  simp only [Except.ok.injEq, Prod.mk.injEq, Option.some.injEq] at h
                  obtain ⟨rfl, rfl⟩ := h
                  exact ⟨hstart, hlen, rfl⟩
          · rw [if_neg hlong] at h
            simp only [Except.ok.injEq, Prod.mk.injEq, Option.some.injEq] at h
            obtain ⟨rfl, rfl⟩ := h
            exact ⟨hstart, hlen, rfl⟩
        · rw [if_neg hprim] at h
          by_cases hmod : inStrList tok.string MODIFIERS = true
          · rw [if_pos hmod] at h
            rcases hts : tok.string with _ | ts
            · rw [hts] at h
              exact absurd h (by simp)
            · rw [hts] at h
              simp only [] at h
              rcases hpi : parse_ident st with ⟨ntk?, st₁⟩
              rw [hpi] at h
              simp only [] at h
              exact ihML _ _ _ _ _ _ _ a h hstart
          · rw [if_neg hmod] at h
            exact absurd h (by simp)
    exact ⟨hPT, hML, hRM, hFM⟩

set_option maxHeartbeats 1000000 in
/-- On a keyword token the `parse_type` family never returns an `ok`-`none`
result: every lookahead token carries a string, and the fall-through branches
are unreachable. -/
theorem some_all : ∀ f,
    (∀ st tok res st', inStrList tok.string KEYWORDS = true →
      parse_type f st tok = .ok (res, st') → ∃ t, res = some t) ∧
    (∀ tok mods saved st ntk res st',
      (∀ nt : Tok, ntk = some nt → ∃ s, nt.string = some s) →
      mod_loop f tok mods saved st ntk = .ok (res, st') → ∃ t, res = some t) ∧
    (∀ tok mods saved st ntk res st',
      resolve_mods f tok mods saved st ntk = .ok (res, st') → ∃ t, res = some t) ∧
    (∀ st tok mods res st', inStrList tok.string KEYWORDS = true →
      finish_mods f tok mods st = .ok (res, st') → ∃ t, res = some t) := by
  intro f
  induction f with
  | zero =>
    refine ⟨?_, ?_, ?_, ?_⟩
    · intro st tok res st' _ h; rw [parse_type] at h; exact absurd h (by simp)
    · intro tok mods saved st ntk res st' _ h
      rcases ntk with _ | nt <;> rw [mod_loop] at h <;> exact absurd h (by simp)
    · intro tok mods saved st ntk res st' h
      rcases ntk with _ | nt <;> rw [resolve_mods] at h <;> exact absurd h (by simp)
    · intro st tok mods res st' _ h; rw [finish_mods] at h; exact absurd h (by simp)
  | succ f ih =>
    obtain ⟨ihPT, ihML, ihRM, ihFM⟩ := ih
    have hFM : ∀ st tok mods res st', inStrList tok.string KEYWORDS = true →
        finish_mods (f + 1) tok mods st = .ok (res, st') → ∃ t, res = some t := by
      intro st tok mods res st' hkw h
      rw [finish_mods] at h
      rcases hts : tok.start with _ | a
      · rw [hts] at h; exact absurd h (by simp)
      · rw [hts] at h
        simp only [] at h
        simp only [bind, Except.bind] at h
        rcases ham : add_mods (tok.withLength (some (st.pos - a))) mods with e | tok₂
        · rw [ham] at h; exact absurd h (by simp)
        · rw [ham] at h
          refine ihPT st tok₂ res st' ?_ h
          obtain ⟨_, h2, _, _, _⟩ := add_mods_fields mods ham
          obtain ⟨_, w2, _, _, _⟩ := withLength_fields tok (some (st.pos - a))
          rw [h2, w2]
          exact hkw
    have hRM : ∀ tok mods saved st ntk res st',
        resolve_mods (f + 1) tok mods saved st ntk = .ok (res, st') → ∃ t, res = some t := by
      intro tok mods saved st ntk res st' h
      rcases ntk with _ | nt <;> rw [resolve_mods] at h
      · by_cases hlast : (mods.getLast? = some "signed" ∨ mods.getLast? = some "unsigned")
        · rw [if_pos hlast] at h
          refine ihFM _ _ _ _ _ ?_ h
          obtain ⟨_, w2, _, _, _⟩ := withString_fields tok (some "int")
          rw [w2]
          decide
        · rw [if_neg hlast] at h; exact absurd h (by simp)
      · by_cases hprim : inStrList nt.string PRIMTYPES = true
        · rw [if_pos hprim] at h
          refine ihFM _ _ _ _ _ ?_ h
          obtain ⟨_, w2, _, _, _⟩ := withString_fields tok nt.string
          rw [w2]
          exact inStrList_prim_kw hprim
        · rw [if_neg hprim] at h
          by_cases hlast : (mods.getLast? = some "signed" ∨ mods.getLast? = some "unsigned")
          · rw [if_pos hlast] at h
            refine ihFM _ _ _ _ _ ?_ h
            obtain ⟨_, w2, _, _, _⟩ := withString_fields tok (some "int")
            rw [w2]
            decide
          · rw [if_neg hlast] at h
            rcases hna : nt.start with _ | a' <;> rcases hnl : nt.length with _ | n <;>
              simp [hna, hnl] at h
    have hML : ∀ tok mods saved st ntk res st',
        (∀ nt : Tok, ntk = some nt → ∃ s, nt.string = some s) →
        mod_loop (f + 1) tok mods saved st ntk = .ok (res, st') → ∃ t, res = some t := by
      intro tok mods saved st ntk res st' hinv h
      rcases ntk with _ | nt <;> rw [mod_loop] at h
      · exact ihRM _ _ _ _ _ _ _ h
      · by_cases hmod : inStrList nt.string MODIFIERS = true
        · rw [if_pos hmod] at h
          simp only [tokenInStringList, Bool.false_eq_true, if_false] at h
          by_cases hstruct : nt.string = some "struct"
          · rw [if_pos hstruct] at h
            rcases hts : tok.start with _ | a
            · rw [hts] at h; exact absurd h (by simp)
            · rw [hts] at h
              simp only [] at h
              by_cases hcnd : (mods.length ≠ 1 ∨ mods.get? 0 ≠ some "const")
              · rw [if_pos hcnd] at h; exact absurd h (by simp)
              · rw [if_neg hcnd] at h
                simp only [bind, Except.bind] at h
                rcases ham : (tok.withLength (some (st.pos - a))).add_modifier "const"
                  with e | tok₂
                · rw [ham] at h; exact absurd h (by simp)
                · rw [ham] at h
                  refine ihPT _ _ _ _ ?_ h
                  obtain ⟨_, s2, _, _, _⟩ := withString_fields tok₂ (some "struct")
                  rw [s2]
                  decide
          · rw [if_neg hstruct] at h
            by_cases hsu : (nt.string = some "signed" ∨ nt.string = some "unsigned")
            · rw [if_pos hsu] at h
              by_cases hdup : ("signed" ∈ mods ∨ "unsigned" ∈ mods)
              · rw [if_pos hdup] at h
                rcases hta : tok.start with _ | a' <;> simp [hta] at h
              · rw [if_neg hdup] at h
                rcases hns : nt.string with _ | ns
                · obtain ⟨s, hs⟩ := hinv nt rfl
                  rw [hns] at hs
                  exact absurd hs (by simp)
                · rw [hns] at h
                  rcases hpi : parse_ident st with ⟨ntk₂, st₃⟩
                  rw [hpi] at h
                  dsimp only at h
                  refine ihML _ _ _ _ _ _ _ ?_ h
                  intro nt₂ hnt₂
                  rw [hnt₂] at hpi
                  exact parse_ident_string hpi
            · rw [if_neg hsu] at h
              rcases hns : nt.string with _ | ns
              · obtain ⟨s, hs⟩ := hinv nt rfl
                rw [hns] at hs
                exact absurd hs (by simp)
              · rw [hns] at h
                rcases hpi : parse_ident st with ⟨ntk₂, st₃⟩
                rw [hpi] at h
                dsimp only at h
                refine ihML _ _ _ _ _ _ _ ?_ h
                intro nt₂ hnt₂
                rw [hnt₂] at hpi
                exact parse_ident_string hpi
        · rw [if_neg hmod] at h
          exact ihRM _ _ _ _ _ _ _ h
    have hPT : ∀ st tok res st', inStrList tok.string KEYWORDS = true →
        parse_type (f + 1) st tok = .ok (res, st') → ∃ t, res = some t := by
      intro st tok res st' hkw h
      rw [parse_type] at h
      by_cases hstruct : tok.string = some "struct"
      · rw [if_pos hstruct] at h
        rcases hpi : parse_ident st with ⟨name?, st₁⟩
        rw [hpi] at h
        rcases name? with _ | name
        · exact absurd h (by simp)
        · simp only [] at h
          rcases hns : name.string with _ | nameStr
          · rw [hns] at h; exact absurd h (by simp)
          · rw [hns] at h
            simp only [] at h
            by_cases hkw2 : KEYWORDS.contains nameStr = true
            · rw [if_pos hkw2] at h
              rcases hna : name.start with _ | a' <;> rcases hnl : name.length with _ | n <;>
                simp [hna, hnl] at h
            · rw [if_neg hkw2] at h
              rcases hts : tok.start with _ | a
              · rw [hts] at h; exact absurd h (by simp)
              · rw [hts] at h
                simp only [] at h
                simp only [bind, Except.bind] at h
                rcases ham : (tok.withLength (some (st₁.pos - a))).add_modifier "struct"
                  with e | tok₂
                · rw [ham] at h; exact absurd h (by simp)
                · rw [ham] at h
                  simp only [Except.ok.injEq, Prod.mk.injEq] at h
                  exact ⟨_, h.1.symm⟩
      · rw [if_neg hstruct] at h
        by_cases hprim : inStrList tok.string PRIMTYPES = true
        · rw [if_pos hprim] at h
          by_cases hlong : tok.string = some "long"
          · rw [if_pos hlong] at h
            rcases hpi : parse_ident st with ⟨nt?, st₁⟩
            rw [hpi] at h
            rcases nt? with _ | nt
            · simp only [Except.ok.injEq, Prod.mk.injEq] at h
              exact ⟨_, h.1.symm⟩
            · simp only [] at h
              rcases hns : nt.string with _ | nts
              · rw [hns] at h
                simp only [Except.ok.injEq, Prod.mk.injEq] at h
                exact ⟨_, h.1.symm⟩
              · rw [hns] at h
                simp only [] at h
                by_cases hlt : LONGTYPES.contains nts = true
                · rw [if_pos hlt] at h
                  rcases hta : tok.start with _ | a
                  · rw [hta] at h; exact absurd h (by simp)
                  · rw [hta] at h
                    simp only [] at h
                    simp only [Except.ok.injEq, Prod.mk.injEq] at h
                    exact ⟨_, h.1.symm⟩
                · rw [if_neg hlt] at h
                  simp only [Except.ok.injEq, Prod.mk.injEq] at h
                  exact ⟨_, h.1.symm⟩
          · rw [if_neg hlong] at h
            simp only [Except.ok.injEq, Prod.mk.injEq] at h
            exact ⟨_, h.1.symm⟩
        · rw [if_neg hprim] at h
          by_cases hmod : inStrList tok.string MODIFIERS = true
          · rw [if_pos hmod] at h
            rcases hts : tok.string with _ | ts
            · rw [hts] at hmod
              exact absurd hmod (by decide)
            · rw [hts] at h
              simp only [] at h
              rcases hpi : parse_ident st with ⟨ntk?, st₁⟩
              rw [hpi] at h
              dsimp only at h
              refine ihML _ _ _ _ _ _ _ ?_ h
              intro nt₂ hnt₂
              rw [hnt₂] at hpi
              exact parse_ident_string hpi
          · rw [if_neg hmod] at h
            rcases inStrList_keywords hkw with hp | hm
            · exact absurd hp hprim
            · exact absurd hm hmod
    exact ⟨hPT, hML, hRM, hFM⟩

/-- `tokens_loop` and `parse_tokens` never return an `ok`-`none` result. -/
theorem tl_some : ∀ f,
    (∀ nested start items st res st', tokens_loop f nested start items st = .ok (res, st') →
      ∃ g, res = some g) ∧
    (∀ nested st res st', parse_tokens f nested st = .ok (res, st') → ∃ g, res = some g) := by
  intro f
  induction f with
  | zero =>
    constructor
    · intro nested start items st res st' h; rw [tokens_loop] at h; exact absurd h (by simp)
    · intro nested st res st' h; rw [parse_tokens] at h; exact absurd h (by simp)
  | succ f ih =>
    obtain ⟨ihTL, ihPTK⟩ := ih
    have hTL : ∀ nested start items st res st',
        tokens_loop (f + 1) nested start items st = .ok (res, st') → ∃ g, res = some g := by
      intro nested start items st res st' h
      rw [tokens_loop] at h
      by_cases hcl : (nested = true ∧ curchar st = some ')')
      · rw [if_pos hcl] at h
        simp only [Except.ok.injEq, Prod.mk.injEq] at h
        exact ⟨_, h.1.symm⟩
      · rw [if_neg hcl] at h
        rcases hnt : next_token f st with e | ⟨tk?, st₁⟩
        · rw [hnt] at h; exact absurd h (by simp)
        · rw [hnt] at h
          rcases tk? with _ | tok₀ <;> simp only [] at h
          · by_cases hn : nested = true
            · rw [if_pos hn] at h; exact absurd h (by simp)
            · rw [if_neg hn] at h
              simp only [Except.ok.injEq, Prod.mk.injEq] at h
              exact ⟨_, h.1.symm⟩
          · exact ihTL _ _ _ _ _ _ h
    refine ⟨hTL, ?_⟩
    intro nested st res st' h
    rw [parse_tokens] at h
    exact ihTL _ _ _ _ _ _ h

/-- An `ok`-`none` result of `next_token` happens only at the end of the
input: the exit state is the whitespace-skipped entry state with an empty
remainder. -/
theorem nt_none {f : Nat} {st st' : LexSt} (h : next_token f st = .ok (none, st')) :
    st' = skip_space st ∧ st'.rem = [] := by
  rcases f with _ | f
  · rw [next_token] at h; exact absurd h (by simp)
  · rw [next_token] at h
    rcases hc : curchar (skip_space st) with _ | ch
    · simp only [hc] at h
      simp only [Except.ok.injEq, Prod.mk.injEq] at h
      obtain ⟨-, rfl⟩ := h
      refine ⟨rfl, ?_⟩
      rcases hr : (skip_space st).rem with _ | ⟨c, cs⟩
      · rfl
      · rw [curchar, hr] at hc; simp at hc
    · simp only [hc] at h
      by_cases hpunct : ch ∈ PUNCTUATION
      · rw [if_pos hpunct] at h
        by_cases hstar : ch = '*'
        · rw [if_pos hstar] at h
          rcases hpi : parse_ident (advance (skip_space st)) with ⟨id?, st₂⟩
          rw [hpi] at h
          rcases id? with _ | ident
          · simp at h
          · simp only [] at h
            by_cases hconst : ident.string = some "const"
            · rw [if_pos hconst] at h
              simp only [bind, Except.bind] at h
              rcases ham : (Tok.leaf (skip_space st).pos "*").add_modifier "const" with e | tok₂
              · rw [ham] at h; exact absurd h (by simp)
              · rw [ham] at h; simp at h
            · rw [if_neg hconst] at h; simp at h
        · rw [if_neg hstar] at h; simp at h
      · rw [if_neg hpunct] at h
        rcases hpi : parse_ident (skip_space st) with ⟨tk?, st₁⟩
        rw [hpi] at h
        rcases tk? with _ | tk <;> simp only [] at h
        · by_cases hdig : pyIsDigit ch = true
          · rw [if_pos hdig] at h; simp at h
          · rw [if_neg hdig] at h
            by_cases hpar : ch = '('
            · rw [if_pos hpar] at h
              obtain ⟨g, hg⟩ := (tl_some f).2 _ _ _ _ h
              exact absurd hg (by simp)
            · rw [if_neg hpar] at h
              by_cases hrp : ch = ')'
              · rw [if_pos hrp] at h; simp at h
              · rw [if_neg hrp] at h; simp at h
        · by_cases hkw : inStrList tk.string KEYWORDS = true
          · rw [if_pos hkw] at h
            obtain ⟨t, ht⟩ := (some_all f).1 _ _ _ _ hkw h
            exact absurd ht (by simp)
          · rw [if_neg hkw] at h; simp at h

/-- Shape of a group built by `tokens_loop`: it records the loop's start
position, spans up to the exit cursor, carries no string, and holds a list
of items. -/
theorem tl_fields : ∀ f {nested : Bool} {start : Nat} {items : List Tok} {st : LexSt}
    {g : Tok} {st₂ : LexSt}, tokens_loop f nested start items st = .ok (some g, st₂) →
    g.start = some start ∧ g.string = none ∧ g.length = some (st₂.pos - start) ∧
    ∃ L, g.items = some L := by
  intro f
  induction f with
  | zero =>
    intro nested start items st g st₂ h
    rw [tokens_loop] at h; exact absurd h (by simp)
  | succ f ih =>
    intro nested start items st g st₂ h
    rw [tokens_loop] at h
    by_cases hcl : (nested = true ∧ curchar st = some ')')
    · rw [if_pos hcl] at h
      simp only [Except.ok.injEq, Prod.mk.injEq, Option.some.injEq] at h
      obtain ⟨rfl, rfl⟩ := h
      exact ⟨rfl, rfl, rfl, _, rfl⟩
    · rw [if_neg hcl] at h
      rcases hnt : next_token f st with e | ⟨tk?, st₁⟩
      · rw [hnt] at h; exact absurd h (by simp)
      · rw [hnt] at h
        rcases tk? with _ | tok₀ <;> simp only [] at h
        · by_cases hn : nested = true
          · rw [if_pos hn] at h; exact absurd h (by simp)
          · rw [if_neg hn] at h
            simp only [Except.ok.injEq, Prod.mk.injEq, Option.some.injEq] at h
            obtain ⟨rfl, rfl⟩ := h
            exact ⟨rfl, rfl, rfl, _, rfl⟩
        · exact ih h

/-- A non-nested `tokens_loop` run consumes the whole input. -/
theorem tl_end : ∀ f {start : Nat} {items : List Tok} {st : LexSt}
    {res : Option Tok} {st₂ : LexSt},
    tokens_loop f false start items st = .ok (res, st₂) → st₂.rem = [] := by
  intro f
  induction f with
  | zero =>
    intro start items st res st₂ h
    rw [tokens_loop] at h; exact absurd h (by simp)
  | succ f ih =>
    intro start items st res st₂ h
    rw [tokens_loop] at h
    rw [if_neg (by simp)] at h
    rcases hnt : next_token f st with e | ⟨tk?, st₁⟩
    · rw [hnt] at h; exact absurd h (by simp)
    · rw [hnt] at h
      rcases tk? with _ | tok₀ <;> simp only [] at h
      · rw [if_neg (by simp)] at h
        simp only [Except.ok.injEq, Prod.mk.injEq] at h
        obtain ⟨-, rfl⟩ := h
        exact (nt_none hnt).2
      · exact ih h

set_option maxHeartbeats 1000000 in
/-- Shape of a successful `next_token` run: the produced token starts at the
whitespace-skipped cursor, its recorded length spans exactly up to the exit
cursor, and it is either a leaf (`items = none`) or a parenthesized group
produced by `parse_tokens` behind an opening parenthesis. -/
theorem nt_shape : ∀ {f : Nat} {st : LexSt} {tok : Tok} {st₂ : LexSt},
    next_token f st = .ok (some tok, st₂) →
    tok.start = some (skip_space st).pos ∧
    (∃ n, tok.length = some n ∧ st₂.pos = (skip_space st).pos + n) ∧
    (tok.items = none ∨
      ∃ f' cs, f = f' + 1 ∧ (skip_space st).rem = '(' :: cs ∧
        parse_tokens f' true (advance (skip_space st)) = .ok (some tok, st₂)) := by
  intro f st tok st₂ h
  rcases f with _ | f
  · rw [next_token] at h; exact absurd h (by simp)
  rw [next_token] at h
  rcases hc : curchar (skip_space st) with _ | ch
  · simp only [hc] at h; simp at h
  simp only [hc] at h
  have hrem : ∃ cs, (skip_space st).rem = ch :: cs := by
    rcases hr : (skip_space st).rem with _ | ⟨c, cs⟩
    · rw [curchar, hr] at hc; simp at hc
    · rw [curchar, hr] at hc; simp at hc; exact ⟨cs, by rw [hc]⟩
  obtain ⟨cs, hcs⟩ := hrem
  by_cases hpunct : ch ∈ PUNCTUATION
  · rw [if_pos hpunct] at h
    by_cases hstar : ch = '*'
    · rw [if_pos hstar] at h
      rcases hpi : parse_ident (advance (skip_space st)) with ⟨id?, st₃⟩
      rw [hpi] at h
      rcases id? with _ | ident
      · simp only [Except.ok.injEq, Prod.mk.injEq, Option.some.injEq] at h
        obtain ⟨rfl, rfl⟩ := h
        exact ⟨rfl, ⟨1, rfl, rfl⟩, Or.inl rfl⟩
      · simp only [] at h
        by_cases hconst : ident.string = some "const"
        · rw [if_pos hconst] at h
          simp only [bind, Except.bind] at h
          rcases ham : (Tok.leaf (skip_space st).pos "*").add_modifier "const" with e | tok₃
          · rw [ham] at h; exact absurd h (by simp)
          · rw [ham] at h
            simp only [Except.ok.injEq, Prod.mk.injEq, Option.some.injEq] at h
            obtain ⟨rfl, rfl⟩ := h
            obtain ⟨h1, _, _, _, h5⟩ := add_modifier_fields ham
            obtain ⟨w1, _, _, w4, w5⟩ :=
              withLength_fields tok₃ (some (st₃.pos - (skip_space st).pos))
            have hs1 : SuffSt (skip_space st) st₃ :=
              suffSt_trans (suffSt_advance hcs) (suffSt_parse_ident hpi)
            obtain ⟨cc, -, hpp⟩ := hs1
            refine ⟨by rw [w1, h1]; rfl, ⟨st₃.pos - (skip_space st).pos, by rw [w4], by omega⟩,
              Or.inl (by rw [w5, h5]; rfl)⟩
        · rw [if_neg hconst] at h
          simp only [Except.ok.injEq, Prod.mk.injEq, Option.some.injEq] at h
          obtain ⟨rfl, rfl⟩ := h
          exact ⟨rfl, ⟨1, rfl, rfl⟩, Or.inl rfl⟩
    · rw [if_neg hstar] at h
      simp only [Except.ok.injEq, Prod.mk.injEq, Option.some.injEq] at h
      obtain ⟨rfl, rfl⟩ := h
      exact ⟨rfl, ⟨1, rfl, rfl⟩, Or.inl rfl⟩
  · rw [if_neg hpunct] at h
    rcases hpi : parse_ident (skip_space st) with ⟨tk?, st₁⟩
    rw [hpi] at h
    obtain ⟨sp, rest, hsplit, hsp, hcase⟩ := parse_ident_inv hpi
    have hspnil : sp = [] := by
      rcases hsp0 : sp with _ | ⟨d, ds⟩
      · rfl
      · subst hsp0
        rw [hcs] at hsplit
        simp only [List.cons_append, List.cons.injEq] at hsplit
        obtain ⟨rfl, -⟩ := hsplit
        have h1 : pyIsSpace ch = true := hsp ch (by simp)
        rw [skip_head_not_space hcs] at h1
        exact absurd h1 (by simp)
    subst hspnil
    rcases tk? with _ | tk <;> simp only [] at h
    · by_cases hdig : pyIsDigit ch = true
      · rw [if_pos hdig] at h
        simp only [Except.ok.injEq, Prod.mk.injEq, Option.some.injEq] at h
        obtain ⟨rfl, rfl⟩ := h
        refine ⟨rfl, ⟨((skip_space st).rem.tail.takeWhile pyIsDigit).length + 1, rfl, ?_⟩,
          Or.inl rfl⟩
        simp only [lexSt_pos]
        omega
      · rw [if_neg hdig] at h
        by_cases hpar : ch = '('
        · subst hpar
          rw [if_pos rfl] at h
          rcases f with _ | f₀
          · rw [parse_tokens] at h; exact absurd h (by simp)
          · have h2 := h
            rw [parse_tokens] at h2
            rw [if_pos rfl] at h2
            obtain ⟨g1, g2, g3, L, g5⟩ := tl_fields f₀ h2
            have hadv : (advance (skip_space st)).pos - 1 = (skip_space st).pos := by
              simp [advance]
            rw [hadv] at g1 g3
            have hs1 : SuffSt (skip_space st) st₂ :=
              suffSt_trans (suffSt_advance hcs) ((consume_all (f₀ + 1)).2.2.1 _ _ _ _ h)
            obtain ⟨cc, -, hpp⟩ := hs1
            exact ⟨g1, ⟨st₂.pos - (skip_space st).pos, g3, by omega⟩,
              Or.inr ⟨f₀ + 1, cs, rfl, hcs, h⟩⟩
        · rw [if_neg hpar] at h
          by_cases hrp : ch = ')'
          · rw [if_pos hrp] at h; simp at h
          · rw [if_neg hrp] at h; simp at h
    · rcases hcase with ⟨hres, -, -⟩ | ⟨c, idt, rest', hrest, hcstart, hidt, hbnd, hres, hst₁⟩
      · exact absurd hres (by simp)
      · rw [Option.some.injEq] at hres
        have hres2 : tk = Tok.leaf ((skip_space st).pos) (String.mk (c :: idt)) := by
          rw [hres]
          simp
        have hst₁2 : st₁ = ⟨(skip_space st).pos + 1 + idt.length, rest'⟩ := by
          rw [hst₁]
          simp
        clear hres hst₁
        subst hres2
        subst hst₁2
        by_cases hkw :
            inStrList (Tok.leaf ((skip_space st).pos) (String.mk (c :: idt))).string
              KEYWORDS = true
        · rw [if_pos hkw] at h
          have hs0 : (Tok.leaf ((skip_space st).pos) (String.mk (c :: idt))).start =
              some ((skip_space st).pos) := rfl
          have hl0 : (Tok.leaf ((skip_space st).pos) (String.mk (c :: idt))).length =
              some ((⟨(skip_space st).pos + 1 + idt.length, rest'⟩ : LexSt).pos -
                (skip_space st).pos) := by
            have h0 : (Tok.leaf ((skip_space st).pos) (String.mk (c :: idt))).length =
                some (idt.length + 1) := rfl
            rw [h0]
            simp only [lexSt_pos]
            congr 1
            omega
          obtain ⟨g1, g2, g3⟩ := (span_all f).1 _ _ _ _ _ h hs0 hl0
          have hs1 : SuffSt (skip_space st) st₂ := by
            refine suffSt_trans (suffSt_parse_ident hpi) ?_
            exact (consume_all f).2.2.2.1 _ _ _ _ h
          obtain ⟨cc, -, hpp⟩ := hs1
          exact ⟨g1, ⟨st₂.pos - (skip_space st).pos, g2, by omega⟩, Or.inl (g3.trans rfl)⟩
        · rw [if_neg hkw] at h
          simp only [Except.ok.injEq, Prod.mk.injEq, Option.some.injEq] at h
          obtain ⟨rfl, rfl⟩ := h
          refine ⟨rfl, ⟨idt.length + 1, rfl, ?_⟩, Or.inl rfl⟩
          simp only [lexSt_pos]
          omega

/-- Every token returned by `next_token` from a state on `S` re-lexes from
its recorded span of `S`: running `next_token` on exactly the recorded slice
consumes all of it and returns an equivalent token. -/
theorem nt_relex {f : Nat} {S : List Char} {st : LexSt} {tok : Tok} {st₂ : LexSt}
    (hS : OnS S st) (h : next_token f st = .ok (some tok, st₂)) : spanRelexes S tok := by
  rcases f with _ | f
  · rw [next_token] at h; exact absurd h (by simp)
  obtain ⟨hstart, ⟨n, hlen, hpos⟩, -⟩ := nt_shape h
  have hS' : OnS S (skip_space st) := onS_suff hS (suffSt_skip st)
  have hrun : next_token (f + 1) (skip_space st) = .ok (some tok, st₂) := by
    rw [← next_token_skip]
    exact h
  obtain ⟨core, hcore, hp⟩ := (consume_all (f + 1)).1 _ _ _ hrun
  have hcl : core.length = n := by omega
  rcases hss : skip_space st with ⟨a, r⟩
  rw [hss] at hstart hrun hcore hS' hp hpos
  rcases st₂ with ⟨p₂, τ⟩
  simp only [lexSt_pos, lexSt_rem] at hstart hpos hp hcore
  subst hcore
  have hp2 : p₂ = a + core.length := hp
  subst hp2
  obtain ⟨tok₂, hrun3, hequiv⟩ :=
    (sim_all (f + 1)).2.2.2.2.2 a core τ tok hrun 0 [] (Or.inl rfl)
  refine ⟨a, n, hstart, hlen, f + 1, tok₂, ?_, hequiv⟩
  have hSa : S.drop a = core ++ τ := hS'.1.symm
  have hslice : (S.drop a).take n = core := by
    rw [hSa, ← hcl, List.take_left]
  rw [hslice]
  rw [List.append_nil] at hrun3
  simpa using hrun3

set_option maxHeartbeats 1000000 in
/-- Every token of a token tree produced by `next_token` re-lexes from its
recorded span, and every token of a group built by `tokens_loop` (except
possibly the group itself) re-lexes from its recorded span. -/
theorem relex_all : ∀ f, RelNT f ∧ RelTL f := by
  intro f
  induction f using Nat.strong_induction_on with
  | _ f ih =>
    rcases f with _ | f
    · constructor
      · intro S st tok st₂ _ h
        rw [next_token] at h
        exact absurd h (by simp)
      · intro S nested start items st g st₂ _ _ h
        rw [tokens_loop] at h
        exact absurd h (by simp)
    · have ihNT : ∀ g, g < f + 1 → RelNT g := fun g hg => (ih g (by omega)).1
      have ihTL : ∀ g, g < f + 1 → RelTL g := fun g hg => (ih g (by omega)).2
      constructor
      · intro S st tok st₂ hS h
        have hroot : spanRelexes S tok := nt_relex hS h
        obtain ⟨-, -, hitems⟩ := nt_shape h
        rcases hitems with hnone | ⟨f', cs, hf, hcs, hpt⟩
        · intro u hu
          rw [subTok_leaf hnone hu]
          exact hroot
        · rw [show f' = f from by omega] at hpt
          rcases f with _ | f₀
          · rw [parse_tokens] at hpt
            exact absurd hpt (by simp)
          · rw [parse_tokens] at hpt
            rw [if_pos rfl] at hpt
            have hS' : OnS S (skip_space st) := onS_suff hS (suffSt_skip st)
            have hSa : OnS S (advance (skip_space st)) := onS_suff hS' (suffSt_advance hcs)
            have hrel := ihTL f₀ (by omega) S true _ [] (advance (skip_space st)) tok st₂ hSa
              (by intro t ht; simp at ht) hpt
            intro u hu
            rcases hrel u hu with heq | hsp
            · rw [heq]
              exact hroot
            · exact hsp
      · intro S nested start items st g st₂ hS hitems h
        rw [tokens_loop] at h
        by_cases hcl : (nested = true ∧ curchar st = some ')')
        · rw [if_pos hcl] at h
          simp only [Except.ok.injEq, Prod.mk.injEq, Option.some.injEq] at h
          obtain ⟨rfl, rfl⟩ := h
          intro u hu
          rcases subTok_group (show (Tok.mk (some start) none [] (some ((advance st).pos - start))
              (some items)).items = some items from rfl) hu with heq | ⟨t, ht, hut⟩
          · exact Or.inl heq
          · exact Or.inr (hitems t ht u hut)
        · rw [if_neg hcl] at h
          rcases hnt : next_token f st with e | ⟨tk?, st₁⟩
          · rw [hnt] at h
            exact absurd h (by simp)
          · rw [hnt] at h
            rcases tk? with _ | tok₀ <;> simp only [] at h
            · by_cases hn : nested = true
              · rw [if_pos hn] at h
                exact absurd h (by simp)
              · rw [if_neg hn] at h
                simp only [Except.ok.injEq, Prod.mk.injEq, Option.some.injEq] at h
                obtain ⟨rfl, rfl⟩ := h
                intro u hu
                rcases subTok_group (show (Tok.mk (some start) none [] (some (st₁.pos - start))
                    (some items)).items = some items from rfl) hu with heq | ⟨t, ht, hut⟩
                · exact Or.inl heq
                · exact Or.inr (hitems t ht u hut)
            · have hS₁ : OnS S st₁ := onS_suff hS ((consume_all f).1 _ _ _ hnt)
              have htok : ∀ u, SubTok u tok₀ → spanRelexes S u :=
                ihNT f (by omega) S st tok₀ st₁ hS hnt
              have hitems₁ : ∀ t ∈ items ++ [tok₀], ∀ u, SubTok u t → spanRelexes S u := by
                intro t ht
                rcases List.mem_append.mp ht with h1 | h2
                · exact hitems t h1
                · rw [List.mem_singleton.mp h2]
                  exact htok
              exact ihTL f (by omega) S nested start (items ++ [tok₀]) st₁ g st₂ hS₁ hitems₁ h

/-- Claim C10: for every token produced by a successful lex of an input
string, re-lexing the exact substring of the input spanned by that token
(`input[start : start + length]`) reproduces an equivalent token — for
leaves the same lexeme string and the same modifier set, for groups the
same child count and structure.  The root group spans the whole line and
re-lexing its slice through the line lexer reproduces it; every other token
of the tree records a span whose slice, run through the lexer's
`next_token`, is consumed entirely and yields an equivalent token. -/
theorem c10_theorem (s : String) (root : Tok) (h : lexLine s = .ok root) :
    (∃ a n root₂, root.start = some a ∧ root.length = some n ∧
        lexLine (String.mk ((s.data.drop a).take n)) = .ok root₂ ∧ EquivTok root root₂) ∧
    (∀ t, SubTok t root → t = root ∨ spanRelexes s.data t) := by
  have h0 := h
  rw [lexLine] at h0
  rcases hpt : parse_tokens (lexFuel s) false ⟨0, s.data⟩ with e | ⟨g?, st₂⟩
  · rw [hpt] at h0
    exact absurd h0 (by simp)
  rw [hpt] at h0
  rcases g? with _ | g
  · exact absurd h0 (by simp)
  simp only [Except.ok.injEq] at h0
  subst h0
  obtain ⟨m, hm⟩ : ∃ m, lexFuel s = m + 1 := ⟨8 * (s.length + 1) + 7, by rw [lexFuel]⟩
  rw [hm] at hpt
  rw [parse_tokens] at hpt
  rw [if_neg (by simp)] at hpt
  simp only [lexSt_pos] at hpt
  have hS : OnS s.data ⟨0, s.data⟩ := ⟨by simp, by simp⟩
  constructor
  · obtain ⟨g1, -, g3, L, -⟩ := tl_fields m hpt
    have hend : st₂.rem = [] := tl_end m hpt
    have hS₂ : OnS s.data st₂ := onS_suff hS ((consume_all m).2.1 _ _ _ _ _ _ hpt)
    have hpos : st₂.pos = s.data.length := onS_pos_eq hS₂ hend
    refine ⟨0, s.data.length, g, g1, ?_, ?_, equivTok_refl g⟩
    · rw [g3, hpos]
      simp
    · have he1 : (s.data.drop 0).take s.data.length = s.data := by simp
      rw [he1]
      have he2 : String.mk s.data = s := by
        rcases s with ⟨d⟩
        rfl
      rw [he2]
      exact h
  · intro t ht
    exact (relex_all m).2 s.data false 0 [] ⟨0, s.data⟩ g st₂ hS
      (by intro t' ht'; simp at ht') hpt t ht

/-- Witness for claim C10 at the concrete input `"int (x)"`: the lexed root
group spans the whole input and every token of its tree re-lexes from its
recorded span. -/
theorem c10_witness :
    (∃ a n root₂,
        (Tok.mk (some 0) none [] (some 7)
          (some [Tok.mk (some 0) (some "int") [] (some 3) none,
            Tok.mk (some 4) none [] (some 3)
              (some [Tok.mk (some 5) (some "x") [] (some 1) none])])).start = some a ∧
        (Tok.mk (some 0) none [] (some 7)
          (some [Tok.mk (some 0) (some "int") [] (some 3) none,
            Tok.mk (some 4) none [] (some 3)
              (some [Tok.mk (some 5) (some "x") [] (some 1) none])])).length = some n ∧
        lexLine (String.mk ((("int (x)" : String).data.drop a).take n)) = .ok root₂ ∧
        EquivTok (Tok.mk (some 0) none [] (some 7)
          (some [Tok.mk (some 0) (some "int") [] (some 3) none,
            Tok.mk (some 4) none [] (some 3)
              (some [Tok.mk (some 5) (some "x") [] (some 1) none])])) root₂) ∧
    (∀ t, SubTok t (Tok.mk (some 0) none [] (some 7)
          (some [Tok.mk (some 0) (some "int") [] (some 3) none,
            Tok.mk (some 4) none [] (some 3)
              (some [Tok.mk (some 5) (some "x") [] (some 1) none])])) →
        t = (Tok.mk (some 0) none [] (some 7)
          (some [Tok.mk (some 0) (some "int") [] (some 3) none,
            Tok.mk (some 4) none [] (some 3)
              (some [Tok.mk (some 5) (some "x") [] (some 1) none])])) ∨
        spanRelexes ("int (x)" : String).data t) :=
  c10_theorem "int (x)"
    (Tok.mk (some 0) none [] (some 7)
      (some [Tok.mk (some 0) (some "int") [] (some 3) none,
        Tok.mk (some 4) none [] (some 3)
          (some [Tok.mk (some 5) (some "x") [] (some 1) none])])) rfl


end Cdecl
